import Mathlib

/-!
# libsdr demodulators (`src/demod.hh`)

A shallow embedding of the four stream nodes of `demod.hh` (`AMDemod`, `USBDemod`, `FMDemod`,
`FMDeemph`) together with the properties proved about them.

* Buffers are raw storage (a list of cells, think bytes) read and written through typed views,
  so that the in-place paths, which view the storage of the complex input buffer as a buffer of
  output scalars, are modelled with their aliasing.
* Indexing is bounds checked: a read or write outside the storage makes `process` return `none`.
* The scalar types are template parameters of the nodes; their arithmetic is passed in as a
  record of operations, with concrete records for the fixed-width signed integers.
* `send` calls are recorded in the order they are made; `config` returns what it did.
-/

set_option autoImplicit false

namespace sdr

/-! ## Collaborators declared outside `demod.hh` -/

/-- Modelled from the spec: the scalar kinds for which `Config::typeId` hands out identifiers
(`config.hh` is not part of the sources). -/
inductive ScalarId
  | u8 | s8 | u16 | s16 | f32 | f64
  deriving DecidableEq

/-- Modelled from the spec: the equality-comparable type identifier scheme of `Config` (missing
`config.hh`), with an identifier for `T` and a distinct one for complex-of-`T`. -/
inductive TypeId
  | real (s : ScalarId)
  | cplx (s : ScalarId)
  deriving DecidableEq

/-- Modelled from the spec: the configuration descriptor (missing `config.hh`), an immutable
value with optional element type, sample rate, buffer size and buffer count. The type `ρ` is the
type of sample rates. -/
structure Config (ρ : Type) where
  type : Option TypeId
  sampleRate : Option ρ
  bufferSize : Option Nat
  numBuffers : Option Nat

/-- Modelled from the spec: presence predicate of the element type (missing `config.hh`). -/
def Config.hasType {ρ : Type} (c : Config ρ) : Bool := c.type.isSome

/-- Modelled from the spec: presence predicate of the sample rate (missing `config.hh`). -/
def Config.hasSampleRate {ρ : Type} (c : Config ρ) : Bool := c.sampleRate.isSome

/-- Modelled from the spec: presence predicate of the buffer size (missing `config.hh`). -/
def Config.hasBufferSize {ρ : Type} (c : Config ρ) : Bool := c.bufferSize.isSome

/-- The four nodes of `demod.hh`. -/
inductive Node
  | AMDemod | USBDemod | FMDemod | FMDeemph
  deriving DecidableEq

/-- The `ConfigError` thrown by `config`: the node that raised it, the type found in the
descriptor and the type the node expected. -/
structure ConfigError where
  node : Node
  actual : TypeId
  expected : TypeId
  deriving DecidableEq

/-- What a call of `config` did: returned early, threw, or called `setConfig` once with the
derived descriptor. -/
inductive ConfigOutcome (ρ : Type)
  | skipped
  | raised (err : ConfigError)
  | configured (derived : Config ρ)

/-- Modelled from the spec: how a value of type `τ` is laid out in raw storage (`sizeof` and
the object representation; missing `buffer.hh`, `traits.hh`). -/
structure Codec (κ τ : Type) where
  size : Nat
  enc : τ → List κ
  dec : List κ → τ

/-- A codec is well formed when a value occupies exactly `size > 0` cells and reading back what
was stored returns the value. -/
structure Codec.WF {κ τ : Type} (C : Codec κ τ) : Prop where
  size_pos : 0 < C.size
  enc_length : ∀ v, (C.enc v).length = C.size
  dec_enc : ∀ v, C.dec (C.enc v) = v

/-- Layout of `std::complex<T>`: the real part followed by the imaginary part. -/
def Codec.complex {κ τ : Type} (C : Codec κ τ) : Codec κ (τ × τ) where
  size := 2 * C.size
  enc := fun z => C.enc z.1 ++ C.enc z.2
  dec := fun cells => (C.dec (cells.take C.size), C.dec ((cells.drop C.size).take C.size))

/-- The layout in which every scalar occupies exactly one cell. -/
def Codec.cell {τ : Type} (dflt : τ) : Codec τ τ where
  size := 1
  enc := fun v => [v]
  dec := fun cells => cells.headD dflt

/-- The cells `off, ..., off + len - 1` of a storage. -/
def slice {κ : Type} (mem : List κ) (off len : Nat) : List κ := (mem.drop off).take len

/-- Modelled from the spec: `Buffer<T>::size()`, the number of elements of the view (missing
`buffer.hh`). -/
def Buffer.size {κ τ : Type} (C : Codec κ τ) (mem : List κ) : Nat := mem.length / C.size

/-- Modelled from the spec: `Buffer<T>(N)`, fresh storage for `N` elements whose contents are
whatever the allocator returned (`junk`) (missing `buffer.hh`). -/
def Buffer.alloc {κ τ : Type} (C : Codec κ τ) (junk : Nat → κ) (N : Nat) : List κ :=
  (List.range (N * C.size)).map junk

/-- Element `i` of a view: the value its cells decode to. -/
def Buffer.peek {κ τ : Type} (C : Codec κ τ) (mem : List κ) (i : Nat) : τ :=
  C.dec (slice mem (i * C.size) C.size)

/-- Modelled from the spec: reading `buffer[i]`, bounds checked (missing `buffer.hh`). -/
def Buffer.get {κ τ : Type} (C : Codec κ τ) (mem : List κ) (i : Nat) : Option τ :=
  if (i + 1) * C.size ≤ mem.length then some (Buffer.peek C mem i) else none

/-- Modelled from the spec: the store `buffer[i] = v`, bounds checked (missing `buffer.hh`). -/
def Buffer.set {κ τ : Type} (C : Codec κ τ) (mem : List κ) (i : Nat) (v : τ) :
    Option (List κ) :=
  if (i + 1) * C.size ≤ mem.length then
    some (mem.take (i * C.size) ++ C.enc v ++ mem.drop ((i + 1) * C.size))
  else none

/-- Modelled from the spec: `buffer.head(n)`, the view on the first `n` elements, bounds
checked (missing `buffer.hh`). -/
def Buffer.head {κ τ : Type} (C : Codec κ τ) (mem : List κ) (n : Nat) : Option (List κ) :=
  if n * C.size ≤ mem.length then some (mem.take (n * C.size)) else none

/-- The elements of a view, in order. -/
def Buffer.elems {κ τ : Type} (C : Codec κ τ) (mem : List κ) : List τ :=
  (List.range (Buffer.size C mem)).map (Buffer.peek C mem)

/-- The two storages a `process` call touches: the storage of the buffer it was handed and the
storage of the node's own `_buffer`. -/
inductive Storage
  | input | scratch
  deriving DecidableEq

/-- The contents of both storages while `process` runs. -/
structure Mem (κ : Type) where
  input : List κ
  scratch : List κ

/-- The contents of one of the storages. -/
def Mem.sel {κ : Type} (m : Mem κ) : Storage → List κ
  | .input => m.input
  | .scratch => m.scratch

/-- Replace the contents of one of the storages. -/
def Mem.put {κ : Type} (m : Mem κ) : Storage → List κ → Mem κ
  | .input, a => { m with input := a }
  | .scratch, a => { m with scratch := a }

/-- The store `out[i] = v` for an output view on the storage `o`. -/
def Mem.set {κ τ : Type} (C : Codec κ τ) (o : Storage) (m : Mem κ) (i : Nat) (v : τ) :
    Option (Mem κ) :=
  (Buffer.set C (m.sel o) i v).map (m.put o)

/-- One `send(buffer, allow_overwrite)` call: the cells of the view that was sent, the flag,
and the storage the view lives in. -/
structure Sent (κ : Type) where
  buffer : List κ
  allow_overwrite : Bool
  storage : Storage

/-- The loop `for (size_t i = start; i < start + count; i++) body`. -/
def forLoop {σ : Type} (body : Nat → σ → Option σ) : Nat → Nat → σ → Option σ
  | 0, _, s => some s
  | count + 1, start, s =>
    match body start s with
    | none => none
    | some s' => forLoop body count (start + 1) s'

/-- The framework handing a node a sequence of buffers, each with its `allow_overwrite` flag,
one `process` call after the other; the buffers sent are collected in order. -/
def runAll {σ κ : Type}
    (process : σ → List κ → Bool → Option (σ × List κ × List (Sent κ))) :
    σ → List (List κ × Bool) → Option (σ × List (Sent κ))
  | st, [] => some (st, [])
  | st, b :: rest =>
    match process st b.1 b.2 with
    | none => none
    | some r =>
      match runAll process r.1 rest with
      | none => none
      | some r' => some (r'.1, r.2.2 ++ r'.2)

/-- A call the framework makes on a node: `config` with a descriptor (and the contents `junk`
of the storage the allocator hands out), or `process` with a buffer and a flag. -/
inductive Call (κ ρ : Type)
  | config (src_cfg : Config ρ) (junk : Nat → κ)
  | process (buffer : List κ) (allow_overwrite : Bool)

/-- The framework making a sequence of calls on a node. Next to the node the run keeps the
buffer size of the most recent `config` call that succeeded, `0` before the first one. A
`config` call that throws or returns early is followed by the next call. -/
def drive {σ κ ρ : Type} (config : (Nat → κ) → σ → Config ρ → σ × ConfigOutcome ρ)
    (process : σ → List κ → Bool → Option (σ × List κ × List (Sent κ))) :
    σ × Nat → List (Call κ ρ) → Option (σ × Nat)
  | s, [] => some s
  | s, .config src_cfg junk :: rest =>
    match (config junk s.1 src_cfg).2 with
    | .configured _ =>
      drive config process ((config junk s.1 src_cfg).1, src_cfg.bufferSize.getD 0) rest
    | _ => drive config process ((config junk s.1 src_cfg).1, s.2) rest
  | s, .process buffer allow_overwrite :: rest =>
    match process s.1 buffer allow_overwrite with
    | none => none
    | some r => drive config process (r.1, s.2) rest

/-- Two's complement wrap-around of an integer to `w` bits (signed). -/
def wrapS (w : Nat) (x : Int) : Int := (x + 2 ^ (w - 1)) % 2 ^ w - 2 ^ (w - 1)

/-- The values of a `w`-bit signed integer type. -/
def InRange (w : Nat) (x : Int) : Prop := -(2 ^ (w - 1)) ≤ x ∧ x < 2 ^ (w - 1)

instance (w : Nat) (x : Int) : Decidable (InRange w x) := by
  unfold InRange; infer_instance

/-! ## AMDemod -/

/-- The arithmetic `AMDemod<Scalar>` uses: products and sum in the promoted type `P`, and
`std::sqrt` followed by the conversion back to `Scalar` of the store. -/
structure AMArith (α P : Type) where
  mul : α → α → P
  add : P → P → P
  sqrt : P → α

/-- State of an `AMDemod<Scalar>`: the output buffer `_buffer`. -/
structure AMDemod (κ : Type) where
  _buffer : List κ

/-- The constructor `AMDemod()`: the output buffer is empty. -/
def AMDemod.new {κ : Type} : AMDemod κ := { _buffer := [] }

/-- The method `AMDemod::config` (lines 35-62). The log message is not modelled. -/
def AMDemod.config {κ α ρ : Type} (C : Codec κ α) (sid : ScalarId) (junk : Nat → κ)
    (self : AMDemod κ) (src_cfg : Config ρ) : AMDemod κ × ConfigOutcome ρ :=
  if !src_cfg.hasType || !src_cfg.hasBufferSize then (self, .skipped) else
  match src_cfg.type, src_cfg.bufferSize with
  | some ty, some bufferSize =>
    if TypeId.cplx sid ≠ ty then
      (self, .raised { node := .AMDemod, actual := ty, expected := .cplx sid })
    else
      -- _buffer.unref(); _buffer = Buffer<Scalar>(src_cfg.bufferSize());
      ({ self with _buffer := Buffer.alloc C junk bufferSize },
        .configured { type := some (.real sid), sampleRate := src_cfg.sampleRate,
                      bufferSize := some bufferSize, numBuffers := src_cfg.numBuffers })
  | _, _ => (self, .skipped)

/-- The value stored for one sample (lines 74-75). -/
def AMDemod.sample {α P : Type} (A : AMArith α P) (x : α × α) : α :=
  A.sqrt (A.add (A.mul x.1 x.1) (A.mul x.2 x.2))

/-- The method `AMDemod::process` (lines 65-81). Returns the node, the contents of the input
storage after the call and the buffers sent. -/
def AMDemod.process {κ α P : Type} (A : AMArith α P) (C : Codec κ α) (self : AMDemod κ)
    (buffer : List κ) (allow_overwrite : Bool) :
    Option (AMDemod κ × List κ × List (Sent κ)) :=
  let out_buffer := if allow_overwrite then Storage.input else Storage.scratch
  let n := Buffer.size C.complex buffer
  (forLoop (fun i (m : Mem κ) =>
      (Buffer.get C.complex m.input i).bind fun x =>
        Mem.set C out_buffer m i (AMDemod.sample A x))
      n 0 { input := buffer, scratch := self._buffer }).bind fun m =>
  (Buffer.head C (m.sel out_buffer) n).bind fun h =>
  some ({ self with _buffer := m.scratch }, m.input,
    [{ buffer := h, allow_overwrite := true, storage := out_buffer }])

/-- Exact arithmetic on integer valued samples, the square root rounded down. -/
def AMArith.exact : AMArith Int Int where
  mul := fun a b => a * b
  add := fun a b => a + b
  sqrt := fun x => Int.sqrt x

/-! ## USBDemod -/

/-- The arithmetic `USBDemod<Scalar>` uses: the conversion `SScalar(x)`, the sum and the
division by two in the compute type `σ`, and the conversion back to `Scalar` of the store. -/
structure USBArith (α σ : Type) where
  wide : α → σ
  add : σ → σ → σ
  half : σ → σ
  narrow : σ → α

/-- State of a `USBDemod<Scalar>`: the output buffer `_buffer`. -/
structure USBDemod (κ : Type) where
  _buffer : List κ

/-- The constructor `USBDemod()`: the output buffer is empty. -/
def USBDemod.new {κ : Type} : USBDemod κ := { _buffer := [] }

/-- The method `USBDemod::config` (lines 114-141). The log message is not modelled. -/
def USBDemod.config {κ α ρ : Type} (C : Codec κ α) (sid : ScalarId) (junk : Nat → κ)
    (self : USBDemod κ) (src_cfg : Config ρ) : USBDemod κ × ConfigOutcome ρ :=
  if !src_cfg.hasType || !src_cfg.hasBufferSize then (self, .skipped) else
  match src_cfg.type, src_cfg.bufferSize with
  | some ty, some bufferSize =>
    if TypeId.cplx sid ≠ ty then
      (self, .raised { node := .USBDemod, actual := ty, expected := .cplx sid })
    else
      -- _buffer.unref(); _buffer = Buffer<Scalar>(src_cfg.bufferSize());
      ({ self with _buffer := Buffer.alloc C junk bufferSize },
        .configured { type := some (.real sid), sampleRate := src_cfg.sampleRate,
                      bufferSize := some bufferSize, numBuffers := some 1 })
  | _, _ => (self, .skipped)

/-- The value stored for one sample (line 158). -/
def USBDemod.sample {α σ : Type} (A : USBArith α σ) (x : α × α) : α :=
  A.narrow (A.half (A.add (A.wide x.1) (A.wide x.2)))

/-- The method `USBDemod::_process` (lines 156-161); `in` is the input storage, `out` a view on
the storage `out`. The flag `send_default` is the default value of the second parameter of
`send`, declared in the missing `node.hh`. -/
def USBDemod._process {κ α σ : Type} (A : USBArith α σ) (C : Codec κ α) (send_default : Bool)
    (out : Storage) (m : Mem κ) : Option (Mem κ × List (Sent κ)) :=
  let n := Buffer.size C.complex m.input
  (forLoop (fun i (m : Mem κ) =>
      (Buffer.get C.complex m.input i).bind fun x =>
        Mem.set C out m i (USBDemod.sample A x)) n 0 m).bind fun m =>
  (Buffer.head C (m.sel out) n).bind fun h =>
  some (m, [{ buffer := h, allow_overwrite := send_default, storage := out }])

/-- The method `USBDemod::process` (lines 144-152). -/
def USBDemod.process {κ α σ : Type} (A : USBArith α σ) (C : Codec κ α) (send_default : Bool)
    (self : USBDemod κ) (buffer : List κ) (allow_overwrite : Bool) :
    Option (USBDemod κ × List κ × List (Sent κ)) :=
  let m : Mem κ := { input := buffer, scratch := self._buffer }
  (if allow_overwrite then USBDemod._process A C send_default .input m
   else USBDemod._process A C send_default .scratch m).bind fun r =>
  some ({ self with _buffer := r.1.scratch }, r.1.input, r.2)

/-- The arithmetic of `USBDemod` for a `w`-bit signed `Scalar` whose `SScalar` has `s` bits,
sums being computed in `p` bits (`p` is `s`, or the width of `int` when `SScalar` is promoted).
`/2` truncates toward zero. -/
def USBArith.int (w s p : Nat) : USBArith Int Int where
  wide := fun x => wrapS s x
  add := fun a b => wrapS p (a + b)
  half := fun a => Int.tdiv a 2
  narrow := fun a => wrapS w a

/-! ## FMDemod -/

/-- The arithmetic `FMDemod<iScalar, oScalar>` uses: `fast_atan2<iScalar, oScalar>` (declared
in the missing `math.hh`), the halving stored into `oScalar phi`, the difference stored into
`out[i]`, and the constant `0`. -/
structure FMArith (ι β : Type) where
  fast_atan2 : ι → ι → β
  half : β → β
  sub : β → β → β
  zero : β

/-- State of an `FMDemod<iScalar, oScalar>`. -/
structure FMDemod (κ β : Type) where
  _shift : Int
  _last_value : β
  _can_overwrite : Bool
  _buffer : List κ

/-- The constructor `FMDemod()`: `_last_value` is not initialised (`junk`); sizes are counted in
bytes. -/
def FMDemod.new {κ ι β : Type} (Ci : Codec κ ι) (Co : Codec κ β) (junk : β) : FMDemod κ β :=
  { _shift := 8 * ((Co.size : Int) - (Ci.size : Int)), _last_value := junk,
    _can_overwrite := false, _buffer := [] }

/-- The method `FMDemod::config` (lines 195-226). The log message is not modelled. -/
def FMDemod.config {κ ι β ρ : Type} (F : FMArith ι β) (Ci : Codec κ ι) (Co : Codec κ β)
    (isid osid : ScalarId) (junk : Nat → κ) (self : FMDemod κ β) (src_cfg : Config ρ) :
    FMDemod κ β × ConfigOutcome ρ :=
  if !src_cfg.hasType || !src_cfg.hasBufferSize then (self, .skipped) else
  match src_cfg.type, src_cfg.bufferSize with
  | some ty, some bufferSize =>
    if TypeId.cplx isid ≠ ty then
      (self, .raised { node := .FMDemod, actual := ty, expected := .cplx isid })
    else
      -- if (! _buffer.isEmpty()) { _buffer.unref(); } _buffer = Buffer<oScalar>(...);
      ({ self with _buffer := Buffer.alloc Co junk bufferSize,
                   _last_value := F.zero,
                   _can_overwrite := decide (Ci.complex.size ≥ Co.size) },
        .configured { type := some (.real osid), sampleRate := src_cfg.sampleRate,
                      bufferSize := some bufferSize, numBuffers := some 1 })
  | _, _ => (self, .skipped)

/-- The value `phi` computed for one sample (line 246). -/
def FMDemod.phi {ι β : Type} (F : FMArith ι β) (x : ι × ι) : β :=
  F.half (F.fast_atan2 x.1 x.2)

/-- The method `FMDemod::_process` (lines 242-254), started with `_last_value = last`; returns
the final `_last_value`, the storages and the buffers sent. -/
def FMDemod._process {κ ι β : Type} (F : FMArith ι β) (Ci : Codec κ ι) (Co : Codec κ β)
    (send_default : Bool) (out : Storage) (last : β) (m : Mem κ) :
    Option (β × Mem κ × List (Sent κ)) :=
  let n := Buffer.size Ci.complex m.input
  (forLoop (fun i (s : β × Mem κ) =>
      (Buffer.get Ci.complex s.2.input i).bind fun x =>
        let phi := FMDemod.phi F x
        (Mem.set Co out s.2 i (F.sub s.1 phi)).bind fun m' =>
        some (phi, m')) (n - 1) 1 (last, m)).bind fun s =>
  (Buffer.head Co (s.2.sel out) n).bind fun h =>
  some (s.1, s.2, [{ buffer := h, allow_overwrite := send_default, storage := out }])

/-- The method `FMDemod::process` (lines 229-238). -/
def FMDemod.process {κ ι β : Type} (F : FMArith ι β) (Ci : Codec κ ι) (Co : Codec κ β)
    (send_default : Bool) (self : FMDemod κ β) (buffer : List κ) (allow_overwrite : Bool) :
    Option (FMDemod κ β × List κ × List (Sent κ)) :=
  if 0 = Buffer.size Ci.complex buffer then some (self, buffer, []) else
  let m : Mem κ := { input := buffer, scratch := self._buffer }
  (if allow_overwrite && self._can_overwrite then
     FMDemod._process F Ci Co send_default .input self._last_value m
   else FMDemod._process F Ci Co send_default .scratch self._last_value m).bind fun r =>
  some ({ self with _last_value := r.1, _buffer := r.2.1.scratch }, r.2.1.input, r.2.2)

/-- An arithmetic for running `FMDemod` on concrete 16-bit inputs. The function `fast_atan2`
is declared in the missing `math.hh`; this record puts in its place the centre angle of the
quadrant of `(re, im)`, half a turn being `32768`. -/
def FMArith.quadrant : FMArith Int Int where
  fast_atan2 := fun re im =>
    if re = 0 ∧ im = 0 then 0
    else if 0 ≤ im then (if 0 < re then 8192 else 24576)
    else (if 0 < re then -8192 else -24576)
  half := fun a => Int.tdiv a 2
  sub := fun a b => wrapS 16 (a - b)
  zero := 0

/-! ## FMDeemph -/

/-- The arithmetic `FMDeemph<Scalar>` uses: the difference stored into `Scalar diff`, the test
`diff > 0`, `diff + k` and `diff - k` for an `int` `k` in the promoted type `P`, the division
by the `int` `_alpha` (`none`: integer division by zero), `_avg += q`, and the constant `0`. -/
structure DeemphArith (α P : Type) where
  zero : α
  sub : α → α → α
  isPos : α → Bool
  addInt : α → Int → P
  subInt : α → Int → P
  divInt : P → Int → Option P
  accum : α → P → α

/-- State of an `FMDeemph<Scalar>`. -/
structure FMDeemph (κ α : Type) where
  _enabled : Bool
  _alpha : Int
  _avg : α
  _buffer : List κ

/-- The constructor `FMDeemph(bool enabled=true)`. -/
def FMDeemph.new {κ α P : Type} (A : DeemphArith α P) (enabled : Bool) : FMDeemph κ α :=
  { _enabled := enabled, _alpha := 0, _avg := A.zero, _buffer := [] }

/-- The method `FMDeemph::isEnabled` (line 288). -/
def FMDeemph.isEnabled {κ α : Type} (self : FMDeemph κ α) : Bool := self._enabled

/-- The method `FMDeemph::enable` (line 291). -/
def FMDeemph.enable {κ α : Type} (self : FMDeemph κ α) (enabled : Bool) : FMDeemph κ α :=
  { self with _enabled := enabled }

/-- The method `FMDeemph::config` (lines 294-322). `alphaOf` is the floating point computation
`(int)round(1.0/(1.0-exp(-1.0/(sampleRate*75e-6))))`. The log message is not modelled. -/
def FMDeemph.config {κ α P ρ : Type} (A : DeemphArith α P) (C : Codec κ α) (sid : ScalarId)
    (alphaOf : ρ → Int) (junk : Nat → κ) (self : FMDeemph κ α) (src_cfg : Config ρ) :
    FMDeemph κ α × ConfigOutcome ρ :=
  if !src_cfg.hasType || !src_cfg.hasSampleRate || !src_cfg.hasBufferSize then
    (self, .skipped)
  else
  match src_cfg.type, src_cfg.sampleRate, src_cfg.bufferSize with
  | some ty, some sampleRate, some bufferSize =>
    if TypeId.real sid ≠ ty then
      (self, .raised { node := .FMDeemph, actual := ty, expected := .real sid })
    else
      ({ self with _alpha := alphaOf sampleRate,
                   _avg := A.zero,
                   _buffer := Buffer.alloc C junk bufferSize },
        .configured { type := some ty, sampleRate := some sampleRate,
                      bufferSize := some bufferSize, numBuffers := some 1 })
  | _, _, _ => (self, .skipped)

/-- The function `round` of the C library on exact reals: the nearest integer, halves rounded
away from zero. -/
noncomputable def cround (x : ℝ) : Int := if 0 ≤ x then ⌊x + 1 / 2⌋ else ⌈x - 1 / 2⌉

/-- The filter constant of lines 305-306, `round(1.0/(1.0-exp(-1.0/(sampleRate*75e-6))))`,
over exact real arithmetic in place of `double`, and without the wrap-around of the conversion
to `int`. -/
noncomputable def FMDeemph.alphaReal (sampleRate : ℝ) : Int :=
  cround (1.0 / (1.0 - Real.exp (-1.0 / (sampleRate * 75e-6))))

/-- The update of `_avg` for one input sample `x` (lines 345-347). -/
def FMDeemph.update {α P : Type} (A : DeemphArith α P) (alpha : Int) (avg x : α) : Option α :=
  let diff := A.sub x avg
  (if A.isPos diff then A.divInt (A.addInt diff (Int.tdiv alpha 2)) alpha
   else A.divInt (A.subInt diff (Int.tdiv alpha 2)) alpha).bind fun q =>
  some (A.accum avg q)

/-- The filtered values of a sequence of samples: the update of lines 345-347 applied to one
sample after the other, starting from the running average `avg`. Returns the final running
average and the value of `_avg` after every sample. -/
def FMDeemph.filter {α P : Type} (A : DeemphArith α P) (alpha : Int) :
    α → List α → Option (α × List α)
  | avg, [] => some (avg, [])
  | avg, x :: xs =>
    (FMDeemph.update A alpha avg x).bind fun avg' =>
    (FMDeemph.filter A alpha avg' xs).bind fun r =>
    some (r.1, avg' :: r.2)

/-- The method `FMDeemph::_process` (lines 342-351), started with `_avg = avg`; `in` is the
input storage, `out` a view on the storage `out`. Returns the final `_avg` and the storages. -/
def FMDeemph._process {κ α P : Type} (A : DeemphArith α P) (C : Codec κ α) (alpha : Int)
    (out : Storage) (avg : α) (m : Mem κ) : Option (α × Mem κ) :=
  forLoop (fun i (s : α × Mem κ) =>
      (Buffer.get C s.2.input i).bind fun x =>
      (FMDeemph.update A alpha s.1 x).bind fun avg' =>
      (Mem.set C out s.2 i avg').bind fun m' =>
      some (avg', m')) (Buffer.size C m.input) 0 (avg, m)

/-- The method `FMDeemph::process` (lines 325-338). -/
def FMDeemph.process {κ α P : Type} (A : DeemphArith α P) (C : Codec κ α)
    (self : FMDeemph κ α) (buffer : List κ) (allow_overwrite : Bool) :
    Option (FMDeemph κ α × List κ × List (Sent κ)) :=
  if !self._enabled then
    some (self, buffer, [{ buffer := buffer, allow_overwrite := allow_overwrite,
                           storage := .input }])
  else
  let m : Mem κ := { input := buffer, scratch := self._buffer }
  if allow_overwrite then
    (FMDeemph._process A C self._alpha .input self._avg m).bind fun r =>
    some ({ self with _avg := r.1, _buffer := r.2.scratch }, r.2.input,
      [{ buffer := r.2.input, allow_overwrite := allow_overwrite, storage := .input }])
  else
    (FMDeemph._process A C self._alpha .scratch self._avg m).bind fun r =>
    (Buffer.head C r.2.scratch (Buffer.size C buffer)).bind fun h =>
    some ({ self with _avg := r.1, _buffer := r.2.scratch }, r.2.input,
      [{ buffer := h, allow_overwrite := false, storage := .scratch }])

/-- The arithmetic of `FMDeemph` for a `w`-bit signed integer `Scalar`, `int` having `p` bits:
results of `int` arithmetic wrap to `p` bits, values stored into a `Scalar` wrap to `w` bits,
and `/` truncates toward zero. -/
def DeemphArith.int (w p : Nat) : DeemphArith Int Int where
  zero := 0
  sub := fun x avg => wrapS w (wrapS p (x - avg))
  isPos := fun diff => decide (0 < diff)
  addInt := fun diff k => wrapS p (diff + k)
  subInt := fun diff k => wrapS p (diff - k)
  divInt := fun x alpha => if alpha = 0 then none else some (wrapS p (Int.tdiv x alpha))
  accum := fun avg q => wrapS w (wrapS p (avg + q))

/-- The arithmetic of `FMDeemph` on integers without wrap-around: exact differences and sums,
`/` truncating toward zero. -/
def DeemphArith.exactInt : DeemphArith Int Int where
  zero := 0
  sub := fun x avg => x - avg
  isPos := fun diff => decide (0 < diff)
  addInt := fun diff k => diff + k
  subInt := fun diff k => diff - k
  divInt := fun x alpha => if alpha = 0 then none else some (Int.tdiv x alpha)
  accum := fun avg q => avg + q

/-- Exact rational arithmetic, which a floating point `Scalar` follows as long as every
intermediate value is representable; a division by zero has no rational value. -/
def DeemphArith.exact : DeemphArith ℚ ℚ where
  zero := 0
  sub := fun x avg => x - avg
  isPos := fun diff => decide (0 < diff)
  addInt := fun diff k => diff + (k : ℚ)
  subInt := fun diff k => diff - (k : ℚ)
  divInt := fun x alpha => if alpha = 0 then none else some (x / (alpha : ℚ))
  accum := fun avg q => avg + q

/-! ## Loops and storage: auxiliary facts -/

theorem forLoop_inv {σ : Type} (Inv : Nat → σ → Prop) (body : Nat → σ → Option σ) :
    ∀ (count start : Nat) (s : σ), Inv start s →
      (∀ j t, start ≤ j → j < start + count → Inv j t →
        ∃ t', body j t = some t' ∧ Inv (j + 1) t') →
      ∃ s', forLoop body count start s = some s' ∧ Inv (start + count) s' := by
  intro count
  induction count with
  | zero => intro start s h _; exact ⟨s, rfl, by simpa using h⟩
  | succ k ih =>
    intro start s h hstep
    obtain ⟨t, ht, hInv⟩ := hstep start s (Nat.le_refl _) (by omega) h
    obtain ⟨s', hs', hI⟩ := ih (start + 1) t hInv
      (fun j u h1 h2 hu => hstep j u (by omega) (by omega) hu)
    refine ⟨s', ?_, ?_⟩
    · simp only [forLoop, ht]; exact hs'
    · have : start + (k + 1) = start + 1 + k := by omega
      rw [this]; exact hI

theorem slice_getElem? {κ : Type} (mem : List κ) (off len j : Nat) :
    (slice mem off len)[j]? = if j < len then mem[off + j]? else none := by
  unfold slice
  rw [List.getElem?_take, List.getElem?_drop]

theorem slice_congr {κ : Type} (a b : List κ) (off len : Nat)
    (h : ∀ c, off ≤ c → c < off + len → a[c]? = b[c]?) : slice a off len = slice b off len := by
  apply List.ext_getElem?
  intro j
  rw [slice_getElem?, slice_getElem?]
  split
  · exact h _ (by omega) (by omega)
  · rfl

theorem slice_length {κ : Type} (mem : List κ) (off len : Nat) (h : off + len ≤ mem.length) :
    (slice mem off len).length = len := by
  unfold slice
  simp; omega

/-- Contents of a storage after a store of `bs` at offset `off`. -/
theorem blit_getElem? {κ : Type} (mem bs : List κ) (off c : Nat)
    (h : off + bs.length ≤ mem.length) :
    (mem.take off ++ bs ++ mem.drop (off + bs.length))[c]? =
      if c < off then mem[c]? else if c < off + bs.length then bs[c - off]? else mem[c]? := by
  have hl : (mem.take off).length = off := by simp; omega
  by_cases h1 : c < off
  · rw [if_pos h1, List.append_assoc, List.getElem?_append_left (by omega),
      List.getElem?_take_of_lt h1]
  · rw [if_neg h1, List.append_assoc, List.getElem?_append_right (by omega), hl]
    by_cases h2 : c < off + bs.length
    · rw [if_pos h2, List.getElem?_append_left (by omega)]
    · rw [if_neg h2, List.getElem?_append_right (by omega), List.getElem?_drop]
      congr 1; omega

theorem blit_length {κ : Type} (mem bs : List κ) (off : Nat)
    (h : off + bs.length ≤ mem.length) :
    (mem.take off ++ bs ++ mem.drop (off + bs.length)).length = mem.length := by
  simp; omega

/-- The storage `a` is the storage `a0` with the output elements `lo ≤ j < i` overwritten by
`vals j`. -/
structure Written {κ τ : Type} (C : Codec κ τ) (vals : Nat → τ) (lo i : Nat)
    (a0 a : List κ) : Prop where
  length_eq : a.length = a0.length
  outside : ∀ c, c < lo * C.size ∨ i * C.size ≤ c → a[c]? = a0[c]?
  inside : ∀ j, lo ≤ j → j < i → slice a (j * C.size) C.size = C.enc (vals j)

theorem Written.refl {κ τ : Type} (C : Codec κ τ) (vals : Nat → τ) (lo : Nat) (a0 : List κ) :
    Written C vals lo lo a0 a0 :=
  ⟨rfl, fun _ _ => rfl, fun j h1 h2 => absurd h1 (by omega)⟩

theorem Buffer.set_some {κ τ : Type} (C : Codec κ τ) (hC : C.WF) (a : List κ) (i : Nat) (v : τ)
    (hb : (i + 1) * C.size ≤ a.length) :
    ∃ a', Buffer.set C a i v = some a' ∧ a'.length = a.length ∧
      ∀ c, a'[c]? = if c < i * C.size then a[c]?
        else if c < (i + 1) * C.size then (C.enc v)[c - i * C.size]? else a[c]? := by
  have hlen := hC.enc_length v
  have hsucc : (i + 1) * C.size = i * C.size + (C.enc v).length := by rw [hlen]; ring
  refine ⟨_, by unfold Buffer.set; rw [if_pos hb], ?_, ?_⟩
  · rw [hsucc]; exact blit_length _ _ _ (by omega)
  · intro c
    rw [hsucc]; exact blit_getElem? _ _ _ _ (by omega)

theorem Written.set_step {κ τ : Type} {C : Codec κ τ} (hC : C.WF) {vals : Nat → τ} {lo i : Nat}
    {a0 a : List κ} (hW : Written C vals lo i a0 a) (hlo : lo ≤ i)
    (hb : (i + 1) * C.size ≤ a0.length) :
    ∃ a', Buffer.set C a i (vals i) = some a' ∧ Written C vals lo (i + 1) a0 a' := by
  obtain ⟨a', hset, hlen, hget⟩ :=
    Buffer.set_some C hC a i (vals i) (by rw [hW.length_eq]; exact hb)
  have hmono : lo * C.size ≤ i * C.size := Nat.mul_le_mul_right _ hlo
  have hsucc : (i + 1) * C.size = i * C.size + C.size := by ring
  refine ⟨a', hset, ⟨by rw [hlen, hW.length_eq], ?_, ?_⟩⟩
  · intro c hc
    rw [hget c]
    rcases hc with hc | hc
    · rw [if_pos (by omega)]; exact hW.outside c (Or.inl hc)
    · rw [if_neg (by omega), if_neg (by omega)]; exact hW.outside c (Or.inr (by omega))
  · intro j h1 h2
    by_cases hj : j = i
    · subst hj
      apply List.ext_getElem?
      intro k
      rw [slice_getElem?, hget]
      by_cases hk : k < C.size
      · rw [if_pos hk, if_neg (by omega), if_pos (by omega)]
        congr 1; omega
      · rw [if_neg hk, List.getElem?_eq_none]
        rw [hC.enc_length]; omega
    · have hji : j < i := by omega
      have hle : (j + 1) * C.size ≤ i * C.size := Nat.mul_le_mul_right _ hji
      have hsj : (j + 1) * C.size = j * C.size + C.size := by ring
      rw [← hW.inside j h1 hji]
      apply slice_congr
      intro c hc1 hc2
      rw [hget c, if_pos (by omega)]

theorem Written.get_ge {κ τ υ : Type} {C : Codec κ τ} (D : Codec κ υ) {vals : Nat → τ}
    {lo i : Nat} {a0 a : List κ} (hW : Written C vals lo i a0 a) (hsz : C.size ≤ D.size)
    (j : Nat) (hj : i ≤ j) : Buffer.get D a j = Buffer.get D a0 j := by
  unfold Buffer.get Buffer.peek
  rw [hW.length_eq]
  have h1 : i * C.size ≤ j * D.size := Nat.mul_le_mul hj hsz
  rw [slice_congr a a0 (j * D.size) D.size (fun c hc _ => hW.outside c (Or.inr (by omega)))]

theorem Buffer.size_take {κ τ : Type} (C : Codec κ τ) (hC : C.WF) (a : List κ) (n : Nat)
    (hb : n * C.size ≤ a.length) : Buffer.size C (a.take (n * C.size)) = n := by
  unfold Buffer.size
  rw [List.length_take, Nat.min_eq_left hb]
  exact Nat.mul_div_cancel _ hC.size_pos

theorem Buffer.elems_take {κ τ : Type} (C : Codec κ τ) (hC : C.WF) (a : List κ) (n : Nat)
    (hb : n * C.size ≤ a.length) :
    Buffer.elems C (a.take (n * C.size)) = (List.range n).map (Buffer.peek C a) := by
  unfold Buffer.elems
  rw [Buffer.size_take C hC a n hb]
  apply List.map_congr_left
  intro j hj
  rw [List.mem_range] at hj
  have hle : (j + 1) * C.size ≤ n * C.size := Nat.mul_le_mul_right _ hj
  have hsj : (j + 1) * C.size = j * C.size + C.size := by ring
  unfold Buffer.peek
  rw [slice_congr (a.take (n * C.size)) a (j * C.size) C.size
    (fun c _ hc => List.getElem?_take_of_lt (by omega))]

theorem Written.elems_head {κ τ : Type} {C : Codec κ τ} (hC : C.WF) {vals : Nat → τ}
    {lo n : Nat} {a0 a : List κ} (hW : Written C vals lo n a0 a)
    (hb : n * C.size ≤ a0.length) :
    ∃ h, Buffer.head C a n = some h ∧ Buffer.elems C h =
      (List.range n).map fun j => if j < lo then Buffer.peek C a0 j else vals j := by
  have hb' : n * C.size ≤ a.length := by rw [hW.length_eq]; exact hb
  refine ⟨a.take (n * C.size), by unfold Buffer.head; rw [if_pos hb'], ?_⟩
  rw [Buffer.elems_take C hC a n hb']
  apply List.map_congr_left
  intro j hj
  rw [List.mem_range] at hj
  by_cases hjl : j < lo
  · rw [if_pos hjl]
    have hle : (j + 1) * C.size ≤ lo * C.size := Nat.mul_le_mul_right _ hjl
    have hsj : (j + 1) * C.size = j * C.size + C.size := by ring
    unfold Buffer.peek
    rw [slice_congr a a0 (j * C.size) C.size
      (fun c _ hc => hW.outside c (Or.inl (by omega)))]
  · unfold Buffer.peek
    rw [if_neg hjl, hW.inside j (by omega) hj, hC.dec_enc]

theorem Mem.set_of_buffer {κ τ : Type} (C : Codec κ τ) (o : Storage) (m : Mem κ) (i : Nat) (v : τ)
    (a : List κ) (h : Buffer.set C (m.sel o) i v = some a) :
    Mem.set C o m i v = some (m.put o a) := by
  unfold Mem.set; rw [h]; rfl

theorem Buffer.get_eq {κ τ : Type} (C : Codec κ τ) (a : List κ) (i : Nat)
    (hb : (i + 1) * C.size ≤ a.length) :
    Buffer.get C a i = some (Buffer.peek C a i) := by
  unfold Buffer.get; rw [if_pos hb]

/-- The loop of `AMDemod::process` and `USBDemod::_process`: every output element `j < n` is
`f` of input sample `j` of the buffer as it was before the loop, also when the output view
aliases the input storage. -/
theorem mapLoop_spec {κ τ β : Type} (Ci : Codec κ τ) (Co : Codec κ β) (hCo : Co.WF)
    (f : τ → β) (out : Storage) (m0 : Mem κ) (n : Nat)
    (hin : n * Ci.size ≤ m0.input.length) (hout : n * Co.size ≤ (m0.sel out).length)
    (halias : out = .input → Co.size ≤ Ci.size) :
    ∃ m, forLoop (fun i (m : Mem κ) =>
        (Buffer.get Ci m.input i).bind fun x => Mem.set Co out m i (f x)) n 0 m0 = some m ∧
      Written Co (fun j => f (Buffer.peek Ci m0.input j)) 0 n
        (m0.sel out) (m.sel out) ∧
      (out = .scratch → m.input = m0.input) ∧ (out = .input → m.scratch = m0.scratch) := by
  have key := forLoop_inv
    (fun i (m : Mem κ) =>
      Written Co (fun j => f (Buffer.peek Ci m0.input j)) 0 i
        (m0.sel out) (m.sel out) ∧
      (out = .scratch → m.input = m0.input) ∧ (out = .input → m.scratch = m0.scratch))
    (fun i (m : Mem κ) =>
        (Buffer.get Ci m.input i).bind fun x => Mem.set Co out m i (f x)) n 0 m0
    ⟨Written.refl _ _ _ _, fun _ => rfl, fun _ => rfl⟩ ?_
  · simpa using key
  · intro j m _ hj ⟨hW, hI, hS⟩
    have hj' : j < n := by omega
    have hle : (j + 1) * Ci.size ≤ n * Ci.size := Nat.mul_le_mul_right _ hj'
    have hleo : (j + 1) * Co.size ≤ n * Co.size := Nat.mul_le_mul_right _ hj'
    have hget : Buffer.get Ci m.input j = some (Buffer.peek Ci m0.input j) := by
      rw [← Buffer.get_eq Ci m0.input j (by omega)]
      cases out with
      | scratch => rw [hI rfl]
      | input => exact hW.get_ge Ci (halias rfl) j (Nat.le_refl _)
    obtain ⟨a', hset, hW'⟩ := hW.set_step hCo (Nat.zero_le _) (by omega)
    refine ⟨m.put out a', ?_, ?_⟩
    · simp only [hget, Option.some_bind]; exact Mem.set_of_buffer Co out m j _ a' hset
    · cases out with
      | scratch => exact ⟨hW', fun _ => hI rfl, fun h => nomatch h⟩
      | input => exact ⟨hW', (fun h => nomatch h), fun _ => hS rfl⟩

theorem Buffer.elems_eq {κ τ : Type} (C : Codec κ τ) (a : List κ) (n : Nat)
    (h : Buffer.size C a = n) :
    Buffer.elems C a = (List.range n).map (Buffer.peek C a) := by
  subst h; rfl

theorem Buffer.size_mul_le {κ τ : Type} (C : Codec κ τ) (a : List κ) :
    Buffer.size C a * C.size ≤ a.length := Nat.div_mul_le_self _ _

/-- What `AMDemod::process` does, for both values of `allow_overwrite`. -/
theorem AMDemod_process_spec {κ α P : Type} (A : AMArith α P) (C : Codec κ α) (hC : C.WF)
    (self : AMDemod κ) (buffer : List κ) (allow_overwrite : Bool)
    (hcap : Buffer.size C.complex buffer ≤ Buffer.size C self._buffer) :
    ∃ st' mem' h, AMDemod.process A C self buffer allow_overwrite =
        some (st', mem', [{ buffer := h, allow_overwrite := true,
                            storage := if allow_overwrite then .input else .scratch }]) ∧
      Buffer.elems C h = (Buffer.elems C.complex buffer).map (AMDemod.sample A) ∧
      (allow_overwrite = false → mem' = buffer ∧ st'._buffer.length = self._buffer.length) ∧
      (allow_overwrite = true → st' = self) := by
  have hin := Buffer.size_mul_le C.complex buffer
  have hsz : C.size ≤ C.complex.size := by show C.size ≤ 2 * C.size; omega
  have hout : Buffer.size C.complex buffer * C.size ≤
      (({ input := buffer, scratch := self._buffer } : Mem κ).sel
        (if allow_overwrite then .input else .scratch)).length := by
    cases allow_overwrite with
    | true =>
      have : Buffer.size C.complex buffer * C.size ≤
          Buffer.size C.complex buffer * C.complex.size := Nat.mul_le_mul_left _ hsz
      show _ ≤ buffer.length
      omega
    | false =>
      have := Buffer.size_mul_le C self._buffer
      have : Buffer.size C.complex buffer * C.size ≤
          Buffer.size C self._buffer * C.size := Nat.mul_le_mul_right _ hcap
      show _ ≤ self._buffer.length
      omega
  obtain ⟨m, hloop, hW, hI, hS⟩ := mapLoop_spec C.complex C hC (AMDemod.sample A)
    (if allow_overwrite then .input else .scratch)
    { input := buffer, scratch := self._buffer } (Buffer.size C.complex buffer) hin hout
    (fun _ => hsz)
  obtain ⟨h, hhead, helems⟩ := hW.elems_head hC hout
  refine ⟨{ self with _buffer := m.scratch }, m.input, h, ?_, ?_, ?_, ?_⟩
  · unfold AMDemod.process
    simp only [hloop, hhead, Option.some_bind]
  · rw [helems, Buffer.elems_eq C.complex buffer _ rfl, List.map_map]
    apply List.map_congr_left
    intro j _
    simp
  · intro hfalse
    subst hfalse
    refine ⟨hI rfl, ?_⟩
    exact hW.length_eq
  · intro htrue
    subst htrue
    have := hS rfl
    show ({ _buffer := m.scratch } : AMDemod κ) = self
    rw [this]

theorem Codec.cell_wf {τ : Type} (dflt : τ) : (Codec.cell dflt).WF :=
  ⟨Nat.one_pos, fun _ => rfl, fun _ => rfl⟩

theorem two_pow_pred (w : Nat) (hw : 1 ≤ w) : (2 : Int) ^ w = 2 * 2 ^ (w - 1) := by
  obtain ⟨k, rfl⟩ : ∃ k, w = k + 1 := ⟨w - 1, by omega⟩
  simp [pow_succ]; ring

theorem two_pow_pos (k : Nat) : (0 : Int) < 2 ^ k := by positivity

theorem two_pow_mono {a b : Nat} (h : a ≤ b) : (2 : Int) ^ a ≤ 2 ^ b :=
  pow_le_pow_right₀ (by norm_num) h

theorem wrapS_eq_self (w : Nat) (hw : 1 ≤ w) (x : Int) (hx : InRange w x) : wrapS w x = x := by
  unfold wrapS
  obtain ⟨h1, h2⟩ := hx
  have hp := two_pow_pred w hw
  rw [Int.emod_eq_of_lt (by omega) (by omega)]
  omega

theorem wrapS_inRange (w : Nat) (hw : 1 ≤ w) (x : Int) : InRange w (wrapS w x) := by
  unfold wrapS InRange
  have hp := two_pow_pred w hw
  have hpos := two_pow_pos w
  have h1 := Int.emod_nonneg (x + 2 ^ (w - 1)) (ne_of_gt hpos)
  have h2 := Int.emod_lt_of_pos (x + 2 ^ (w - 1)) hpos
  constructor <;> omega

theorem InRange.mono {a b : Nat} (h : a ≤ b) {x : Int} (hx : InRange a x) : InRange b x := by
  have := two_pow_mono (show a - 1 ≤ b - 1 by omega)
  exact ⟨by have := hx.1; omega, by have := hx.2; omega⟩

theorem tdiv_two_eq (x : Int) :
    Int.tdiv x 2 = if 0 ≤ x then x / 2 else -((-x) / 2) := by
  split
  · rename_i h; exact Int.tdiv_eq_ediv h (by norm_num)
  · rename_i h
    have : x = -(-x) := by omega
    rw [this, Int.neg_tdiv, Int.tdiv_eq_ediv (by omega) (by norm_num)]
    simp

/-- The sample arithmetic of `USBDemod` on `w`-bit signed integers with a compute type of at
least `w + 1` bits is exact. -/
theorem USBDemod.sample_int (w s p : Nat) (hw : 1 ≤ w) (hs : w + 1 ≤ s) (hp : s ≤ p)
    (re im : Int) (hre : InRange w re) (him : InRange w im) :
    (USBArith.int w s p).add ((USBArith.int w s p).wide re) ((USBArith.int w s p).wide im) =
        re + im ∧
      InRange w (Int.tdiv (re + im) 2) ∧
      USBDemod.sample (USBArith.int w s p) (re, im) = Int.tdiv (re + im) 2 := by
  have hsum : InRange (w + 1) (re + im) := by
    have h2 := two_pow_pred w hw
    obtain ⟨a1, a2⟩ := hre
    obtain ⟨b1, b2⟩ := him
    unfold InRange
    rw [show w + 1 - 1 = w by omega]
    constructor <;> omega
  have hq : InRange w (Int.tdiv (re + im) 2) := by
    obtain ⟨a1, a2⟩ := hre
    obtain ⟨b1, b2⟩ := him
    unfold InRange
    rw [tdiv_two_eq]
    split <;> constructor <;> omega
  have e1 : wrapS s re = re := wrapS_eq_self s (by omega) re (hre.mono (by omega))
  have e2 : wrapS s im = im := wrapS_eq_self s (by omega) im (him.mono (by omega))
  have e3 : wrapS p (re + im) = re + im :=
    wrapS_eq_self p (by omega) _ (hsum.mono (by omega))
  refine ⟨?_, hq, ?_⟩
  · show wrapS p (wrapS s re + wrapS s im) = re + im
    rw [e1, e2, e3]
  · show wrapS w (Int.tdiv (wrapS p (wrapS s re + wrapS s im)) 2) = _
    rw [e1, e2, e3]
    exact wrapS_eq_self w hw _ hq

/-- What `USBDemod::_process` does, for an output view on either storage. -/
theorem USBDemod_inner_spec {κ α σ : Type} (A : USBArith α σ) (C : Codec κ α) (hC : C.WF)
    (send_default : Bool) (out : Storage) (m0 : Mem κ)
    (hout : Buffer.size C.complex m0.input * C.size ≤ (m0.sel out).length) :
    ∃ m h, USBDemod._process A C send_default out m0 =
        some (m, [{ buffer := h, allow_overwrite := send_default, storage := out }]) ∧
      Buffer.elems C h = (Buffer.elems C.complex m0.input).map (USBDemod.sample A) ∧
      (out = .scratch → m.input = m0.input) ∧ (out = .input → m.scratch = m0.scratch) ∧
      (m.sel out).length = (m0.sel out).length := by
  have hin := Buffer.size_mul_le C.complex m0.input
  have hsz : C.size ≤ C.complex.size := by show C.size ≤ 2 * C.size; omega
  obtain ⟨m, hloop, hW, hI, hS⟩ := mapLoop_spec C.complex C hC (USBDemod.sample A) out m0
    (Buffer.size C.complex m0.input) hin hout (fun _ => hsz)
  obtain ⟨h, hhead, helems⟩ := hW.elems_head hC hout
  refine ⟨m, h, ?_, ?_, hI, hS, hW.length_eq⟩
  · unfold USBDemod._process
    simp only [hloop, hhead, Option.some_bind]
  · rw [helems, Buffer.elems_eq C.complex m0.input _ rfl, List.map_map]
    apply List.map_congr_left
    intro j _
    simp

/-- The value of `_last_value` when sample `j ≥ 1` of the buffer is reached, the loop having
started with `_last_value = L`. -/
theorem FMDemod_loop_spec {κ ι β : Type} (F : FMArith ι β) (Ci : Codec κ ι) (Co : Codec κ β)
    (hCo : Co.WF) (out : Storage) (L : β) (m0 : Mem κ) (n : Nat) (hn : 1 ≤ n)
    (hin : n * Ci.complex.size ≤ m0.input.length)
    (hout : n * Co.size ≤ (m0.sel out).length)
    (halias : out = .input → Co.size ≤ Ci.complex.size) :
    ∃ m, forLoop (fun i (s : β × Mem κ) =>
        (Buffer.get Ci.complex s.2.input i).bind fun x =>
          let phi := FMDemod.phi F x
          (Mem.set Co out s.2 i (F.sub s.1 phi)).bind fun m' =>
          some (phi, m')) (n - 1) 1 (L, m0) =
        some (if n = 1 then L else FMDemod.phi F (Buffer.peek Ci.complex m0.input (n - 1)), m) ∧
      Written Co (fun j => F.sub
          (if j = 1 then L else FMDemod.phi F (Buffer.peek Ci.complex m0.input (j - 1)))
          (FMDemod.phi F (Buffer.peek Ci.complex m0.input j))) 1 n (m0.sel out) (m.sel out) ∧
      (out = .scratch → m.input = m0.input) ∧ (out = .input → m.scratch = m0.scratch) := by
  have key := forLoop_inv
    (fun i (s : β × Mem κ) =>
      s.1 = (if i = 1 then L else FMDemod.phi F (Buffer.peek Ci.complex m0.input (i - 1))) ∧
      Written Co (fun j => F.sub
          (if j = 1 then L else FMDemod.phi F (Buffer.peek Ci.complex m0.input (j - 1)))
          (FMDemod.phi F (Buffer.peek Ci.complex m0.input j))) 1 i (m0.sel out) (s.2.sel out) ∧
      (out = .scratch → s.2.input = m0.input) ∧ (out = .input → s.2.scratch = m0.scratch))
    (fun i (s : β × Mem κ) =>
        (Buffer.get Ci.complex s.2.input i).bind fun x =>
          let phi := FMDemod.phi F x
          (Mem.set Co out s.2 i (F.sub s.1 phi)).bind fun m' =>
          some (phi, m')) (n - 1) 1 (L, m0)
    ⟨by simp, Written.refl _ _ _ _, fun _ => rfl, fun _ => rfl⟩ ?_
  · obtain ⟨s', hs', h1, hW, hI, hS⟩ := key
    rw [show 1 + (n - 1) = n by omega] at h1 hW
    refine ⟨s'.2, ?_, hW, hI, hS⟩
    rw [hs', ← h1]
  · intro j s hj1 hj ⟨hl, hW, hI, hS⟩
    have hj' : j < n := by omega
    have hle : (j + 1) * Ci.complex.size ≤ n * Ci.complex.size := Nat.mul_le_mul_right _ hj'
    have hleo : (j + 1) * Co.size ≤ n * Co.size := Nat.mul_le_mul_right _ hj'
    have hget : Buffer.get Ci.complex s.2.input j =
        some (Buffer.peek Ci.complex m0.input j) := by
      rw [← Buffer.get_eq Ci.complex m0.input j (by omega)]
      cases out with
      | scratch => rw [hI rfl]
      | input => exact hW.get_ge Ci.complex (halias rfl) j (Nat.le_refl _)
    obtain ⟨a', hset, hW'⟩ := hW.set_step hCo hj1 (by omega)
    refine ⟨(FMDemod.phi F (Buffer.peek Ci.complex m0.input j), s.2.put out a'), ?_, ?_⟩
    · simp only [hget, Option.some_bind]
      rw [hl, Mem.set_of_buffer Co out s.2 j _ a' hset]
      rfl
    · refine ⟨by simp [show j + 1 ≠ 1 by omega], ?_⟩
      cases out with
      | scratch => exact ⟨hW', fun _ => hI rfl, fun h => nomatch h⟩
      | input => exact ⟨hW', (fun h => nomatch h), fun _ => hS rfl⟩

/-- What `FMDemod::_process` does on a non-empty buffer, for an output view on either
storage. -/
theorem FMDemod_inner_spec {κ ι β : Type} (F : FMArith ι β) (Ci : Codec κ ι)
    (Co : Codec κ β) (hCo : Co.WF) (send_default : Bool) (out : Storage) (L : β) (m0 : Mem κ)
    (hn : 1 ≤ Buffer.size Ci.complex m0.input)
    (hout : Buffer.size Ci.complex m0.input * Co.size ≤ (m0.sel out).length)
    (halias : out = .input → Co.size ≤ Ci.complex.size) :
    ∃ m h, FMDemod._process F Ci Co send_default out L m0 =
        some (if Buffer.size Ci.complex m0.input = 1 then L
              else FMDemod.phi F (Buffer.peek Ci.complex m0.input
                (Buffer.size Ci.complex m0.input - 1)),
          m, [{ buffer := h, allow_overwrite := send_default, storage := out }]) ∧
      Buffer.elems Co h = (List.range (Buffer.size Ci.complex m0.input)).map (fun j =>
        if j < 1 then Buffer.peek Co (m0.sel out) j
        else F.sub
          (if j = 1 then L else FMDemod.phi F (Buffer.peek Ci.complex m0.input (j - 1)))
          (FMDemod.phi F (Buffer.peek Ci.complex m0.input j))) ∧
      (out = .scratch → m.input = m0.input) ∧ (out = .input → m.scratch = m0.scratch) ∧
      (m.sel out).length = (m0.sel out).length := by
  obtain ⟨m, hloop, hW, hI, hS⟩ := FMDemod_loop_spec F Ci Co hCo out L m0
    (Buffer.size Ci.complex m0.input) hn (Buffer.size_mul_le Ci.complex m0.input) hout halias
  obtain ⟨h, hhead, helems⟩ := hW.elems_head hCo hout
  refine ⟨m, h, ?_, helems, hI, hS, hW.length_eq⟩
  unfold FMDemod._process
  simp only [hloop, hhead, Option.some_bind]

theorem Written.slot_zero {κ τ : Type} {C : Codec κ τ} {vals : Nat → τ} {n : Nat}
    {a0 a : List κ} (hW : Written C vals 1 n a0 a) :
    slice a 0 C.size = slice a0 0 C.size :=
  slice_congr a a0 0 C.size (fun c _ hc => hW.outside c (Or.inl (by omega)))

theorem Written.nothing {κ τ : Type} {C : Codec κ τ} {vals : Nat → τ} {i : Nat}
    {a0 a : List κ} (hW : Written C vals i i a0 a) : a = a0 := by
  apply List.ext_getElem?
  intro c
  by_cases h : c < i * C.size
  · exact hW.outside c (Or.inl h)
  · exact hW.outside c (Or.inr (by omega))

/-- What `FMDemod::process` does on a non-empty buffer. The output storage is the input
storage when `allow_overwrite && _can_overwrite`, the node's own buffer otherwise. -/
theorem FMDemod_process_spec {κ ι β : Type} (F : FMArith ι β) (Ci : Codec κ ι)
    (Co : Codec κ β) (hCo : Co.WF) (send_default : Bool) (self : FMDemod κ β)
    (buffer : List κ) (allow_overwrite : Bool)
    (hn : 1 ≤ Buffer.size Ci.complex buffer)
    (hcap : (allow_overwrite && self._can_overwrite) = false →
      Buffer.size Ci.complex buffer ≤ Buffer.size Co self._buffer)
    (hinv : (allow_overwrite && self._can_overwrite) = true → Co.size ≤ Ci.complex.size) :
    ∃ st' mem' h, FMDemod.process F Ci Co send_default self buffer allow_overwrite =
        some (st', mem', [{ buffer := h, allow_overwrite := send_default,
                            storage := if allow_overwrite && self._can_overwrite then .input
                                       else .scratch }]) ∧
      st'._last_value = (if Buffer.size Ci.complex buffer = 1 then self._last_value
        else FMDemod.phi F (Buffer.peek Ci.complex buffer
          (Buffer.size Ci.complex buffer - 1))) ∧
      st'._shift = self._shift ∧ st'._can_overwrite = self._can_overwrite ∧
      st'._buffer.length = self._buffer.length ∧
      Buffer.elems Co h = (List.range (Buffer.size Ci.complex buffer)).map (fun j =>
        if j < 1 then
          Buffer.peek Co (if allow_overwrite && self._can_overwrite then buffer
            else self._buffer) j
        else F.sub
          (if j = 1 then self._last_value
           else FMDemod.phi F (Buffer.peek Ci.complex buffer (j - 1)))
          (FMDemod.phi F (Buffer.peek Ci.complex buffer j))) ∧
      ((allow_overwrite && self._can_overwrite) = false → mem' = buffer) ∧
      ((allow_overwrite && self._can_overwrite) = true → st'._buffer = self._buffer) ∧
      Buffer.peek Co (if allow_overwrite && self._can_overwrite then mem' else st'._buffer) 0 =
        Buffer.peek Co (if allow_overwrite && self._can_overwrite then buffer
          else self._buffer) 0 ∧
      (Buffer.size Ci.complex buffer = 1 → mem' = buffer ∧ st'._buffer = self._buffer) := by
  have hne : ¬ (0 = Buffer.size Ci.complex buffer) := by omega
  cases hsel : (allow_overwrite && self._can_overwrite) with
  | true =>
    have hsz := hinv hsel
    have hout : Buffer.size Ci.complex buffer * Co.size ≤
        (({ input := buffer, scratch := self._buffer } : Mem κ).sel .input).length := by
      have h1 := Buffer.size_mul_le Ci.complex buffer
      have h2 : Buffer.size Ci.complex buffer * Co.size ≤
          Buffer.size Ci.complex buffer * Ci.complex.size := Nat.mul_le_mul_left _ hsz
      show _ ≤ buffer.length
      omega
    obtain ⟨m, hloop, hW, hI, hS⟩ := FMDemod_loop_spec F Ci Co hCo .input self._last_value
      { input := buffer, scratch := self._buffer } (Buffer.size Ci.complex buffer) hn
      (Buffer.size_mul_le Ci.complex buffer) hout (fun _ => hsz)
    obtain ⟨h, hhead, helems⟩ := hW.elems_head hCo hout
    have hscr : m.scratch = self._buffer := hS rfl
    refine ⟨{ self with
        _last_value := (if Buffer.size Ci.complex buffer = 1 then self._last_value
          else FMDemod.phi F (Buffer.peek Ci.complex buffer
            (Buffer.size Ci.complex buffer - 1))),
        _buffer := m.scratch }, m.input, h, ?_, rfl, rfl,
      rfl, by rw [hscr], ?_, (fun h => nomatch h), fun _ => hscr, ?_, ?_⟩
    · unfold FMDemod.process FMDemod._process
      simp only [if_neg hne, hsel, if_true, hloop, hhead, Option.some_bind]
    · simpa using helems
    · simp only [if_true]
      unfold Buffer.peek
      rw [Nat.zero_mul]
      exact congrArg Co.dec hW.slot_zero
    · intro h1
      rw [h1] at hW
      exact ⟨hW.nothing, hscr⟩
  | false =>
    have hout : Buffer.size Ci.complex buffer * Co.size ≤
        (({ input := buffer, scratch := self._buffer } : Mem κ).sel .scratch).length := by
      have h1 := Buffer.size_mul_le Co self._buffer
      have h2 : Buffer.size Ci.complex buffer * Co.size ≤
          Buffer.size Co self._buffer * Co.size := Nat.mul_le_mul_right _ (hcap hsel)
      show _ ≤ self._buffer.length
      omega
    obtain ⟨m, hloop, hW, hI, hS⟩ := FMDemod_loop_spec F Ci Co hCo .scratch self._last_value
      { input := buffer, scratch := self._buffer } (Buffer.size Ci.complex buffer) hn
      (Buffer.size_mul_le Ci.complex buffer) hout (fun h => nomatch h)
    obtain ⟨h, hhead, helems⟩ := hW.elems_head hCo hout
    have hinp : m.input = buffer := hI rfl
    refine ⟨{ self with
        _last_value := (if Buffer.size Ci.complex buffer = 1 then self._last_value
          else FMDemod.phi F (Buffer.peek Ci.complex buffer
            (Buffer.size Ci.complex buffer - 1))),
        _buffer := m.scratch }, m.input, h, ?_, rfl, rfl,
      rfl, hW.length_eq, ?_, fun _ => hinp, (fun h => nomatch h), ?_, ?_⟩
    · unfold FMDemod.process FMDemod._process
      simp only [if_neg hne, hsel, Bool.false_eq_true, if_false, hloop, hhead,
        Option.some_bind]
    · simpa using helems
    · simp only [Bool.false_eq_true, if_false]
      unfold Buffer.peek
      rw [Nat.zero_mul]
      exact congrArg Co.dec hW.slot_zero
    · intro h1
      rw [h1] at hW
      exact ⟨hinp, hW.nothing⟩

theorem getElem?_map_range {τ : Type} (f : Nat → τ) (n i : Nat) (h : i < n) :
    ((List.range n).map f)[i]? = some (f i) := by
  rw [List.getElem?_map, List.getElem?_range h]; rfl

theorem AMDemod_config_cases {κ α ρ : Type} (C : Codec κ α) (sid : ScalarId) (junk : Nat → κ)
    (self : AMDemod κ) (cfg : Config ρ) :
    ((∃ err, (AMDemod.config C sid junk self cfg).2 = .raised err) ↔
      (cfg.hasType = true ∧ cfg.hasBufferSize = true ∧ cfg.type ≠ some (.cplx sid))) ∧
    (∀ ty, cfg.type = some ty → cfg.hasBufferSize = true → ty ≠ .cplx sid →
      (AMDemod.config C sid junk self cfg).2 =
        .raised { node := .AMDemod, actual := ty, expected := .cplx sid }) ∧
    ((cfg.hasType = false ∨ cfg.hasBufferSize = false ∨ cfg.type ≠ some (.cplx sid)) →
      (AMDemod.config C sid junk self cfg).1 = self ∧
      ∀ d, (AMDemod.config C sid junk self cfg).2 ≠ .configured d) := by
  obtain ⟨ty, sr, bs, nb⟩ := cfg
  cases ty with
  | none => simp [AMDemod.config, Config.hasType, Config.hasBufferSize]
  | some ty =>
    cases bs with
    | none => simp [AMDemod.config, Config.hasType, Config.hasBufferSize]
    | some bs =>
      by_cases h : TypeId.cplx sid = ty
      · subst h
        simp [AMDemod.config, Config.hasType, Config.hasBufferSize]
      · have h' : ty ≠ TypeId.cplx sid := fun e => h e.symm
        simp [AMDemod.config, Config.hasType, Config.hasBufferSize, h, h']

theorem USBDemod_config_cases {κ α ρ : Type} (C : Codec κ α) (sid : ScalarId)
    (junk : Nat → κ) (self : USBDemod κ) (cfg : Config ρ) :
    ((∃ err, (USBDemod.config C sid junk self cfg).2 = .raised err) ↔
      (cfg.hasType = true ∧ cfg.hasBufferSize = true ∧ cfg.type ≠ some (.cplx sid))) ∧
    (∀ ty, cfg.type = some ty → cfg.hasBufferSize = true → ty ≠ .cplx sid →
      (USBDemod.config C sid junk self cfg).2 =
        .raised { node := .USBDemod, actual := ty, expected := .cplx sid }) ∧
    ((cfg.hasType = false ∨ cfg.hasBufferSize = false ∨ cfg.type ≠ some (.cplx sid)) →
      (USBDemod.config C sid junk self cfg).1 = self ∧
      ∀ d, (USBDemod.config C sid junk self cfg).2 ≠ .configured d) := by
  obtain ⟨ty, sr, bs, nb⟩ := cfg
  cases ty with
  | none => simp [USBDemod.config, Config.hasType, Config.hasBufferSize]
  | some ty =>
    cases bs with
    | none => simp [USBDemod.config, Config.hasType, Config.hasBufferSize]
    | some bs =>
      by_cases h : TypeId.cplx sid = ty
      · subst h
        simp [USBDemod.config, Config.hasType, Config.hasBufferSize]
      · have h' : ty ≠ TypeId.cplx sid := fun e => h e.symm
        simp [USBDemod.config, Config.hasType, Config.hasBufferSize, h, h']

theorem FMDemod_config_cases {κ ι β ρ : Type} (F : FMArith ι β) (Ci : Codec κ ι)
    (Co : Codec κ β) (isid osid : ScalarId) (junk : Nat → κ) (self : FMDemod κ β)
    (cfg : Config ρ) :
    ((∃ err, (FMDemod.config F Ci Co isid osid junk self cfg).2 = .raised err) ↔
      (cfg.hasType = true ∧ cfg.hasBufferSize = true ∧ cfg.type ≠ some (.cplx isid))) ∧
    (∀ ty, cfg.type = some ty → cfg.hasBufferSize = true → ty ≠ .cplx isid →
      (FMDemod.config F Ci Co isid osid junk self cfg).2 =
        .raised { node := .FMDemod, actual := ty, expected := .cplx isid }) ∧
    ((cfg.hasType = false ∨ cfg.hasBufferSize = false ∨ cfg.type ≠ some (.cplx isid)) →
      (FMDemod.config F Ci Co isid osid junk self cfg).1 = self ∧
      ∀ d, (FMDemod.config F Ci Co isid osid junk self cfg).2 ≠ .configured d) := by
  obtain ⟨ty, sr, bs, nb⟩ := cfg
  cases ty with
  | none => simp [FMDemod.config, Config.hasType, Config.hasBufferSize]
  | some ty =>
    cases bs with
    | none => simp [FMDemod.config, Config.hasType, Config.hasBufferSize]
    | some bs =>
      by_cases h : TypeId.cplx isid = ty
      · subst h
        simp [FMDemod.config, Config.hasType, Config.hasBufferSize]
      · have h' : ty ≠ TypeId.cplx isid := fun e => h e.symm
        simp [FMDemod.config, Config.hasType, Config.hasBufferSize, h, h']

theorem FMDeemph_config_cases {κ α P ρ : Type} (A : DeemphArith α P) (C : Codec κ α)
    (sid : ScalarId) (alphaOf : ρ → Int) (junk : Nat → κ) (self : FMDeemph κ α)
    (cfg : Config ρ) :
    ((∃ err, (FMDeemph.config A C sid alphaOf junk self cfg).2 = .raised err) ↔
      (cfg.hasType = true ∧ cfg.hasSampleRate = true ∧ cfg.hasBufferSize = true ∧
        cfg.type ≠ some (.real sid))) ∧
    (∀ ty, cfg.type = some ty → cfg.hasSampleRate = true → cfg.hasBufferSize = true →
      ty ≠ .real sid →
      (FMDeemph.config A C sid alphaOf junk self cfg).2 =
        .raised { node := .FMDeemph, actual := ty, expected := .real sid }) ∧
    ((cfg.hasType = false ∨ cfg.hasSampleRate = false ∨ cfg.hasBufferSize = false ∨
        cfg.type ≠ some (.real sid)) →
      (FMDeemph.config A C sid alphaOf junk self cfg).1 = self ∧
      ∀ d, (FMDeemph.config A C sid alphaOf junk self cfg).2 ≠ .configured d) := by
  obtain ⟨ty, sr, bs, nb⟩ := cfg
  cases ty with
  | none => simp [FMDeemph.config, Config.hasType, Config.hasBufferSize]
  | some ty =>
    cases sr with
    | none => simp [FMDeemph.config, Config.hasType, Config.hasSampleRate]
    | some sr =>
      cases bs with
      | none =>
        simp [FMDeemph.config, Config.hasType, Config.hasSampleRate, Config.hasBufferSize]
      | some bs =>
        by_cases h : TypeId.real sid = ty
        · subst h
          simp [FMDeemph.config, Config.hasType, Config.hasSampleRate, Config.hasBufferSize]
        · have h' : ty ≠ TypeId.real sid := fun e => h e.symm
          simp [FMDeemph.config, Config.hasType, Config.hasSampleRate, Config.hasBufferSize,
            h, h']

theorem Written.peek_eq {κ τ : Type} {C : Codec κ τ} (hC : C.WF) {vals : Nat → τ} {lo i : Nat}
    {a0 a : List κ} (hW : Written C vals lo i a0 a) (j : Nat) (h1 : lo ≤ j) (h2 : j < i) :
    Buffer.peek C a j = vals j := by
  unfold Buffer.peek
  rw [hW.inside j h1 h2, hC.dec_enc]

/-- The loop of `FMDeemph::_process`, for a sequence `a` of running averages that the update
rule produces on the samples of the buffer as it was before the loop: output element `j` is
`a (j + 1)`, also when the output view is the input buffer itself. -/
theorem FMDeemph_loop_spec {κ α P : Type} (A : DeemphArith α P) (C : Codec κ α) (hC : C.WF)
    (alpha : Int) (out : Storage) (m0 : Mem κ) (n : Nat) (a : Nat → α)
    (hstep : ∀ j, j < n →
      FMDeemph.update A alpha (a j) (Buffer.peek C m0.input j) = some (a (j + 1)))
    (hin : n * C.size ≤ m0.input.length) (hout : n * C.size ≤ (m0.sel out).length) :
    ∃ m, forLoop (fun i (s : α × Mem κ) =>
        (Buffer.get C s.2.input i).bind fun x =>
        (FMDeemph.update A alpha s.1 x).bind fun avg' =>
        (Mem.set C out s.2 i avg').bind fun m' =>
        some (avg', m')) n 0 (a 0, m0) = some (a n, m) ∧
      Written C (fun j => a (j + 1)) 0 n (m0.sel out) (m.sel out) ∧
      (out = .scratch → m.input = m0.input) ∧ (out = .input → m.scratch = m0.scratch) := by
  have key := forLoop_inv
    (fun i (s : α × Mem κ) =>
      s.1 = a i ∧
      Written C (fun j => a (j + 1)) 0 i (m0.sel out) (s.2.sel out) ∧
      (out = .scratch → s.2.input = m0.input) ∧ (out = .input → s.2.scratch = m0.scratch))
    (fun i (s : α × Mem κ) =>
        (Buffer.get C s.2.input i).bind fun x =>
        (FMDeemph.update A alpha s.1 x).bind fun avg' =>
        (Mem.set C out s.2 i avg').bind fun m' =>
        some (avg', m')) n 0 (a 0, m0)
    ⟨rfl, Written.refl _ _ _ _, fun _ => rfl, fun _ => rfl⟩ ?_
  · obtain ⟨s', hs', h1, hW, hI, hS⟩ := key
    rw [Nat.zero_add] at h1 hW
    refine ⟨s'.2, ?_, hW, hI, hS⟩
    rw [hs', ← h1]
  · intro j s _ hj ⟨hl, hW, hI, hS⟩
    have hj' : j < n := by omega
    have hle : (j + 1) * C.size ≤ n * C.size := Nat.mul_le_mul_right _ hj'
    have hget : Buffer.get C s.2.input j = some (Buffer.peek C m0.input j) := by
      rw [← Buffer.get_eq C m0.input j (by omega)]
      cases out with
      | scratch => rw [hI rfl]
      | input => exact hW.get_ge C (Nat.le_refl _) j (Nat.le_refl _)
    obtain ⟨a', hset, hW'⟩ := hW.set_step hC (Nat.zero_le _) (by omega)
    refine ⟨(a (j + 1), s.2.put out a'), ?_, ?_⟩
    · simp only [hget, Option.some_bind, hl, hstep j hj', Mem.set_of_buffer C out s.2 j _ a' hset]
    · refine ⟨rfl, ?_⟩
      cases out with
      | scratch => exact ⟨hW', fun _ => hI rfl, fun h => nomatch h⟩
      | input => exact ⟨hW', (fun h => nomatch h), fun _ => hS rfl⟩

/-- What `FMDeemph::_process` does, for a sequence `a` of running averages as in
`FMDeemph_loop_spec`. -/
theorem FMDeemph_inner_spec {κ α P : Type} (A : DeemphArith α P) (C : Codec κ α)
    (hC : C.WF) (alpha : Int) (out : Storage) (m0 : Mem κ) (a : Nat → α)
    (hstep : ∀ j, j < Buffer.size C m0.input →
      FMDeemph.update A alpha (a j) (Buffer.peek C m0.input j) = some (a (j + 1)))
    (hout : Buffer.size C m0.input * C.size ≤ (m0.sel out).length) :
    ∃ m, FMDeemph._process A C alpha out (a 0) m0 = some (a (Buffer.size C m0.input), m) ∧
      Written C (fun j => a (j + 1)) 0 (Buffer.size C m0.input) (m0.sel out) (m.sel out) ∧
      (out = .scratch → m.input = m0.input) ∧ (out = .input → m.scratch = m0.scratch) :=
  FMDeemph_loop_spec A C hC alpha out m0 (Buffer.size C m0.input) a hstep
    (Buffer.size_mul_le C m0.input) hout

/-- A sequence of running averages exists when the division by `alpha` is defined. -/
theorem FMDeemph.exists_averages {α P : Type} (A : DeemphArith α P) (alpha : Int)
    (hdiv : ∀ x : P, ∃ q, A.divInt x alpha = some q) (avg : α) (x : Nat → α) :
    ∃ a : Nat → α, a 0 = avg ∧ ∀ j, FMDeemph.update A alpha (a j) (x j) = some (a (j + 1)) := by
  have htot : ∀ v y, ∃ r, FMDeemph.update A alpha v y = some r := by
    intro v y
    unfold FMDeemph.update
    by_cases hpos : A.isPos (A.sub y v) = true
    · obtain ⟨q, hq⟩ := hdiv (A.addInt (A.sub y v) (Int.tdiv alpha 2))
      exact ⟨A.accum v q, by simp [hpos, hq]⟩
    · obtain ⟨q, hq⟩ := hdiv (A.subInt (A.sub y v) (Int.tdiv alpha 2))
      exact ⟨A.accum v q, by simp [hpos, hq]⟩
  refine ⟨fun j => Nat.rec avg
    (fun k v => (FMDeemph.update A alpha v (x k)).getD v) j, rfl, ?_⟩
  intro j
  obtain ⟨r, hr⟩ := htot (Nat.rec avg
    (fun k v => (FMDeemph.update A alpha v (x k)).getD v) j) (x j)
  rw [hr]
  show some r = some ((FMDeemph.update A alpha _ (x j)).getD _)
  rw [hr]; rfl

/-- What `FMDeemph::process` does when the node is enabled, for a sequence `a` of running
averages that the update rule produces on the samples of the buffer, starting at `_avg`. -/
theorem FMDeemph_process_spec {κ α P : Type} (A : DeemphArith α P) (C : Codec κ α)
    (hC : C.WF) (self : FMDeemph κ α) (buffer : List κ) (allow_overwrite : Bool)
    (a : Nat → α) (ha0 : a 0 = self._avg)
    (hstep : ∀ j, j < Buffer.size C buffer →
      FMDeemph.update A self._alpha (a j) (Buffer.peek C buffer j) = some (a (j + 1)))
    (hen : self._enabled = true)
    (hcap : allow_overwrite = false → Buffer.size C buffer ≤ Buffer.size C self._buffer) :
    ∃ st' mem' h, FMDeemph.process A C self buffer allow_overwrite =
        some (st', mem', [{ buffer := h, allow_overwrite := allow_overwrite,
                            storage := if allow_overwrite then .input else .scratch }]) ∧
      st'._avg = a (Buffer.size C buffer) ∧ st'._alpha = self._alpha ∧
      st'._enabled = self._enabled ∧ st'._buffer.length = self._buffer.length ∧
      Buffer.elems C h = (List.range (Buffer.size C buffer)).map (fun j => a (j + 1)) ∧
      (allow_overwrite = false → mem' = buffer) ∧
      (allow_overwrite = true → st'._buffer = self._buffer ∧ h = mem') := by
  have hne : (!self._enabled) = false := by rw [hen]; rfl
  cases allow_overwrite with
  | true =>
    have hout : Buffer.size C buffer * C.size ≤
        (({ input := buffer, scratch := self._buffer } : Mem κ).sel .input).length :=
      Buffer.size_mul_le C buffer
    obtain ⟨m, hproc, hW, hI, hS⟩ := FMDeemph_inner_spec A C hC self._alpha .input
      { input := buffer, scratch := self._buffer } a hstep hout
    rw [ha0] at hproc
    have hscr : m.scratch = self._buffer := hS rfl
    have hlen : m.input.length = buffer.length := hW.length_eq
    refine ⟨{ self with _avg := a (Buffer.size C buffer), _buffer := m.scratch }, m.input,
      m.input, ?_, rfl, rfl, rfl, by rw [hscr], ?_, (fun h => nomatch h),
      fun _ => ⟨hscr, rfl⟩⟩
    · unfold FMDeemph.process
      simp only [hne, Bool.false_eq_true, if_false, if_true, hproc, Option.some_bind]
    · have hsz : Buffer.size C m.input = Buffer.size C buffer := by
        unfold Buffer.size; rw [hlen]
      rw [Buffer.elems_eq C m.input _ hsz]
      apply List.map_congr_left
      intro j hj
      rw [List.mem_range] at hj
      exact hW.peek_eq hC j (Nat.zero_le _) hj
  | false =>
    have hout : Buffer.size C buffer * C.size ≤
        (({ input := buffer, scratch := self._buffer } : Mem κ).sel .scratch).length := by
      have h1 := Buffer.size_mul_le C self._buffer
      have h2 : Buffer.size C buffer * C.size ≤ Buffer.size C self._buffer * C.size :=
        Nat.mul_le_mul_right _ (hcap rfl)
      show _ ≤ self._buffer.length
      omega
    obtain ⟨m, hproc, hW, hI, hS⟩ := FMDeemph_inner_spec A C hC self._alpha .scratch
      { input := buffer, scratch := self._buffer } a hstep hout
    rw [ha0] at hproc
    obtain ⟨h, hhead, helems⟩ := hW.elems_head hC hout
    have hinp : m.input = buffer := hI rfl
    refine ⟨{ self with _avg := a (Buffer.size C buffer), _buffer := m.scratch }, m.input,
      h, ?_, rfl, rfl, rfl, hW.length_eq, ?_, fun _ => hinp, fun h => nomatch h⟩
    · unfold FMDeemph.process
      have hhead' : Buffer.head C m.scratch (Buffer.size C buffer) = some h := hhead
      simp only [hne, Bool.false_eq_true, if_false, hproc, hhead', Option.some_bind]
    · simpa using helems

theorem wrapS_small (w : Nat) (hw : 5 ≤ w) (x : Int) (h1 : -16 ≤ x) (h2 : x < 16) :
    wrapS w x = x := by
  apply wrapS_eq_self w (by omega)
  have h := two_pow_mono (show 4 ≤ w - 1 by omega)
  have h16 : (2 : Int) ^ 4 = 16 := by norm_num
  exact ⟨by omega, by omega⟩

/-- The three updates of the running average for the input `10, 10, 10`, `_alpha = 2` and
integer samples of at least 5 bits. -/
theorem FMDeemph.update_int_ten (w p : Nat) (hw : 5 ≤ w) (hp : 5 ≤ p) :
    FMDeemph.update (DeemphArith.int w p) 2 0 10 = some 5 ∧
    FMDeemph.update (DeemphArith.int w p) 2 5 10 = some 8 ∧
    FMDeemph.update (DeemphArith.int w p) 2 8 10 = some 9 := by
  have e2 : Int.tdiv 2 2 = 1 := by decide
  have e11 : Int.tdiv 11 2 = 5 := by decide
  have e6 : Int.tdiv 6 2 = 3 := by decide
  have e3 : Int.tdiv 3 2 = 1 := by decide
  refine ⟨?_, ?_, ?_⟩ <;>
    simp [FMDeemph.update, DeemphArith.int, e2, e11, e6, e3,
      wrapS_small w hw _ _ _, wrapS_small p hp _ _ _]

/-- The same three updates in exact rational arithmetic. -/
theorem FMDeemph.update_exact_ten :
    FMDeemph.update DeemphArith.exact 2 0 10 = some (11 / 2) ∧
    FMDeemph.update DeemphArith.exact 2 (11 / 2) 10 = some (33 / 4) ∧
    FMDeemph.update DeemphArith.exact 2 (33 / 4) 10 = some (77 / 8) := by
  have e2 : Int.tdiv 2 2 = 1 := by decide
  refine ⟨?_, ?_, ?_⟩ <;>
    simp [FMDeemph.update, DeemphArith.exact, e2] <;> norm_num

theorem Buffer.peek_of_elems {κ τ : Type} (C : Codec κ τ) (mem : List κ) (xs : List τ)
    (h : Buffer.elems C mem = xs) :
    Buffer.size C mem = xs.length ∧ ∀ j x, xs[j]? = some x → Buffer.peek C mem j = x := by
  have hlen : Buffer.size C mem = xs.length := by
    rw [← h]; simp [Buffer.elems]
  refine ⟨hlen, ?_⟩
  intro j x hx
  have hj : j < Buffer.size C mem := by
    rw [hlen]
    by_contra hc
    rw [List.getElem?_eq_none (by omega)] at hx
    exact absurd hx (by simp)
  rw [← h] at hx
  unfold Buffer.elems at hx
  rw [getElem?_map_range _ _ j hj] at hx
  exact Option.some.inj hx

/-- Two runs of a node on the same buffers stay related and send related buffers when every
single `process` call does. -/
theorem runAll_rel {σ κ γ : Type}
    (process : σ → List κ → Bool → Option (σ × List κ × List (Sent κ)))
    (R : σ → σ → Prop) (ok : List κ × Bool → Prop) (f : Sent κ → γ)
    (hstep : ∀ s1 s2 b, R s1 s2 → ok b →
      ∃ t1 m1 o1 t2 m2 o2, process s1 b.1 b.2 = some (t1, m1, o1) ∧
        process s2 b.1 b.2 = some (t2, m2, o2) ∧ R t1 t2 ∧ o1.map f = o2.map f) :
    ∀ (bufs : List (List κ × Bool)) (s1 s2 : σ), R s1 s2 → (∀ b ∈ bufs, ok b) →
      ∃ r1 r2, runAll process s1 bufs = some r1 ∧ runAll process s2 bufs = some r2 ∧
        R r1.1 r2.1 ∧ r1.2.map f = r2.2.map f := by
  intro bufs
  induction bufs with
  | nil => intro s1 s2 hR _; exact ⟨(s1, []), (s2, []), rfl, rfl, hR, rfl⟩
  | cons b rest ih =>
    intro s1 s2 hR hok
    obtain ⟨t1, m1, o1, t2, m2, o2, h1, h2, hR', ho⟩ :=
      hstep s1 s2 b hR (hok b (List.mem_cons_self _ _))
    obtain ⟨r1, r2, e1, e2, hR'', hr⟩ :=
      ih t1 t2 hR' (fun b' hb' => hok b' (List.mem_cons_of_mem _ hb'))
    refine ⟨(r1.1, o1 ++ r1.2), (r2.1, o2 ++ r2.2), ?_, ?_, hR'', ?_⟩
    · simp only [runAll, h1, e1]
    · simp only [runAll, h2, e2]
    · simp only [List.map_append, ho, hr]

theorem Buffer.size_alloc {κ τ : Type} (C : Codec κ τ) (hC : C.WF) (junk : Nat → κ) (N : Nat) :
    Buffer.size C (Buffer.alloc C junk N) = N := by
  unfold Buffer.size Buffer.alloc
  rw [List.length_map, List.length_range]
  exact Nat.mul_div_cancel _ hC.size_pos

/-- One `process` call of two `FMDemod` nodes that agree on the running phase, on
`_can_overwrite` and on the capacity of their buffers, on the path through the node's own
buffer: equal outputs from position 1 on, and the nodes agree again. -/
theorem FMDemod_process_rel {κ ι β : Type} (F : FMArith ι β) (Ci : Codec κ ι)
    (Co : Codec κ β) (hCo : Co.WF) (send_default : Bool) (s1 s2 : FMDemod κ β)
    (buffer : List κ) (allow_overwrite : Bool)
    (hl : s1._last_value = s2._last_value) (hc : s1._can_overwrite = s2._can_overwrite)
    (hlen : s1._buffer.length = s2._buffer.length)
    (hsel : (allow_overwrite && s1._can_overwrite) = false)
    (hcap : Buffer.size Ci.complex buffer ≤ Buffer.size Co s1._buffer) :
    ∃ t1 m1 o1 t2 m2 o2,
      FMDemod.process F Ci Co send_default s1 buffer allow_overwrite = some (t1, m1, o1) ∧
      FMDemod.process F Ci Co send_default s2 buffer allow_overwrite = some (t2, m2, o2) ∧
      (t1._last_value = t2._last_value ∧ t1._can_overwrite = t2._can_overwrite ∧
        t1._buffer.length = t2._buffer.length ∧ t1._can_overwrite = s1._can_overwrite ∧
        t1._buffer.length = s1._buffer.length) ∧
      o1.map (fun s => (Buffer.elems Co s.buffer).tail) =
        o2.map (fun s => (Buffer.elems Co s.buffer).tail) ∧
      o1.map (fun s => (Buffer.elems Co s.buffer).length) =
        o2.map (fun s => (Buffer.elems Co s.buffer).length) := by
  by_cases hn : 0 = Buffer.size Ci.complex buffer
  · refine ⟨s1, buffer, [], s2, buffer, [], ?_, ?_, ⟨hl, hc, hlen, rfl, rfl⟩, rfl, rfl⟩
    · unfold FMDemod.process; rw [if_pos hn]
    · unfold FMDemod.process; rw [if_pos hn]
  · have hsel2 : (allow_overwrite && s2._can_overwrite) = false := by rw [← hc]; exact hsel
    have hcap2 : Buffer.size Ci.complex buffer ≤ Buffer.size Co s2._buffer := by
      unfold Buffer.size at hcap ⊢; rw [← hlen]; exact hcap
    obtain ⟨t1, m1, h1, hp1, hl1, _, hc1, hb1, he1, _⟩ :=
      FMDemod_process_spec F Ci Co hCo send_default s1 buffer allow_overwrite (by omega)
        (fun _ => hcap) (fun h => by rw [hsel] at h; exact absurd h (by decide))
    obtain ⟨t2, m2, h2, hp2, hl2, _, hc2, hb2, he2, _⟩ :=
      FMDemod_process_spec F Ci Co hCo send_default s2 buffer allow_overwrite (by omega)
        (fun _ => hcap2) (fun h => by rw [hsel2] at h; exact absurd h (by decide))
    refine ⟨t1, m1, _, t2, m2, _, hp1, hp2, ⟨?_, ?_, ?_, hc1, hb1⟩, ?_, ?_⟩
    · rw [hl1, hl2, hl]
    · rw [hc1, hc2, hc]
    · rw [hb1, hb2, hlen]
    · simp only [List.map_cons, List.map_nil, he1, he2, hl]
      congr 1
      obtain ⟨k, hk⟩ : ∃ k, Buffer.size Ci.complex buffer = k + 1 :=
        ⟨Buffer.size Ci.complex buffer - 1, by omega⟩
      rw [hk, List.range_succ_eq_map]
      simp
    · simp only [List.map_cons, List.map_nil, he1, he2, List.length_map]

/-- One `process` call of two enabled `FMDeemph` nodes that agree on alpha, on the running
average and on the capacity of their buffers, through the node's own buffer: equal outputs, and
the nodes agree again. -/
theorem FMDeemph_process_rel {κ α P : Type} (A : DeemphArith α P) (C : Codec κ α)
    (hC : C.WF) (s1 s2 : FMDeemph κ α) (buffer : List κ)
    (hen1 : s1._enabled = true) (hen2 : s2._enabled = true)
    (hal : s1._alpha = s2._alpha) (hav : s1._avg = s2._avg)
    (hlen : s1._buffer.length = s2._buffer.length)
    (hdiv : ∀ x : P, ∃ q, A.divInt x s1._alpha = some q)
    (hcap : Buffer.size C buffer ≤ Buffer.size C s1._buffer) :
    ∃ t1 m1 o1 t2 m2 o2,
      FMDeemph.process A C s1 buffer false = some (t1, m1, o1) ∧
      FMDeemph.process A C s2 buffer false = some (t2, m2, o2) ∧
      (t1._enabled = true ∧ t2._enabled = true ∧ t1._alpha = t2._alpha ∧
        t1._avg = t2._avg ∧ t1._buffer.length = t2._buffer.length ∧
        t1._alpha = s1._alpha ∧ t1._buffer.length = s1._buffer.length) ∧
      o1.map (fun s => Buffer.elems C s.buffer) = o2.map (fun s => Buffer.elems C s.buffer) ∧
      o1.length = 1 ∧ o2.length = 1 := by
  obtain ⟨a, ha0, hstep⟩ := FMDeemph.exists_averages A s1._alpha hdiv s1._avg
    (Buffer.peek C buffer)
  have hcap2 : Buffer.size C buffer ≤ Buffer.size C s2._buffer := by
    unfold Buffer.size at hcap ⊢; rw [← hlen]; exact hcap
  obtain ⟨t1, m1, h1, hp1, hv1, ha1, he1, hb1, hel1, _⟩ :=
    FMDeemph_process_spec A C hC s1 buffer false a ha0 (fun j _ => hstep j) hen1
      (fun _ => hcap)
  obtain ⟨t2, m2, h2, hp2, hv2, ha2, he2, hb2, hel2, _⟩ :=
    FMDeemph_process_spec A C hC s2 buffer false a (by rw [ha0, hav])
      (fun j _ => by rw [← hal]; exact hstep j) hen2 (fun _ => hcap2)
  refine ⟨t1, m1, _, t2, m2, _, hp1, hp2, ⟨?_, ?_, ?_, ?_, ?_, ha1, hb1⟩, ?_, rfl, rfl⟩
  · rw [he1, hen1]
  · rw [he2, hen2]
  · rw [ha1, ha2, hal]
  · rw [hv1, hv2]
  · rw [hb1, hb2, hlen]
  · simp only [List.map_cons, List.map_nil, hel1, hel2]

/-- A successful `FMDemod::config`: what the descriptor contains and what the call does to any
node. -/
theorem FMDemod_config_ok {κ ι β ρ : Type} (F : FMArith ι β) (Ci : Codec κ ι)
    (Co : Codec κ β) (isid osid : ScalarId) (junk : Nat → κ) (self : FMDemod κ β)
    (cfg : Config ρ) (d : Config ρ)
    (h : (FMDemod.config F Ci Co isid osid junk self cfg).2 = .configured d) :
    ∃ B, cfg.bufferSize = some B ∧ cfg.type = some (.cplx isid) ∧
      ∀ (junk' : Nat → κ) (self' : FMDemod κ β),
        FMDemod.config F Ci Co isid osid junk' self' cfg =
          ({ self' with _buffer := Buffer.alloc Co junk' B,
                        _last_value := F.zero,
                        _can_overwrite := decide (Ci.complex.size ≥ Co.size) },
            .configured d) := by
  obtain ⟨ty, sr, bs, nb⟩ := cfg
  cases ty with
  | none => simp [FMDemod.config, Config.hasType, Config.hasBufferSize] at h
  | some ty =>
    cases bs with
    | none => simp [FMDemod.config, Config.hasType, Config.hasBufferSize] at h
    | some bs =>
      by_cases hty : TypeId.cplx isid = ty
      · subst hty
        simp [FMDemod.config, Config.hasType, Config.hasBufferSize] at h
        refine ⟨bs, rfl, rfl, ?_⟩
        intro junk' self'
        simp [FMDemod.config, Config.hasType, Config.hasBufferSize, h]
      · simp [FMDemod.config, Config.hasType, Config.hasBufferSize, hty] at h

/-- A successful `FMDeemph::config`: what the descriptor contains and what the call does to
any node. -/
theorem FMDeemph_config_ok {κ α P ρ : Type} (A : DeemphArith α P) (C : Codec κ α)
    (sid : ScalarId) (alphaOf : ρ → Int) (junk : Nat → κ) (self : FMDeemph κ α)
    (cfg : Config ρ) (d : Config ρ)
    (h : (FMDeemph.config A C sid alphaOf junk self cfg).2 = .configured d) :
    ∃ B r, cfg.bufferSize = some B ∧ cfg.sampleRate = some r ∧
      cfg.type = some (.real sid) ∧
      ∀ (junk' : Nat → κ) (self' : FMDeemph κ α),
        FMDeemph.config A C sid alphaOf junk' self' cfg =
          ({ self' with _alpha := alphaOf r,
                        _avg := A.zero,
                        _buffer := Buffer.alloc C junk' B },
            .configured d) := by
  obtain ⟨ty, sr, bs, nb⟩ := cfg
  cases ty with
  | none => simp [FMDeemph.config, Config.hasType] at h
  | some ty =>
    cases sr with
    | none => simp [FMDeemph.config, Config.hasType, Config.hasSampleRate] at h
    | some sr =>
      cases bs with
      | none =>
        simp [FMDeemph.config, Config.hasType, Config.hasSampleRate,
          Config.hasBufferSize] at h
      | some bs =>
        by_cases hty : TypeId.real sid = ty
        · subst hty
          simp [FMDeemph.config, Config.hasType, Config.hasSampleRate,
            Config.hasBufferSize] at h
          refine ⟨bs, sr, rfl, rfl, rfl, ?_⟩
          intro junk' self'
          simp [FMDeemph.config, Config.hasType, Config.hasSampleRate,
            Config.hasBufferSize, h]
        · simp [FMDeemph.config, Config.hasType, Config.hasSampleRate,
            Config.hasBufferSize, hty] at h

/-- What `USBDemod::process` does, for both values of `allow_overwrite`. -/
theorem USBDemod_process_spec {κ α σ : Type} (A : USBArith α σ) (C : Codec κ α) (hC : C.WF)
    (send_default : Bool) (self : USBDemod κ) (buffer : List κ) (allow_overwrite : Bool)
    (hcap : allow_overwrite = false →
      Buffer.size C.complex buffer ≤ Buffer.size C self._buffer) :
    ∃ st' mem' h, USBDemod.process A C send_default self buffer allow_overwrite =
        some (st', mem', [{ buffer := h, allow_overwrite := send_default,
                            storage := if allow_overwrite then .input else .scratch }]) ∧
      Buffer.elems C h = (Buffer.elems C.complex buffer).map (USBDemod.sample A) ∧
      (allow_overwrite = false → mem' = buffer) ∧
      (allow_overwrite = true → st' = self) ∧
      st'._buffer.length = self._buffer.length := by
  have hsz : C.size ≤ C.complex.size := by show C.size ≤ 2 * C.size; omega
  cases allow_overwrite with
  | true =>
    have hout : Buffer.size C.complex buffer * C.size ≤
        (({ input := buffer, scratch := self._buffer } : Mem κ).sel .input).length := by
      have h1 := Buffer.size_mul_le C.complex buffer
      have h2 : Buffer.size C.complex buffer * C.size ≤
          Buffer.size C.complex buffer * C.complex.size := Nat.mul_le_mul_left _ hsz
      show _ ≤ buffer.length
      omega
    obtain ⟨m, h, hp, he, _, hS, _⟩ := USBDemod_inner_spec A C hC send_default .input
      { input := buffer, scratch := self._buffer } hout
    have hscr : m.scratch = self._buffer := hS rfl
    refine ⟨{ self with _buffer := m.scratch }, m.input, h, ?_, he, (fun h => nomatch h),
      (fun _ => by rw [hscr]), by rw [hscr]⟩
    unfold USBDemod.process
    simp only [if_true, hp, Option.some_bind]
  | false =>
    have hout : Buffer.size C.complex buffer * C.size ≤
        (({ input := buffer, scratch := self._buffer } : Mem κ).sel .scratch).length := by
      have h1 := Buffer.size_mul_le C self._buffer
      have h2 : Buffer.size C.complex buffer * C.size ≤ Buffer.size C self._buffer * C.size :=
        Nat.mul_le_mul_right _ (hcap rfl)
      show _ ≤ self._buffer.length
      omega
    obtain ⟨m, h, hp, he, hI, _, hlen⟩ := USBDemod_inner_spec A C hC send_default .scratch
      { input := buffer, scratch := self._buffer } hout
    refine ⟨{ self with _buffer := m.scratch }, m.input, h, ?_, he, (fun _ => hI rfl),
      (fun h => nomatch h), hlen⟩
    unfold USBDemod.process
    simp only [Bool.false_eq_true, if_false, hp, Option.some_bind]

/-- The running averages behind `FMDeemph.filter`: a sequence `a` with `a 0 = avg` that the
update rule produces on the samples, whose values `a 1, a 2, ...` are the filtered values. -/
theorem FMDeemph.filter_averages {α P : Type} (A : DeemphArith α P) (alpha : Int) :
    ∀ (xs : List α) (avg r : α) (ys : List α),
      FMDeemph.filter A alpha avg xs = some (r, ys) →
      ∃ a : Nat → α, a 0 = avg ∧ a xs.length = r ∧
        (∀ j x, xs[j]? = some x → FMDeemph.update A alpha (a j) x = some (a (j + 1))) ∧
        ys = (List.range xs.length).map (fun j => a (j + 1)) := by
  intro xs
  induction xs with
  | nil =>
    intro avg r ys h
    simp only [FMDeemph.filter, Option.some.injEq, Prod.mk.injEq] at h
    refine ⟨fun _ => avg, rfl, h.1, ?_, ?_⟩
    · intro j x hx; simp at hx
    · rw [← h.2]; rfl
  | cons x xs ih =>
    intro avg r ys h
    simp only [FMDeemph.filter] at h
    cases hu : FMDeemph.update A alpha avg x with
    | none => simp [hu] at h
    | some a1 =>
      rw [hu, Option.some_bind] at h
      cases hf : FMDeemph.filter A alpha a1 xs with
      | none => simp [hf] at h
      | some rr =>
        rw [hf, Option.some_bind] at h
        simp only [Option.some.injEq, Prod.mk.injEq] at h
        obtain ⟨a', h0, hr, hstep, hys⟩ := ih a1 rr.1 rr.2 hf
        refine ⟨fun j => match j with | 0 => avg | j + 1 => a' j, rfl, ?_, ?_, ?_⟩
        · show a' xs.length = r
          rw [hr, h.1]
        · intro j y hy
          cases j with
          | zero =>
            simp only [List.getElem?_cons_zero, Option.some.injEq] at hy
            subst hy
            show FMDeemph.update A alpha avg x = some (a' 0)
            rw [hu, h0]
          | succ j =>
            simp only [List.getElem?_cons_succ] at hy
            exact hstep j y hy
        · rw [← h.2, hys, List.length_cons, List.range_succ_eq_map, List.map_cons,
            List.map_map]
          show a1 :: _ = a' 0 :: _
          rw [h0]
          rfl

/-- The filter returns when the division by `alpha` is defined. -/
theorem FMDeemph.filter_total {α P : Type} (A : DeemphArith α P) (alpha : Int)
    (hdiv : ∀ x : P, ∃ q, A.divInt x alpha = some q) :
    ∀ (xs : List α) (avg : α), ∃ r ys, FMDeemph.filter A alpha avg xs = some (r, ys) := by
  intro xs
  induction xs with
  | nil => intro avg; exact ⟨avg, [], rfl⟩
  | cons x xs ih =>
    intro avg
    obtain ⟨a, ha0, hstep⟩ := FMDeemph.exists_averages A alpha hdiv avg (fun _ => x)
    obtain ⟨r, ys, hf⟩ := ih (a 1)
    refine ⟨r, a 1 :: ys, ?_⟩
    have h0 := hstep 0
    rw [ha0] at h0
    simp only [FMDeemph.filter, h0, Option.some_bind, hf]

/-- The filter on a concatenation: filter the first part, then the second part starting from
the running average the first part ended with. -/
theorem FMDeemph.filter_append {α P : Type} (A : DeemphArith α P) (alpha : Int) :
    ∀ (xs zs : List α) (avg : α),
      FMDeemph.filter A alpha avg (xs ++ zs) =
        (FMDeemph.filter A alpha avg xs).bind fun r =>
        (FMDeemph.filter A alpha r.1 zs).bind fun r' =>
        some (r'.1, r.2 ++ r'.2) := by
  intro xs
  induction xs with
  | nil =>
    intro zs avg
    simp only [List.nil_append, FMDeemph.filter, Option.some_bind]
    cases FMDeemph.filter A alpha avg zs <;> simp
  | cons x xs ih =>
    intro zs avg
    simp only [List.cons_append, FMDeemph.filter]
    cases hu : FMDeemph.update A alpha avg x with
    | none => simp
    | some a1 =>
      rw [Option.some_bind, Option.some_bind, List.append_eq, ih zs a1]
      cases FMDeemph.filter A alpha a1 xs with
      | none => rfl
      | some r =>
        simp only [Option.some_bind]
        cases FMDeemph.filter A alpha r.1 zs <;> simp

theorem Buffer.getElem?_elems {κ τ : Type} (C : Codec κ τ) (mem : List κ) (j : Nat) (x : τ)
    (h : (Buffer.elems C mem)[j]? = some x) :
    j < Buffer.size C mem ∧ Buffer.peek C mem j = x :=
  have hp := Buffer.peek_of_elems C mem _ rfl
  ⟨by
    by_contra hc
    have hlen : (Buffer.elems C mem).length = Buffer.size C mem := by simp [Buffer.elems]
    rw [List.getElem?_eq_none (by omega)] at h
    exact absurd h (by simp), hp.2 j x h⟩

/-- What `FMDeemph::process` does when the node is enabled, in terms of the filtered values of
the samples of the buffer. -/
theorem FMDeemph_process_filter {κ α P : Type} (A : DeemphArith α P) (C : Codec κ α)
    (hC : C.WF) (self : FMDeemph κ α) (buffer : List κ) (allow_overwrite : Bool)
    (r : α) (ys : List α)
    (hf : FMDeemph.filter A self._alpha self._avg (Buffer.elems C buffer) = some (r, ys))
    (hen : self._enabled = true)
    (hcap : allow_overwrite = false → Buffer.size C buffer ≤ Buffer.size C self._buffer) :
    ∃ st' mem' h, FMDeemph.process A C self buffer allow_overwrite =
        some (st', mem', [{ buffer := h, allow_overwrite := allow_overwrite,
                            storage := if allow_overwrite then .input else .scratch }]) ∧
      st'._avg = r ∧ st'._alpha = self._alpha ∧
      st'._enabled = self._enabled ∧ st'._buffer.length = self._buffer.length ∧
      Buffer.elems C h = ys ∧ ys.length = Buffer.size C buffer ∧
      (allow_overwrite = false → mem' = buffer ∧
        Buffer.head C st'._buffer (Buffer.size C buffer) = some h) ∧
      (allow_overwrite = true → st'._buffer = self._buffer ∧ h = mem') := by
  obtain ⟨a, ha0, har, hstep, hys⟩ := FMDeemph.filter_averages A self._alpha _ _ _ _ hf
  have hlen : (Buffer.elems C buffer).length = Buffer.size C buffer := by simp [Buffer.elems]
  rw [hlen] at har hys
  have hstep' : ∀ j, j < Buffer.size C buffer →
      FMDeemph.update A self._alpha (a j) (Buffer.peek C buffer j) = some (a (j + 1)) := by
    intro j hj
    apply hstep
    unfold Buffer.elems
    exact getElem?_map_range _ _ j hj
  obtain ⟨st', mem', h, hp, h1, h2, h3, h4, h5, h6, h7⟩ :=
    FMDeemph_process_spec A C hC self buffer allow_overwrite a ha0 hstep' hen hcap
  refine ⟨st', mem', h, hp, by rw [h1, har], h2, h3, h4, by rw [h5, hys],
    by rw [hys]; simp, ?_, h7⟩
  intro hfalse
  refine ⟨h6 hfalse, ?_⟩
  subst hfalse
  have hne : (!self._enabled) = false := by rw [hen]; rfl
  unfold FMDeemph.process at hp
  simp only [hne, Bool.false_eq_true, if_false] at hp
  cases hq : FMDeemph._process A C self._alpha .scratch self._avg
      { input := buffer, scratch := self._buffer } with
  | none => rw [hq] at hp; exact absurd hp (by simp)
  | some rr =>
    rw [hq, Option.some_bind] at hp
    cases hh : Buffer.head C rr.2.scratch (Buffer.size C buffer) with
    | none => rw [hh] at hp; exact absurd hp (by simp)
    | some h' =>
      rw [hh, Option.some_bind] at hp
      simp only [Option.some.injEq, Prod.mk.injEq, List.cons.injEq, and_true] at hp
      obtain ⟨e1, _, e3⟩ := hp
      have e4 : h' = h := congrArg Sent.buffer e3
      rw [← e1, ← e4]
      exact hh

/-- The elements of a concatenation of two storages, the first consisting of whole elements. -/
theorem Buffer.elems_append {κ τ : Type} (C : Codec κ τ) (hC : C.WF) (a b : List κ)
    (ha : a.length % C.size = 0) :
    Buffer.elems C (a ++ b) = Buffer.elems C a ++ Buffer.elems C b := by
  have hpos := hC.size_pos
  obtain ⟨k, hk⟩ : ∃ k, a.length = k * C.size :=
    ⟨a.length / C.size, by
      have := Nat.div_add_mod a.length C.size
      rw [ha, Nat.add_zero, Nat.mul_comm] at this
      exact this.symm⟩
  have hsa : Buffer.size C a = k := by
    unfold Buffer.size; rw [hk]; exact Nat.mul_div_cancel _ hpos
  have hsab : Buffer.size C (a ++ b) = k + Buffer.size C b := by
    unfold Buffer.size
    rw [List.length_append, hk, Nat.add_comm, Nat.add_mul_div_right _ _ hpos, Nat.add_comm]
  apply List.ext_getElem?
  intro j
  unfold Buffer.elems
  rw [hsab, hsa]
  by_cases h1 : j < k
  · rw [getElem?_map_range _ _ j (by omega),
      List.getElem?_append_left (by simp; omega), getElem?_map_range _ _ j h1]
    unfold Buffer.peek
    have hle : (j + 1) * C.size ≤ k * C.size := Nat.mul_le_mul_right _ h1
    have hsj : (j + 1) * C.size = j * C.size + C.size := by ring
    rw [slice_congr (a ++ b) a (j * C.size) C.size
      (fun c _ hc => List.getElem?_append_left (by omega))]
  · rw [List.getElem?_append_right (by simp; omega)]
    simp only [List.length_map, List.length_range]
    by_cases h2 : j < k + Buffer.size C b
    · rw [getElem?_map_range _ _ j h2, getElem?_map_range _ _ (j - k) (by omega)]
      unfold Buffer.peek
      congr 2
      apply List.ext_getElem?
      intro c
      rw [slice_getElem?, slice_getElem?]
      split
      · have hmul : j * C.size = k * C.size + (j - k) * C.size := by
          rw [← Nat.add_mul]; congr 1; omega
        rw [List.getElem?_append_right (by omega)]
        congr 1
        omega
      · rfl
    · rw [List.getElem?_eq_none (by simp; omega), List.getElem?_eq_none (by simp; omega)]

/-- The update of the running average in exact integer arithmetic, with the truncating
divisions written as divisions of non-negative numbers. -/
theorem FMDeemph.update_exactInt (alpha avg c : Int) (hα : 1 ≤ alpha) :
    FMDeemph.update DeemphArith.exactInt alpha avg c =
      some (if 0 < c - avg then avg + (c - avg + alpha / 2) / alpha
            else avg - (avg - c + alpha / 2) / alpha) := by
  have h2 : Int.tdiv alpha 2 = alpha / 2 := Int.tdiv_eq_ediv (by omega) (by norm_num)
  have hne : alpha ≠ 0 := by omega
  have hh : 0 ≤ alpha / 2 := Int.ediv_nonneg (by omega) (by norm_num)
  unfold FMDeemph.update DeemphArith.exactInt
  simp only [h2, hne, if_false]
  by_cases hpos : 0 < c - avg
  · simp only [hpos, decide_True, if_true, Option.some_bind]
    rw [Int.tdiv_eq_ediv (by omega) (by omega)]
  · simp only [hpos, decide_False, Bool.false_eq_true, if_false, Option.some_bind]
    have e : c - avg - alpha / 2 = -(avg - c + alpha / 2) := by ring
    rw [e, Int.neg_tdiv, Int.tdiv_eq_ediv (by omega) (by omega)]
    congr 1

/-- The size of one step of the exact integer filter at distance `D` from the input: it is at
most `D`, and it is zero exactly when `D` is less than `alpha / 2` rounded up. -/
theorem FMDeemph.quotient_bounds (alpha D : Int) (hα : 1 ≤ alpha) (hD : 0 ≤ D) :
    0 ≤ (D + alpha / 2) / alpha ∧ (D + alpha / 2) / alpha ≤ D ∧
      ((D + alpha / 2) / alpha = 0 ↔ D < (alpha + 1) / 2) := by
  have hh : 0 ≤ alpha / 2 := Int.ediv_nonneg (by omega) (by norm_num)
  have hpos : 0 < alpha := by omega
  refine ⟨Int.ediv_nonneg (by omega) (by omega), ?_, ?_⟩
  · have hlt : (D + alpha / 2) / alpha < D + 1 := by
      apply Int.ediv_lt_of_lt_mul hpos
      have h1 : 0 ≤ D * (alpha - 1) := Int.mul_nonneg hD (by omega)
      have h2 : (D + 1) * alpha = D * (alpha - 1) + D + alpha := by ring
      omega
    omega
  · constructor
    · intro h0
      have := Int.lt_ediv_add_one_mul_self (D + alpha / 2) hpos
      rw [h0] at this
      omega
    · intro hlt
      exact Int.ediv_eq_zero_of_lt (by omega) (by omega)

/-- One update of the exact integer filter with `alpha ≥ 1`: it returns, the new average lies
between the old one and the input, it is the old one exactly when the distance to the input is
less than `alpha / 2` rounded up, and otherwise the distance shrinks. -/
theorem FMDeemph.update_exactInt_step (alpha avg c : Int) (hα : 1 ≤ alpha) :
    ∃ a, FMDeemph.update DeemphArith.exactInt alpha avg c = some a ∧
      ((avg ≤ a ∧ a ≤ c) ∨ (c ≤ a ∧ a ≤ avg)) ∧
      (a = avg ↔ |c - avg| < (alpha + 1) / 2) ∧
      (a ≠ avg → |c - a| + 1 ≤ |c - avg|) := by
  refine ⟨_, FMDeemph.update_exactInt alpha avg c hα, ?_⟩
  by_cases hpos : 0 < c - avg
  · rw [if_pos hpos]
    obtain ⟨h0, h1, h2⟩ := FMDeemph.quotient_bounds alpha (c - avg) hα (by omega)
    have habs : |c - avg| = c - avg := abs_of_pos hpos
    have habs' : |c - (avg + (c - avg + alpha / 2) / alpha)| =
        c - (avg + (c - avg + alpha / 2) / alpha) := abs_of_nonneg (by omega)
    rw [habs, habs']
    refine ⟨Or.inl ⟨by omega, by omega⟩, ⟨fun h => h2.mp (by omega), fun h => ?_⟩, ?_⟩
    · have := h2.mpr h; omega
    · intro hne
      have : (c - avg + alpha / 2) / alpha ≠ 0 := fun h => hne (by omega)
      omega
  · rw [if_neg hpos]
    obtain ⟨h0, h1, h2⟩ := FMDeemph.quotient_bounds alpha (avg - c) hα (by omega)
    have habs : |c - avg| = avg - c := by
      rw [abs_of_nonpos (by omega)]; ring
    have habs' : |c - (avg - (avg - c + alpha / 2) / alpha)| =
        avg - (avg - c + alpha / 2) / alpha - c := by
      rw [abs_of_nonpos (by omega)]; ring
    rw [habs, habs']
    refine ⟨Or.inr ⟨by omega, by omega⟩, ⟨fun h => h2.mp (by omega), fun h => ?_⟩, ?_⟩
    · have := h2.mpr h; omega
    · intro hne
      have : (avg - c + alpha / 2) / alpha ≠ 0 := fun h => hne (by omega)
      omega

/-- The filter on a constant input whose running average no longer moves. -/
theorem FMDeemph.filter_stable {α P : Type} (A : DeemphArith α P) (alpha : Int) (v c : α)
    (hv : FMDeemph.update A alpha v c = some v) :
    ∀ k, ∃ ys, FMDeemph.filter A alpha v (List.replicate k c) = some (v, ys) := by
  intro k
  induction k with
  | zero => exact ⟨[], rfl⟩
  | succ k ih =>
    obtain ⟨ys, hys⟩ := ih
    exact ⟨v :: ys, by simp only [List.replicate_succ, FMDeemph.filter, hv, Option.some_bind, hys]⟩

/-- The exact integer filter on a constant input settles: from a running average at distance
at most `n` from the input, the running average after `k ≥ n` samples is one value `v` that the
update leaves unchanged. -/
theorem FMDeemph.filter_settles (alpha c : Int) (hα : 1 ≤ alpha) :
    ∀ (n : Nat) (a : Int), |c - a| ≤ n →
      ∃ v, FMDeemph.update DeemphArith.exactInt alpha v c = some v ∧
        ∀ k, n ≤ k → ∃ ys,
          FMDeemph.filter DeemphArith.exactInt alpha a (List.replicate k c) = some (v, ys) := by
  intro n
  induction n with
  | zero =>
    intro a ha
    obtain ⟨a', hu, _, hiff, _⟩ := FMDeemph.update_exactInt_step alpha a c hα
    have hlt : |c - a| < (alpha + 1) / 2 := by
      have : (0 : Int) < (alpha + 1) / 2 := by omega
      have h0 : |c - a| ≤ 0 := by simpa using ha
      omega
    have hst : FMDeemph.update DeemphArith.exactInt alpha a c = some a := by
      rw [hu, hiff.mpr hlt]
    exact ⟨a, hst, fun k _ => FMDeemph.filter_stable _ alpha a c hst k⟩
  | succ n ih =>
    intro a ha
    obtain ⟨a', hu, _, hiff, hdec⟩ := FMDeemph.update_exactInt_step alpha a c hα
    by_cases hsame : a' = a
    · have hst : FMDeemph.update DeemphArith.exactInt alpha a c = some a := by
        rw [hu, hsame]
      exact ⟨a, hst, fun k _ => FMDeemph.filter_stable _ alpha a c hst k⟩
    · have hd := hdec hsame
      have ha' : |c - a'| ≤ (n : Int) := by
        have : ((n + 1 : Nat) : Int) = (n : Int) + 1 := by push_cast; ring
        omega
      obtain ⟨v, hv, hk⟩ := ih a' ha'
      refine ⟨v, hv, ?_⟩
      intro k hk1
      obtain ⟨k', rfl⟩ : ∃ k', k = k' + 1 := ⟨k - 1, by omega⟩
      obtain ⟨ys, hys⟩ := hk k' (by omega)
      exact ⟨a' :: ys, by
        simp only [List.replicate_succ, FMDeemph.filter, hu, Option.some_bind, hys]⟩

/-- Over the reals the filter constant of a positive sample rate is at least `1`. -/
theorem FMDeemph.alphaReal_pos (r : ℝ) (hr : 0 < r) : 1 ≤ FMDeemph.alphaReal r := by
  unfold FMDeemph.alphaReal
  have ht : 0 < r * 75e-6 := by
    apply mul_pos hr
    norm_num
  have hneg : -1.0 / (r * 75e-6) < 0 := by
    apply div_neg_of_neg_of_pos _ ht
    norm_num
  have he1 : Real.exp (-1.0 / (r * 75e-6)) < 1 := Real.exp_lt_one_iff.mpr hneg
  have he0 : 0 < Real.exp (-1.0 / (r * 75e-6)) := Real.exp_pos _
  have hy0 : 0 < 1.0 - Real.exp (-1.0 / (r * 75e-6)) := by
    have : (1.0 : ℝ) = 1 := by norm_num
    rw [this]; linarith
  have hy1 : 1.0 - Real.exp (-1.0 / (r * 75e-6)) < 1 := by
    have : (1.0 : ℝ) = 1 := by norm_num
    rw [this]; linarith
  have hx : 1 < 1.0 / (1.0 - Real.exp (-1.0 / (r * 75e-6))) := by
    have : (1.0 : ℝ) / (1.0 - Real.exp (-1.0 / (r * 75e-6))) =
        1 / (1.0 - Real.exp (-1.0 / (r * 75e-6))) := by norm_num
    rw [this, lt_div_iff₀ hy0]
    linarith
  unfold cround
  rw [if_pos (by linarith)]
  apply Int.le_floor.mpr
  push_cast
  linarith

/-- A store of output element `i` leaves every input sample `j > i` as it was, when an output
element is no larger than an input sample. -/
theorem Buffer.get_set_gt {κ τ υ : Type} (C : Codec κ τ) (hC : C.WF) (D : Codec κ υ)
    (hsz : C.size ≤ D.size) (mem mem' : List κ) (i : Nat) (v : τ)
    (hset : Buffer.set C mem i v = some mem') (j : Nat) (hj : i < j) :
    Buffer.get D mem' j = Buffer.get D mem j := by
  have hb : (i + 1) * C.size ≤ mem.length := by
    unfold Buffer.set at hset
    by_contra hc
    rw [if_neg hc] at hset
    exact absurd hset (by simp)
  obtain ⟨a', hset', hlen, hget⟩ := Buffer.set_some C hC mem i v hb
  rw [hset] at hset'
  have e : mem' = a' := Option.some.inj hset'
  subst e
  unfold Buffer.get Buffer.peek
  rw [hlen]
  have h1 : (i + 1) * C.size ≤ j * D.size := Nat.mul_le_mul hj hsz
  have h2 : i * C.size ≤ (i + 1) * C.size := Nat.mul_le_mul_right _ (by omega)
  rw [slice_congr mem' mem (j * D.size) D.size (fun c hc _ => by
    rw [hget c, if_neg (by omega), if_neg (by omega)])]

/-- A property of the loop state that every iteration keeps is kept by the loop. -/
theorem forLoop_preserves {σ : Type} (Q : σ → Prop) (body : Nat → σ → Option σ)
    (hbody : ∀ i s s', body i s = some s' → Q s → Q s') :
    ∀ (count start : Nat) (s s' : σ), forLoop body count start s = some s' → Q s → Q s' := by
  intro count
  induction count with
  | zero =>
    intro start s s' h hQ
    simp only [forLoop, Option.some.injEq] at h
    rw [← h]; exact hQ
  | succ k ih =>
    intro start s s' h hQ
    simp only [forLoop] at h
    cases hb : body start s with
    | none => simp [hb] at h
    | some t =>
      rw [hb] at h
      exact ih (start + 1) t s' h (hbody start s t hb hQ)

/-- A store through an output view changes the length of neither storage. -/
theorem Mem.set_length {κ τ : Type} (C : Codec κ τ) (hC : C.WF) (o : Storage) (m m' : Mem κ)
    (i : Nat) (v : τ) (h : Mem.set C o m i v = some m') :
    m'.input.length = m.input.length ∧ m'.scratch.length = m.scratch.length := by
  unfold Mem.set at h
  cases hs : Buffer.set C (m.sel o) i v with
  | none => simp [hs] at h
  | some a =>
    rw [hs] at h
    simp only [Option.map_some', Option.some.injEq] at h
    have hb : (i + 1) * C.size ≤ (m.sel o).length := by
      unfold Buffer.set at hs
      by_contra hc
      rw [if_neg hc] at hs
      exact absurd hs (by simp)
    obtain ⟨a', hset', hlen, _⟩ := Buffer.set_some C hC (m.sel o) i v hb
    rw [hs] at hset'
    have e : a = a' := Option.some.inj hset'
    subst e
    rw [← h]
    cases o with
    | input => exact ⟨hlen, rfl⟩
    | scratch => exact ⟨rfl, hlen⟩

/-- The method `AMDemod::process` keeps the length of the node's own buffer. -/
theorem AMDemod_process_length {κ α P : Type} (A : AMArith α P) (C : Codec κ α) (hC : C.WF)
    (self : AMDemod κ) (buffer : List κ) (allow_overwrite : Bool)
    (r : AMDemod κ × List κ × List (Sent κ))
    (h : AMDemod.process A C self buffer allow_overwrite = some r) :
    r.1._buffer.length = self._buffer.length := by
  unfold AMDemod.process at h
  simp only at h
  cases hl : forLoop (fun i (m : Mem κ) =>
      (Buffer.get C.complex m.input i).bind fun x =>
        Mem.set C (if allow_overwrite then Storage.input else Storage.scratch) m i
          (AMDemod.sample A x))
      (Buffer.size C.complex buffer) 0 { input := buffer, scratch := self._buffer } with
  | none => rw [hl] at h; exact absurd h (by simp)
  | some m =>
    rw [hl, Option.some_bind] at h
    have hm := forLoop_preserves (fun m : Mem κ => m.scratch.length = self._buffer.length) _
      (by
        intro i s s' hb hQ
        cases hg : Buffer.get C.complex s.input i with
        | none => rw [hg] at hb; exact absurd hb (by simp)
        | some x =>
          rw [hg, Option.some_bind] at hb
          rw [(Mem.set_length C hC _ s s' i _ hb).2]; exact hQ)
      _ _ _ _ hl rfl
    cases hh : Buffer.head C
        (m.sel (if allow_overwrite then Storage.input else Storage.scratch))
        (Buffer.size C.complex buffer) with
    | none => rw [hh] at h; exact absurd h (by simp)
    | some hd =>
      rw [hh, Option.some_bind] at h
      rw [← Option.some.inj h]
      exact hm

/-- The method `USBDemod::process` keeps the length of the node's own buffer. -/
theorem USBDemod_process_length {κ α σ : Type} (A : USBArith α σ) (C : Codec κ α)
    (hC : C.WF) (send_default : Bool) (self : USBDemod κ) (buffer : List κ)
    (allow_overwrite : Bool) (r : USBDemod κ × List κ × List (Sent κ))
    (h : USBDemod.process A C send_default self buffer allow_overwrite = some r) :
    r.1._buffer.length = self._buffer.length := by
  have inner : ∀ (out : Storage) (q : Mem κ × List (Sent κ)),
      USBDemod._process A C send_default out { input := buffer, scratch := self._buffer } =
        some q → q.1.scratch.length = self._buffer.length := by
    intro out q hq
    unfold USBDemod._process at hq
    simp only at hq
    cases hl : forLoop (fun i (m : Mem κ) =>
        (Buffer.get C.complex m.input i).bind fun x =>
          Mem.set C out m i (USBDemod.sample A x))
        (Buffer.size C.complex buffer) 0 { input := buffer, scratch := self._buffer } with
    | none => rw [hl] at hq; exact absurd hq (by simp)
    | some m =>
      rw [hl, Option.some_bind] at hq
      have hm := forLoop_preserves (fun m : Mem κ => m.scratch.length = self._buffer.length) _
        (by
          intro i s s' hb hQ
          cases hg : Buffer.get C.complex s.input i with
          | none => rw [hg] at hb; exact absurd hb (by simp)
          | some x =>
            rw [hg, Option.some_bind] at hb
            rw [(Mem.set_length C hC _ s s' i _ hb).2]; exact hQ)
        _ _ _ _ hl rfl
      cases hh : Buffer.head C (m.sel out) (Buffer.size C.complex buffer) with
      | none => rw [hh] at hq; exact absurd hq (by simp)
      | some hd =>
        rw [hh, Option.some_bind] at hq
        rw [← Option.some.inj hq]
        exact hm
  unfold USBDemod.process at h
  simp only at h
  cases allow_overwrite with
  | true =>
    simp only [if_true] at h
    cases hq : USBDemod._process A C send_default .input
        { input := buffer, scratch := self._buffer } with
    | none => rw [hq] at h; exact absurd h (by simp)
    | some q =>
      rw [hq, Option.some_bind] at h
      rw [← Option.some.inj h]
      exact inner _ q hq
  | false =>
    simp only [Bool.false_eq_true, if_false] at h
    cases hq : USBDemod._process A C send_default .scratch
        { input := buffer, scratch := self._buffer } with
    | none => rw [hq] at h; exact absurd h (by simp)
    | some q =>
      rw [hq, Option.some_bind] at h
      rw [← Option.some.inj h]
      exact inner _ q hq

/-- The method `FMDemod::process` keeps the length of the node's own buffer. -/
theorem FMDemod_process_length {κ ι β : Type} (F : FMArith ι β) (Ci : Codec κ ι)
    (Co : Codec κ β) (hCo : Co.WF) (send_default : Bool) (self : FMDemod κ β)
    (buffer : List κ) (allow_overwrite : Bool) (r : FMDemod κ β × List κ × List (Sent κ))
    (h : FMDemod.process F Ci Co send_default self buffer allow_overwrite = some r) :
    r.1._buffer.length = self._buffer.length := by
  have inner : ∀ (out : Storage) (q : β × Mem κ × List (Sent κ)),
      FMDemod._process F Ci Co send_default out self._last_value
        { input := buffer, scratch := self._buffer } = some q →
      q.2.1.scratch.length = self._buffer.length := by
    intro out q hq
    unfold FMDemod._process at hq
    simp only at hq
    cases hl : forLoop (fun i (s : β × Mem κ) =>
        (Buffer.get Ci.complex s.2.input i).bind fun x =>
          (Mem.set Co out s.2 i (F.sub s.1 (FMDemod.phi F x))).bind fun m' =>
          some (FMDemod.phi F x, m'))
        (Buffer.size Ci.complex buffer - 1) 1
        (self._last_value, { input := buffer, scratch := self._buffer }) with
    | none => rw [hl] at hq; exact absurd hq (by simp)
    | some s =>
      rw [hl, Option.some_bind] at hq
      have hm := forLoop_preserves
        (fun s : β × Mem κ => s.2.scratch.length = self._buffer.length) _
        (by
          intro i s s' hb hQ
          cases hg : Buffer.get Ci.complex s.2.input i with
          | none => rw [hg] at hb; exact absurd hb (by simp)
          | some x =>
            rw [hg, Option.some_bind] at hb
            cases hs : Mem.set Co out s.2 i (F.sub s.1 (FMDemod.phi F x)) with
            | none => rw [hs] at hb; exact absurd hb (by simp)
            | some m' =>
              rw [hs, Option.some_bind] at hb
              rw [← Option.some.inj hb]
              show m'.scratch.length = _
              rw [(Mem.set_length Co hCo _ s.2 m' i _ hs).2]; exact hQ)
        _ _ _ _ hl rfl
      cases hh : Buffer.head Co (s.2.sel out) (Buffer.size Ci.complex buffer) with
      | none => rw [hh] at hq; exact absurd hq (by simp)
      | some hd =>
        rw [hh, Option.some_bind] at hq
        rw [← Option.some.inj hq]
        exact hm
  unfold FMDemod.process at h
  by_cases hn : 0 = Buffer.size Ci.complex buffer
  · rw [if_pos hn] at h
    rw [← Option.some.inj h]
  · rw [if_neg hn] at h
    simp only at h
    cases hsel : (allow_overwrite && self._can_overwrite) with
    | true =>
      simp only [hsel, if_true] at h
      cases hq : FMDemod._process F Ci Co send_default .input self._last_value
          { input := buffer, scratch := self._buffer } with
      | none => rw [hq] at h; exact absurd h (by simp)
      | some q =>
        rw [hq, Option.some_bind] at h
        rw [← Option.some.inj h]
        exact inner _ q hq
    | false =>
      simp only [hsel, Bool.false_eq_true, if_false] at h
      cases hq : FMDemod._process F Ci Co send_default .scratch self._last_value
          { input := buffer, scratch := self._buffer } with
      | none => rw [hq] at h; exact absurd h (by simp)
      | some q =>
        rw [hq, Option.some_bind] at h
        rw [← Option.some.inj h]
        exact inner _ q hq

/-- The method `FMDeemph::process` keeps the length of the node's own buffer. -/
theorem FMDeemph_process_length {κ α P : Type} (A : DeemphArith α P) (C : Codec κ α)
    (hC : C.WF) (self : FMDeemph κ α) (buffer : List κ) (allow_overwrite : Bool)
    (r : FMDeemph κ α × List κ × List (Sent κ))
    (h : FMDeemph.process A C self buffer allow_overwrite = some r) :
    r.1._buffer.length = self._buffer.length := by
  have inner : ∀ (out : Storage) (q : α × Mem κ),
      FMDeemph._process A C self._alpha out self._avg
        { input := buffer, scratch := self._buffer } = some q →
      q.2.scratch.length = self._buffer.length := by
    intro out q hq
    unfold FMDeemph._process at hq
    exact forLoop_preserves
      (fun s : α × Mem κ => s.2.scratch.length = self._buffer.length) _
      (by
        intro i s s' hb hQ
        cases hg : Buffer.get C s.2.input i with
        | none => rw [hg] at hb; exact absurd hb (by simp)
        | some x =>
          rw [hg, Option.some_bind] at hb
          cases hu : FMDeemph.update A self._alpha s.1 x with
          | none => rw [hu] at hb; exact absurd hb (by simp)
          | some a =>
            rw [hu, Option.some_bind] at hb
            cases hs : Mem.set C out s.2 i a with
            | none => rw [hs] at hb; exact absurd hb (by simp)
            | some m' =>
              rw [hs, Option.some_bind] at hb
              rw [← Option.some.inj hb]
              show m'.scratch.length = _
              rw [(Mem.set_length C hC _ s.2 m' i _ hs).2]; exact hQ)
      _ _ _ _ hq rfl
  unfold FMDeemph.process at h
  cases hen : self._enabled with
  | false =>
    simp only [hen, Bool.not_false, if_true] at h
    rw [← Option.some.inj h]
  | true =>
    simp only [hen, Bool.not_true, Bool.false_eq_true, if_false] at h
    cases allow_overwrite with
    | true =>
      simp only [if_true] at h
      cases hq : FMDeemph._process A C self._alpha .input self._avg
          { input := buffer, scratch := self._buffer } with
      | none => rw [hq] at h; exact absurd h (by simp)
      | some q =>
        rw [hq, Option.some_bind] at h
        rw [← Option.some.inj h]
        exact inner _ q hq
    | false =>
      simp only [Bool.false_eq_true, if_false] at h
      cases hq : FMDeemph._process A C self._alpha .scratch self._avg
          { input := buffer, scratch := self._buffer } with
      | none => rw [hq] at h; exact absurd h (by simp)
      | some q =>
        rw [hq, Option.some_bind] at h
        cases hh : Buffer.head C q.2.scratch (Buffer.size C buffer) with
        | none => rw [hh] at h; exact absurd h (by simp)
        | some hd =>
          rw [hh, Option.some_bind] at h
          rw [← Option.some.inj h]
          exact inner _ q hq

/-- The capacity a run of calls ends with is the buffer size the run recorded, when a
successful `config` sets the capacity to the buffer size of its descriptor and no other call
changes it. -/
theorem drive_capacity {σ κ ρ : Type}
    (config : (Nat → κ) → σ → Config ρ → σ × ConfigOutcome ρ)
    (process : σ → List κ → Bool → Option (σ × List κ × List (Sent κ))) (cap : σ → Nat)
    (hok : ∀ junk s cfg d, (config junk s cfg).2 = .configured d →
      cap (config junk s cfg).1 = cfg.bufferSize.getD 0)
    (hno : ∀ junk s cfg, (∀ d, (config junk s cfg).2 ≠ .configured d) →
      cap (config junk s cfg).1 = cap s)
    (hproc : ∀ s b ao r, process s b ao = some r → cap r.1 = cap s) :
    ∀ (calls : List (Call κ ρ)) (s s' : σ × Nat), cap s.1 = s.2 →
      drive config process s calls = some s' → cap s'.1 = s'.2 := by
  intro calls
  induction calls with
  | nil =>
    intro s s' hs h
    simp only [drive, Option.some.injEq] at h
    rw [← h]; exact hs
  | cons call rest ih =>
    intro s s' hs h
    cases call with
    | config cfg junk =>
      simp only [drive] at h
      cases ho : (config junk s.1 cfg).2 with
      | configured d =>
        rw [ho] at h
        exact ih _ s' (hok junk s.1 cfg d ho) h
      | skipped =>
        rw [ho] at h
        exact ih _ s' (by
          show cap (config junk s.1 cfg).1 = s.2
          rw [hno junk s.1 cfg (fun d hd => by rw [ho] at hd; cases hd), hs]) h
      | raised err =>
        rw [ho] at h
        exact ih _ s' (by
          show cap (config junk s.1 cfg).1 = s.2
          rw [hno junk s.1 cfg (fun d hd => by rw [ho] at hd; cases hd), hs]) h
    | process b ao =>
      simp only [drive] at h
      cases hp : process s.1 b ao with
      | none => rw [hp] at h; exact absurd h (by simp)
      | some r =>
        rw [hp] at h
        exact ih _ s' (by
          show cap r.1 = s.2
          rw [hproc s.1 b ao r hp, hs]) h

/-- A successful `AMDemod::config`: what the descriptor contains and what the call does to any
node. -/
theorem AMDemod_config_ok {κ α ρ : Type} (C : Codec κ α) (sid : ScalarId) (junk : Nat → κ)
    (self : AMDemod κ) (cfg : Config ρ) (d : Config ρ)
    (h : (AMDemod.config C sid junk self cfg).2 = .configured d) :
    ∃ B, cfg.bufferSize = some B ∧ cfg.type = some (.cplx sid) ∧
      ∀ (junk' : Nat → κ) (self' : AMDemod κ),
        AMDemod.config C sid junk' self' cfg =
          ({ self' with _buffer := Buffer.alloc C junk' B }, .configured d) := by
  obtain ⟨ty, sr, bs, nb⟩ := cfg
  cases ty with
  | none => simp [AMDemod.config, Config.hasType, Config.hasBufferSize] at h
  | some ty =>
    cases bs with
    | none => simp [AMDemod.config, Config.hasType, Config.hasBufferSize] at h
    | some bs =>
      by_cases hty : TypeId.cplx sid = ty
      · subst hty
        simp [AMDemod.config, Config.hasType, Config.hasBufferSize] at h
        refine ⟨bs, rfl, rfl, ?_⟩
        intro junk' self'
        simp [AMDemod.config, Config.hasType, Config.hasBufferSize, h]
      · simp [AMDemod.config, Config.hasType, Config.hasBufferSize, hty] at h

/-- A successful `USBDemod::config`: what the descriptor contains and what the call does to
any node. -/
theorem USBDemod_config_ok {κ α ρ : Type} (C : Codec κ α) (sid : ScalarId) (junk : Nat → κ)
    (self : USBDemod κ) (cfg : Config ρ) (d : Config ρ)
    (h : (USBDemod.config C sid junk self cfg).2 = .configured d) :
    ∃ B, cfg.bufferSize = some B ∧ cfg.type = some (.cplx sid) ∧
      ∀ (junk' : Nat → κ) (self' : USBDemod κ),
        USBDemod.config C sid junk' self' cfg =
          ({ self' with _buffer := Buffer.alloc C junk' B }, .configured d) := by
  obtain ⟨ty, sr, bs, nb⟩ := cfg
  cases ty with
  | none => simp [USBDemod.config, Config.hasType, Config.hasBufferSize] at h
  | some ty =>
    cases bs with
    | none => simp [USBDemod.config, Config.hasType, Config.hasBufferSize] at h
    | some bs =>
      by_cases hty : TypeId.cplx sid = ty
      · subst hty
        simp [USBDemod.config, Config.hasType, Config.hasBufferSize] at h
        refine ⟨bs, rfl, rfl, ?_⟩
        intro junk' self'
        simp [USBDemod.config, Config.hasType, Config.hasBufferSize, h]
      · simp [USBDemod.config, Config.hasType, Config.hasBufferSize, hty] at h

/-- A `config` call that neither throws nor returns early is the only one that changes a
node. -/
theorem config_unchanged {κ α ι β P ρ : Type} (C : Codec κ α) (Ci : Codec κ ι)
    (Co : Codec κ β) (F : FMArith ι β) (A : DeemphArith α P) (sid osid : ScalarId)
    (alphaOf : ρ → Int) (junk : Nat → κ) (cfg : Config ρ) :
    (∀ am : AMDemod κ, (∀ d, (AMDemod.config C sid junk am cfg).2 ≠ .configured d) →
      (AMDemod.config C sid junk am cfg).1 = am) ∧
    (∀ usb : USBDemod κ, (∀ d, (USBDemod.config C sid junk usb cfg).2 ≠ .configured d) →
      (USBDemod.config C sid junk usb cfg).1 = usb) ∧
    (∀ fm : FMDemod κ β,
      (∀ d, (FMDemod.config F Ci Co sid osid junk fm cfg).2 ≠ .configured d) →
      (FMDemod.config F Ci Co sid osid junk fm cfg).1 = fm) ∧
    (∀ de : FMDeemph κ α,
      (∀ d, (FMDeemph.config A C sid alphaOf junk de cfg).2 ≠ .configured d) →
      (FMDeemph.config A C sid alphaOf junk de cfg).1 = de) := by
  refine ⟨?_, ?_, ?_, ?_⟩
  · intro am h
    by_cases hc : cfg.hasType = false ∨ cfg.hasBufferSize = false ∨
        cfg.type ≠ some (.cplx sid)
    · exact ((AMDemod_config_cases C sid junk am cfg).2.2 hc).1
    · exfalso
      obtain ⟨ty, sr, bs, nb⟩ := cfg
      cases ty <;> cases bs <;>
        simp_all [AMDemod.config, Config.hasType, Config.hasBufferSize]
  · intro usb h
    by_cases hc : cfg.hasType = false ∨ cfg.hasBufferSize = false ∨
        cfg.type ≠ some (.cplx sid)
    · exact ((USBDemod_config_cases C sid junk usb cfg).2.2 hc).1
    · exfalso
      obtain ⟨ty, sr, bs, nb⟩ := cfg
      cases ty <;> cases bs <;>
        simp_all [USBDemod.config, Config.hasType, Config.hasBufferSize]
  · intro fm h
    by_cases hc : cfg.hasType = false ∨ cfg.hasBufferSize = false ∨
        cfg.type ≠ some (.cplx sid)
    · exact ((FMDemod_config_cases F Ci Co sid osid junk fm cfg).2.2 hc).1
    · exfalso
      obtain ⟨ty, sr, bs, nb⟩ := cfg
      cases ty <;> cases bs <;>
        simp_all [FMDemod.config, Config.hasType, Config.hasBufferSize]
  · intro de h
    by_cases hc : cfg.hasType = false ∨ cfg.hasSampleRate = false ∨
        cfg.hasBufferSize = false ∨ cfg.type ≠ some (.real sid)
    · exact ((FMDeemph_config_cases A C sid alphaOf junk de cfg).2.2 hc).1
    · exfalso
      obtain ⟨ty, sr, bs, nb⟩ := cfg
      cases ty <;> cases sr <;> cases bs <;>
        simp_all [FMDeemph.config, Config.hasType, Config.hasSampleRate,
          Config.hasBufferSize]

/-- The elements of the head view of a storage are the first elements of the storage. -/
theorem Buffer.elems_of_head {κ τ : Type} (C : Codec κ τ) (hC : C.WF) (a h : List κ) (n : Nat)
    (hh : Buffer.head C a n = some h) :
    n * C.size ≤ a.length ∧ Buffer.elems C h = (List.range n).map (Buffer.peek C a) := by
  unfold Buffer.head at hh
  by_cases hb : n * C.size ≤ a.length
  · rw [if_pos hb] at hh
    rw [← Option.some.inj hh]
    exact ⟨hb, Buffer.elems_take C hC a n hb⟩
  · rw [if_neg hb] at hh
    exact absurd hh (by simp)

/-- Where `AMDemod::process` writes: the output storage (the input storage with
`allow_overwrite`, the node's own buffer without) keeps its length and its cells from element
`n` on, and the buffer sent is the head view on `n` elements of it. -/
theorem AMDemod_process_frame {κ α P : Type} (A : AMArith α P) (C : Codec κ α) (hC : C.WF)
    (self : AMDemod κ) (buffer : List κ) (allow_overwrite : Bool)
    (hcap : allow_overwrite = false →
      Buffer.size C.complex buffer ≤ Buffer.size C self._buffer) :
    ∃ st' mem' h, AMDemod.process A C self buffer allow_overwrite =
        some (st', mem', [{ buffer := h, allow_overwrite := true,
                            storage := if allow_overwrite then .input else .scratch }]) ∧
      Buffer.size C.complex buffer * C.size ≤
        (if allow_overwrite then buffer else self._buffer).length ∧
      (if allow_overwrite then mem' else st'._buffer).length =
        (if allow_overwrite then buffer else self._buffer).length ∧
      (∀ c, Buffer.size C.complex buffer * C.size ≤ c →
        (if allow_overwrite then mem' else st'._buffer)[c]? =
          (if allow_overwrite then buffer else self._buffer)[c]?) ∧
      Buffer.head C (if allow_overwrite then mem' else st'._buffer)
        (Buffer.size C.complex buffer) = some h := by
  have hin := Buffer.size_mul_le C.complex buffer
  have hsz : C.size ≤ C.complex.size := by show C.size ≤ 2 * C.size; omega
  have hout : Buffer.size C.complex buffer * C.size ≤
      (({ input := buffer, scratch := self._buffer } : Mem κ).sel
        (if allow_overwrite then .input else .scratch)).length := by
    cases allow_overwrite with
    | true =>
      have : Buffer.size C.complex buffer * C.size ≤
          Buffer.size C.complex buffer * C.complex.size := Nat.mul_le_mul_left _ hsz
      show _ ≤ buffer.length
      omega
    | false =>
      have := Buffer.size_mul_le C self._buffer
      have : Buffer.size C.complex buffer * C.size ≤
          Buffer.size C self._buffer * C.size := Nat.mul_le_mul_right _ (hcap rfl)
      show _ ≤ self._buffer.length
      omega
  obtain ⟨m, hloop, hW, hI, hS⟩ := mapLoop_spec C.complex C hC (AMDemod.sample A)
    (if allow_overwrite then .input else .scratch)
    { input := buffer, scratch := self._buffer } (Buffer.size C.complex buffer) hin hout
    (fun _ => hsz)
  obtain ⟨h, hhead, _⟩ := hW.elems_head hC hout
  refine ⟨{ self with _buffer := m.scratch }, m.input, h, ?_, ?_, ?_, ?_, ?_⟩
  · unfold AMDemod.process
    simp only [hloop, hhead, Option.some_bind]
  · cases allow_overwrite <;> exact hout
  · cases allow_overwrite <;> exact hW.length_eq
  · intro c hc
    cases allow_overwrite <;> exact hW.outside c (Or.inr hc)
  · cases allow_overwrite <;> exact hhead

/-- Where `USBDemod::process` writes, as for `AMDemod`. -/
theorem USBDemod_process_frame {κ α σ : Type} (A : USBArith α σ) (C : Codec κ α)
    (hC : C.WF) (send_default : Bool) (self : USBDemod κ) (buffer : List κ)
    (allow_overwrite : Bool)
    (hcap : allow_overwrite = false →
      Buffer.size C.complex buffer ≤ Buffer.size C self._buffer) :
    ∃ st' mem' h, USBDemod.process A C send_default self buffer allow_overwrite =
        some (st', mem', [{ buffer := h, allow_overwrite := send_default,
                            storage := if allow_overwrite then .input else .scratch }]) ∧
      Buffer.size C.complex buffer * C.size ≤
        (if allow_overwrite then buffer else self._buffer).length ∧
      (if allow_overwrite then mem' else st'._buffer).length =
        (if allow_overwrite then buffer else self._buffer).length ∧
      (∀ c, Buffer.size C.complex buffer * C.size ≤ c →
        (if allow_overwrite then mem' else st'._buffer)[c]? =
          (if allow_overwrite then buffer else self._buffer)[c]?) ∧
      Buffer.head C (if allow_overwrite then mem' else st'._buffer)
        (Buffer.size C.complex buffer) = some h := by
  have hin := Buffer.size_mul_le C.complex buffer
  have hsz : C.size ≤ C.complex.size := by show C.size ≤ 2 * C.size; omega
  have hout : Buffer.size C.complex buffer * C.size ≤
      (({ input := buffer, scratch := self._buffer } : Mem κ).sel
        (if allow_overwrite then .input else .scratch)).length := by
    cases allow_overwrite with
    | true =>
      have : Buffer.size C.complex buffer * C.size ≤
          Buffer.size C.complex buffer * C.complex.size := Nat.mul_le_mul_left _ hsz
      show _ ≤ buffer.length
      omega
    | false =>
      have := Buffer.size_mul_le C self._buffer
      have : Buffer.size C.complex buffer * C.size ≤
          Buffer.size C self._buffer * C.size := Nat.mul_le_mul_right _ (hcap rfl)
      show _ ≤ self._buffer.length
      omega
  obtain ⟨m, hloop, hW, hI, hS⟩ := mapLoop_spec C.complex C hC (USBDemod.sample A)
    (if allow_overwrite then .input else .scratch)
    { input := buffer, scratch := self._buffer } (Buffer.size C.complex buffer) hin hout
    (fun _ => hsz)
  obtain ⟨h, hhead, _⟩ := hW.elems_head hC hout
  refine ⟨{ self with _buffer := m.scratch }, m.input, h, ?_, ?_, ?_, ?_, ?_⟩
  · unfold USBDemod.process USBDemod._process
    cases allow_overwrite
    · simp only [Bool.false_eq_true, if_false] at hloop hhead ⊢
      simp only [hloop, hhead, Option.some_bind]
    · simp only [if_true] at hloop hhead ⊢
      simp only [hloop, hhead, Option.some_bind]
  · cases allow_overwrite <;> exact hout
  · cases allow_overwrite <;> exact hW.length_eq
  · intro c hc
    cases allow_overwrite <;> exact hW.outside c (Or.inr hc)
  · cases allow_overwrite <;> exact hhead

/-- Where `FMDemod::process` writes on a non-empty buffer: the output storage (the input storage
with `allow_overwrite && _can_overwrite`, the node's own buffer otherwise) keeps its length and
its cells from element `n` on, and the buffer sent is the head view on `n` elements of it. -/
theorem FMDemod_process_frame {κ ι β : Type} (F : FMArith ι β) (Ci : Codec κ ι)
    (Co : Codec κ β) (hCo : Co.WF) (send_default : Bool) (self : FMDemod κ β)
    (buffer : List κ) (allow_overwrite : Bool)
    (hn : 1 ≤ Buffer.size Ci.complex buffer)
    (hcap : (allow_overwrite && self._can_overwrite) = false →
      Buffer.size Ci.complex buffer ≤ Buffer.size Co self._buffer)
    (hinv : (allow_overwrite && self._can_overwrite) = true → Co.size ≤ Ci.complex.size) :
    ∃ st' mem' h, FMDemod.process F Ci Co send_default self buffer allow_overwrite =
        some (st', mem', [{ buffer := h, allow_overwrite := send_default,
                            storage := if allow_overwrite && self._can_overwrite then .input
                                       else .scratch }]) ∧
      Buffer.size Ci.complex buffer * Co.size ≤
        (if allow_overwrite && self._can_overwrite then buffer else self._buffer).length ∧
      (if allow_overwrite && self._can_overwrite then mem' else st'._buffer).length =
        (if allow_overwrite && self._can_overwrite then buffer else self._buffer).length ∧
      (∀ c, Buffer.size Ci.complex buffer * Co.size ≤ c →
        (if allow_overwrite && self._can_overwrite then mem' else st'._buffer)[c]? =
          (if allow_overwrite && self._can_overwrite then buffer else self._buffer)[c]?) ∧
      Buffer.head Co (if allow_overwrite && self._can_overwrite then mem' else st'._buffer)
        (Buffer.size Ci.complex buffer) = some h := by
  have hne : ¬ (0 = Buffer.size Ci.complex buffer) := by omega
  cases hsel : (allow_overwrite && self._can_overwrite) with
  | true =>
    have hsz := hinv hsel
    have hout : Buffer.size Ci.complex buffer * Co.size ≤
        (({ input := buffer, scratch := self._buffer } : Mem κ).sel .input).length := by
      have h1 := Buffer.size_mul_le Ci.complex buffer
      have h2 : Buffer.size Ci.complex buffer * Co.size ≤
          Buffer.size Ci.complex buffer * Ci.complex.size := Nat.mul_le_mul_left _ hsz
      show _ ≤ buffer.length
      omega
    obtain ⟨m, hloop, hW, hI, hS⟩ := FMDemod_loop_spec F Ci Co hCo .input self._last_value
      { input := buffer, scratch := self._buffer } (Buffer.size Ci.complex buffer) hn
      (Buffer.size_mul_le Ci.complex buffer) hout (fun _ => hsz)
    obtain ⟨h, hhead, _⟩ := hW.elems_head hCo hout
    refine ⟨{ self with
        _last_value := (if Buffer.size Ci.complex buffer = 1 then self._last_value
          else FMDemod.phi F (Buffer.peek Ci.complex buffer
            (Buffer.size Ci.complex buffer - 1))),
        _buffer := m.scratch }, m.input, h, ?_, hout, hW.length_eq,
      fun c hc => hW.outside c (Or.inr hc), hhead⟩
    unfold FMDemod.process FMDemod._process
    simp only [if_neg hne, hsel, if_true, hloop, hhead, Option.some_bind]
  | false =>
    have hout : Buffer.size Ci.complex buffer * Co.size ≤
        (({ input := buffer, scratch := self._buffer } : Mem κ).sel .scratch).length := by
      have h1 := Buffer.size_mul_le Co self._buffer
      have h2 : Buffer.size Ci.complex buffer * Co.size ≤
          Buffer.size Co self._buffer * Co.size := Nat.mul_le_mul_right _ (hcap hsel)
      show _ ≤ self._buffer.length
      omega
    obtain ⟨m, hloop, hW, hI, hS⟩ := FMDemod_loop_spec F Ci Co hCo .scratch self._last_value
      { input := buffer, scratch := self._buffer } (Buffer.size Ci.complex buffer) hn
      (Buffer.size_mul_le Ci.complex buffer) hout (fun h => nomatch h)
    obtain ⟨h, hhead, _⟩ := hW.elems_head hCo hout
    refine ⟨{ self with
        _last_value := (if Buffer.size Ci.complex buffer = 1 then self._last_value
          else FMDemod.phi F (Buffer.peek Ci.complex buffer
            (Buffer.size Ci.complex buffer - 1))),
        _buffer := m.scratch }, m.input, h, ?_, hout, hW.length_eq,
      fun c hc => hW.outside c (Or.inr hc), hhead⟩
    unfold FMDemod.process FMDemod._process
    simp only [if_neg hne, hsel, Bool.false_eq_true, if_false, hloop, hhead,
      Option.some_bind]

/-- Where an enabled `FMDeemph` writes: the output storage (the input storage with
`allow_overwrite`, the node's own buffer without) keeps its length and its cells from element
`n` on, and the elements of the buffer sent are its first `n` elements. -/
theorem FMDeemph_process_frame {κ α P : Type} (A : DeemphArith α P) (C : Codec κ α)
    (hC : C.WF) (self : FMDeemph κ α) (buffer : List κ) (allow_overwrite : Bool)
    (hen : self._enabled = true)
    (hdiv : ∀ x : P, ∃ q, A.divInt x self._alpha = some q)
    (hcap : allow_overwrite = false → Buffer.size C buffer ≤ Buffer.size C self._buffer) :
    ∃ st' mem' h, FMDeemph.process A C self buffer allow_overwrite =
        some (st', mem', [{ buffer := h, allow_overwrite := allow_overwrite,
                            storage := if allow_overwrite then .input else .scratch }]) ∧
      Buffer.size C buffer * C.size ≤
        (if allow_overwrite then buffer else self._buffer).length ∧
      (if allow_overwrite then mem' else st'._buffer).length =
        (if allow_overwrite then buffer else self._buffer).length ∧
      (∀ c, Buffer.size C buffer * C.size ≤ c →
        (if allow_overwrite then mem' else st'._buffer)[c]? =
          (if allow_overwrite then buffer else self._buffer)[c]?) ∧
      Buffer.elems C h = (List.range (Buffer.size C buffer)).map
        (Buffer.peek C (if allow_overwrite then mem' else st'._buffer)) := by
  have hne : (!self._enabled) = false := by rw [hen]; rfl
  obtain ⟨a, ha0, hstep⟩ := FMDeemph.exists_averages A self._alpha hdiv self._avg
    (Buffer.peek C buffer)
  cases allow_overwrite with
  | true =>
    have hout : Buffer.size C buffer * C.size ≤
        (({ input := buffer, scratch := self._buffer } : Mem κ).sel .input).length :=
      Buffer.size_mul_le C buffer
    obtain ⟨m, hproc, hW, hI, hS⟩ := FMDeemph_inner_spec A C hC self._alpha .input
      { input := buffer, scratch := self._buffer } a (fun j _ => hstep j) hout
    rw [ha0] at hproc
    have hlen : m.input.length = buffer.length := hW.length_eq
    refine ⟨{ self with _avg := a (Buffer.size C buffer), _buffer := m.scratch }, m.input,
      m.input, ?_, hout, hlen, fun c hc => hW.outside c (Or.inr hc), ?_⟩
    · unfold FMDeemph.process
      simp only [hne, Bool.false_eq_true, if_false, if_true, hproc, Option.some_bind]
    · have hsz : Buffer.size C m.input = Buffer.size C buffer := by
        unfold Buffer.size; rw [hlen]
      exact Buffer.elems_eq C m.input _ hsz
  | false =>
    have hout : Buffer.size C buffer * C.size ≤
        (({ input := buffer, scratch := self._buffer } : Mem κ).sel .scratch).length := by
      have h1 := Buffer.size_mul_le C self._buffer
      have h2 : Buffer.size C buffer * C.size ≤ Buffer.size C self._buffer * C.size :=
        Nat.mul_le_mul_right _ (hcap rfl)
      show _ ≤ self._buffer.length
      omega
    obtain ⟨m, hproc, hW, hI, hS⟩ := FMDeemph_inner_spec A C hC self._alpha .scratch
      { input := buffer, scratch := self._buffer } a (fun j _ => hstep j) hout
    rw [ha0] at hproc
    obtain ⟨h, hhead, _⟩ := hW.elems_head hC hout
    have hhead' : Buffer.head C m.scratch (Buffer.size C buffer) = some h := hhead
    refine ⟨{ self with _avg := a (Buffer.size C buffer), _buffer := m.scratch }, m.input,
      h, ?_, hout, hW.length_eq, fun c hc => hW.outside c (Or.inr hc),
      (Buffer.elems_of_head C hC m.scratch h _ hhead').2⟩
    unfold FMDeemph.process
    simp only [hne, Bool.false_eq_true, if_false, hproc, hhead', Option.some_bind]

/-! ## The claims -/

/-- C1: for every input buffer of `n` complex samples, `n` at most the capacity of the
configured output buffer, and either value of `allow_overwrite`, `AMDemod::process` sends exactly
one buffer; it has `n` elements and element `i` is `sqrt(re_i*re_i + im_i*im_i)` of input sample
`i`. In particular a node configured for buffer size 4 sends `[5, 5, 1, 5]` for the input
`[(3,4), (0,5), (1,0), (-3,-4)]`. -/
theorem AMDemod_process_magnitude :
    (∀ {κ α P : Type} (A : AMArith α P) (C : Codec κ α), C.WF →
      ∀ (self : AMDemod κ) (buffer : List κ) (allow_overwrite : Bool),
        Buffer.size C.complex buffer ≤ Buffer.size C self._buffer →
        ∃ st' mem' s, AMDemod.process A C self buffer allow_overwrite = some (st', mem', [s]) ∧
          (Buffer.elems C s.buffer).length = Buffer.size C.complex buffer ∧
          Buffer.elems C s.buffer = (Buffer.elems C.complex buffer).map
            (fun x => A.sqrt (A.add (A.mul x.1 x.1) (A.mul x.2 x.2)))) ∧
    (∀ (junk : Nat → Int) (self : AMDemod Int) (allow_overwrite : Bool),
      (Buffer.elems (Codec.cell 0).complex [3, 4, 0, 5, 1, 0, -3, -4] =
        [((3 : Int), (4 : Int)), (0, 5), (1, 0), (-3, -4)]) ∧
      ∃ st' mem' s,
        AMDemod.process AMArith.exact (Codec.cell 0)
          (AMDemod.config (Codec.cell 0) .f32 junk self
            ({ type := some (.cplx .f32), sampleRate := some 48000, bufferSize := some 4,
               numBuffers := none } : Config Nat)).1
          [3, 4, 0, 5, 1, 0, -3, -4] allow_overwrite = some (st', mem', [s]) ∧
        Buffer.elems (Codec.cell 0) s.buffer = [5, 5, 1, 5]) := by
  have gen : ∀ {κ α P : Type} (A : AMArith α P) (C : Codec κ α), C.WF →
      ∀ (self : AMDemod κ) (buffer : List κ) (allow_overwrite : Bool),
        Buffer.size C.complex buffer ≤ Buffer.size C self._buffer →
        ∃ st' mem' s, AMDemod.process A C self buffer allow_overwrite = some (st', mem', [s]) ∧
          (Buffer.elems C s.buffer).length = Buffer.size C.complex buffer ∧
          Buffer.elems C s.buffer = (Buffer.elems C.complex buffer).map
            (fun x => A.sqrt (A.add (A.mul x.1 x.1) (A.mul x.2 x.2))) := by
    intro κ α P A C hC self buffer allow_overwrite hcap
    obtain ⟨st', mem', h, hp, he, _, _⟩ :=
      AMDemod_process_spec A C hC self buffer allow_overwrite hcap
    refine ⟨st', mem', _, hp, ?_, he⟩
    show (Buffer.elems C h).length = _
    rw [he, List.length_map]
    simp [Buffer.elems]
  refine ⟨gen, ?_⟩
  intro junk self allow_overwrite
  have hin : Buffer.elems (Codec.cell 0).complex [3, 4, 0, 5, 1, 0, -3, -4] =
      [((3 : Int), (4 : Int)), (0, 5), (1, 0), (-3, -4)] := by decide
  refine ⟨hin, ?_⟩
  obtain ⟨st', mem', s, hp, _, he⟩ := gen AMArith.exact (Codec.cell 0) (Codec.cell_wf 0)
    (AMDemod.config (Codec.cell 0) .f32 junk self
      ({ type := some (.cplx .f32), sampleRate := some 48000, bufferSize := some 4,
         numBuffers := none } : Config Nat)).1
    [3, 4, 0, 5, 1, 0, -3, -4] allow_overwrite (by
      simp [AMDemod.config, Config.hasType, Config.hasBufferSize, Buffer.size, Buffer.alloc,
        Codec.cell, Codec.complex])
  refine ⟨st', mem', s, hp, ?_⟩
  rw [he, hin]
  have h25 : Nat.sqrt 25 = 5 := by
    symm; rw [Nat.eq_sqrt]; decide
  have h1 : Nat.sqrt 1 = 1 := by
    symm; rw [Nat.eq_sqrt]; decide
  simp [AMArith.exact, Int.sqrt, h25, h1]

/-- C1 at a concrete input: a scratch path run on four samples. -/
theorem AMDemod_process_magnitude_witness :
    ∃ st' mem' s, AMDemod.process AMArith.exact (Codec.cell 0) { _buffer := [0, 0, 0, 0] }
        [3, 4, 0, 5, 1, 0, -3, -4] false = some (st', mem', [s]) ∧
      (Buffer.elems (Codec.cell 0) s.buffer).length =
        Buffer.size (Codec.cell (0 : Int)).complex [3, 4, 0, 5, 1, 0, -3, -4] ∧
      Buffer.elems (Codec.cell 0) s.buffer =
        (Buffer.elems (Codec.cell 0).complex [3, 4, 0, 5, 1, 0, -3, -4]).map
          (fun x => AMArith.exact.sqrt
            (AMArith.exact.add (AMArith.exact.mul x.1 x.1) (AMArith.exact.mul x.2 x.2))) :=
  AMDemod_process_magnitude.1 AMArith.exact (Codec.cell 0) (Codec.cell_wf 0)
    { _buffer := [0, 0, 0, 0] } [3, 4, 0, 5, 1, 0, -3, -4] false (by decide)

/-- C2: for a `w`-bit signed integer `Scalar` whose compute type `SScalar` has at least `w + 1`
bits, and samples with both parts in the range of `Scalar`: the sum computed by
`USBDemod::_process` is the exact integer `re + im` (no wrap-around), the quotient
`(re + im) / 2` truncated toward zero lies in the range of `Scalar`, and it is the value stored;
so `_process` sends, for a buffer of such samples, exactly these quotients. -/
theorem USBDemod_process_exact (w s p : Nat) (hw : 1 ≤ w) (hs : w + 1 ≤ s) (hp : s ≤ p) :
    (∀ re im : Int, InRange w re → InRange w im →
      (USBArith.int w s p).add ((USBArith.int w s p).wide re) ((USBArith.int w s p).wide im) =
          re + im ∧
        InRange w (Int.tdiv (re + im) 2) ∧
        USBDemod.sample (USBArith.int w s p) (re, im) = Int.tdiv (re + im) 2) ∧
    (∀ {κ : Type} (C : Codec κ Int), C.WF →
      ∀ (send_default : Bool) (out : Storage) (m : Mem κ),
        Buffer.size C.complex m.input * C.size ≤ (m.sel out).length →
        (∀ x ∈ Buffer.elems C.complex m.input, InRange w x.1 ∧ InRange w x.2) →
        ∃ m' sent, USBDemod._process (USBArith.int w s p) C send_default out m =
            some (m', [sent]) ∧
          Buffer.elems C sent.buffer =
            (Buffer.elems C.complex m.input).map (fun x => Int.tdiv (x.1 + x.2) 2)) := by
  refine ⟨fun re im hre him => USBDemod.sample_int w s p hw hs hp re im hre him, ?_⟩
  intro κ C hC send_default out m hout hrange
  obtain ⟨m', h, hproc, helems, _⟩ :=
    USBDemod_inner_spec (USBArith.int w s p) C hC send_default out m hout
  refine ⟨m', _, hproc, ?_⟩
  show Buffer.elems C h = _
  rw [helems]
  apply List.map_congr_left
  intro x hx
  exact (USBDemod.sample_int w s p hw hs hp x.1 x.2 (hrange x hx).1 (hrange x hx).2).2.2

/-- C2 at a concrete input: 16-bit samples, 32-bit compute type, both parts at the maximum. -/
theorem USBDemod_process_exact_witness :
    (USBArith.int 16 32 32).add ((USBArith.int 16 32 32).wide 32767)
        ((USBArith.int 16 32 32).wide 32767) = 32767 + 32767 ∧
      InRange 16 (Int.tdiv (32767 + 32767) 2) ∧
      USBDemod.sample (USBArith.int 16 32 32) (32767, 32767) = Int.tdiv (32767 + 32767) 2 :=
  (USBDemod_process_exact 16 32 32 (by decide) (by decide) (by decide)).1 32767 32767
    (by decide) (by decide)

/-- C3: write `phi_i` for half of the arctangent approximation applied to sample `i` of the
input. For a buffer of `n ≥ 2` samples and running phase `L` before the call,
`FMDemod::_process` sends one buffer with `output[1] = L - phi_1` and
`output[i] = phi_(i-1) - phi_i` for `2 ≤ i < n`, and leaves the running phase `phi_(n-1)`
(for an output view on either storage that has room for `n` elements). The running phase is
carried from one `process` call to the next: in the call after a buffer `b1`, `output[1]` is
`phi_(n1-1)` of `b1` minus `phi_1` of the new buffer, and the following outputs are the chained
differences. -/
theorem FMDemod_process_phase_chain {κ ι β : Type} (F : FMArith ι β) (Ci : Codec κ ι)
    (Co : Codec κ β) (hCo : Co.WF) (send_default : Bool) :
    (∀ (out : Storage) (L : β) (m : Mem κ),
      2 ≤ Buffer.size Ci.complex m.input →
      Buffer.size Ci.complex m.input * Co.size ≤ (m.sel out).length →
      (out = .input → Co.size ≤ Ci.complex.size) →
      ∃ last' m' sent,
        FMDemod._process F Ci Co send_default out L m = some (last', m', [sent]) ∧
        (Buffer.elems Co sent.buffer)[1]? =
          some (F.sub L (F.half (F.fast_atan2 (Buffer.peek Ci.complex m.input 1).1
            (Buffer.peek Ci.complex m.input 1).2))) ∧
        (∀ i, 2 ≤ i → i < Buffer.size Ci.complex m.input →
          (Buffer.elems Co sent.buffer)[i]? =
            some (F.sub (FMDemod.phi F (Buffer.peek Ci.complex m.input (i - 1)))
              (FMDemod.phi F (Buffer.peek Ci.complex m.input i)))) ∧
        last' = FMDemod.phi F (Buffer.peek Ci.complex m.input
          (Buffer.size Ci.complex m.input - 1))) ∧
    (∀ (self : FMDemod κ β) (b1 b2 : List κ) (ao1 ao2 : Bool),
      2 ≤ Buffer.size Ci.complex b1 → 2 ≤ Buffer.size Ci.complex b2 →
      Buffer.size Ci.complex b1 ≤ Buffer.size Co self._buffer →
      Buffer.size Ci.complex b2 ≤ Buffer.size Co self._buffer →
      (self._can_overwrite = true → Co.size ≤ Ci.complex.size) →
      ∃ st1 mem1 s1 st2 mem2 s2,
        FMDemod.process F Ci Co send_default self b1 ao1 = some (st1, mem1, [s1]) ∧
        FMDemod.process F Ci Co send_default st1 b2 ao2 = some (st2, mem2, [s2]) ∧
        st1._last_value =
          FMDemod.phi F (Buffer.peek Ci.complex b1 (Buffer.size Ci.complex b1 - 1)) ∧
        (Buffer.elems Co s2.buffer)[1]? =
          some (F.sub
            (FMDemod.phi F (Buffer.peek Ci.complex b1 (Buffer.size Ci.complex b1 - 1)))
            (FMDemod.phi F (Buffer.peek Ci.complex b2 1))) ∧
        (∀ i, 2 ≤ i → i < Buffer.size Ci.complex b2 →
          (Buffer.elems Co s2.buffer)[i]? =
            some (F.sub (FMDemod.phi F (Buffer.peek Ci.complex b2 (i - 1)))
              (FMDemod.phi F (Buffer.peek Ci.complex b2 i))))) := by
  constructor
  · intro out L m hn hout halias
    obtain ⟨m', h, hproc, helems, _⟩ :=
      FMDemod_inner_spec F Ci Co hCo send_default out L m (by omega) hout halias
    refine ⟨_, m', _, hproc, ?_, ?_, ?_⟩
    · show (Buffer.elems Co h)[1]? = _
      rw [helems, getElem?_map_range _ _ 1 (by omega)]
      rfl
    · intro i hi1 hi2
      show (Buffer.elems Co h)[i]? = _
      rw [helems, getElem?_map_range _ _ i hi2]
      simp [show ¬ i < 1 by omega, show i ≠ 1 by omega]
    · simp [show Buffer.size Ci.complex m.input ≠ 1 by omega]
  · intro self b1 b2 ao1 ao2 hn1 hn2 hc1 hc2 hinv
    obtain ⟨st1, mem1, h1, hp1, hl1, _, hco1, hlen1, _⟩ :=
      FMDemod_process_spec F Ci Co hCo send_default self b1 ao1 (by omega) (fun _ => hc1)
        (fun h => hinv (by cases ao1 <;> simp_all))
    have hc2' : Buffer.size Ci.complex b2 ≤ Buffer.size Co st1._buffer := by
      unfold Buffer.size at hc2 ⊢
      rw [hlen1]; exact hc2
    obtain ⟨st2, mem2, h2, hp2, _, _, _, _, helems2, _⟩ :=
      FMDemod_process_spec F Ci Co hCo send_default st1 b2 ao2 (by omega) (fun _ => hc2')
        (fun h => hinv (by rw [hco1] at h; cases ao2 <;> simp_all))
    rw [if_neg (by omega)] at hl1
    refine ⟨st1, mem1, _, st2, mem2, _, hp1, hp2, hl1, ?_, ?_⟩
    · show (Buffer.elems Co h2)[1]? = _
      rw [helems2, getElem?_map_range _ _ 1 (by omega), hl1]
      rfl
    · intro i hi1 hi2
      show (Buffer.elems Co h2)[i]? = _
      rw [helems2, getElem?_map_range _ _ i hi2]
      simp [show ¬ i < 1 by omega, show i ≠ 1 by omega]

/-- C3 at a concrete input: a 3-sample buffer written to the node's own buffer, the running
phase being `100` before the call. -/
theorem FMDemod_process_phase_chain_witness :
    ∃ last' m' sent,
      FMDemod._process FMArith.quadrant (Codec.cell 0) (Codec.cell 0) false .scratch 100
          { input := [1, 1, -1, 1, -1, -1], scratch := [7, 7, 7] } = some (last', m', [sent]) ∧
        (Buffer.elems (Codec.cell 0) sent.buffer)[1]? = some (100 - 12288) ∧
        (Buffer.elems (Codec.cell 0) sent.buffer)[2]? = some (12288 - (-12288)) ∧
        last' = -12288 := by
  obtain ⟨last', m', sent, hp, h1, h2, h3⟩ :=
    (FMDemod_process_phase_chain FMArith.quadrant (Codec.cell 0) (Codec.cell 0)
      (Codec.cell_wf 0) false).1 .scratch 100
      { input := [1, 1, -1, 1, -1, -1], scratch := [7, 7, 7] } (by decide) (by decide)
      (fun h => nomatch h)
  refine ⟨last', m', sent, hp, ?_, ?_, ?_⟩
  · rw [h1]; decide
  · rw [h2 2 (by decide) (by decide)]; decide
  · rw [h3]; decide

/-- C4: `FMDemod::process` never writes output position 0. For every non-empty input buffer of
`n` samples (`n` at most the capacity of the node's buffer when that is the output storage, an
output element no larger than an input sample when the input storage is) one buffer of `n`
elements is sent, its element 0 is the value the chosen output storage (the input storage when
`allow_overwrite && _can_overwrite`, the node's buffer otherwise) held at slot 0 before the
call, and that slot holds the same value after the call. For `n = 1` neither storage is written
and the running phase is unchanged, yet a buffer of one element is sent. -/
theorem FMDemod_process_slot_zero {κ ι β : Type} (F : FMArith ι β) (Ci : Codec κ ι)
    (Co : Codec κ β) (hCo : Co.WF) (send_default : Bool) (self : FMDemod κ β)
    (buffer : List κ) (allow_overwrite : Bool)
    (hn : 1 ≤ Buffer.size Ci.complex buffer)
    (hcap : (allow_overwrite && self._can_overwrite) = false →
      Buffer.size Ci.complex buffer ≤ Buffer.size Co self._buffer)
    (hinv : (allow_overwrite && self._can_overwrite) = true → Co.size ≤ Ci.complex.size) :
    ∃ st' mem' sent,
      FMDemod.process F Ci Co send_default self buffer allow_overwrite =
        some (st', mem', [sent]) ∧
      sent.storage = (if allow_overwrite && self._can_overwrite then .input else .scratch) ∧
      (Buffer.elems Co sent.buffer).length = Buffer.size Ci.complex buffer ∧
      (Buffer.elems Co sent.buffer)[0]? =
        some (Buffer.peek Co
          (if allow_overwrite && self._can_overwrite then buffer else self._buffer) 0) ∧
      Buffer.peek Co (if allow_overwrite && self._can_overwrite then mem' else st'._buffer) 0 =
        Buffer.peek Co
          (if allow_overwrite && self._can_overwrite then buffer else self._buffer) 0 ∧
      (Buffer.size Ci.complex buffer = 1 →
        mem' = buffer ∧ st'._buffer = self._buffer ∧ st'._last_value = self._last_value) := by
  obtain ⟨st', mem', h, hp, hl, _, _, _, helems, _, _, hslot, hone⟩ :=
    FMDemod_process_spec F Ci Co hCo send_default self buffer allow_overwrite hn hcap hinv
  refine ⟨st', mem', _, hp, rfl, ?_, ?_, hslot, ?_⟩
  · show (Buffer.elems Co h).length = _
    rw [helems]; simp
  · show (Buffer.elems Co h)[0]? = _
    rw [helems, getElem?_map_range _ _ 0 (by omega)]
    rfl
  · intro h1
    refine ⟨(hone h1).1, (hone h1).2, ?_⟩
    rw [hl, if_pos h1]

/-- C4 at a concrete input: a one sample buffer, in place. -/
theorem FMDemod_process_slot_zero_witness :
    ∃ st' mem' sent,
      FMDemod.process FMArith.quadrant (Codec.cell 0) (Codec.cell 0) false
          { _shift := 0, _last_value := 100, _can_overwrite := true, _buffer := [7, 7, 7] }
          [3, -4] true = some (st', mem', [sent]) ∧
      sent.storage = .input ∧
      (Buffer.elems (Codec.cell 0) sent.buffer).length = 1 ∧
      (Buffer.elems (Codec.cell 0) sent.buffer)[0]? = some 3 ∧
      mem' = [3, -4] ∧ st'._buffer = [7, 7, 7] ∧ st'._last_value = 100 := by
  obtain ⟨st', mem', sent, hp, h0, h1, h2, _, h4⟩ :=
    FMDemod_process_slot_zero FMArith.quadrant (Codec.cell 0) (Codec.cell 0)
      (Codec.cell_wf 0) false
      { _shift := 0, _last_value := 100, _can_overwrite := true, _buffer := [7, 7, 7] }
      [3, -4] true (by decide) (by decide) (by decide)
  exact ⟨st', mem', sent, hp, h0, h1, h2, h4 (by decide)⟩

/-- C5: for each of the four nodes, `config` raises the type mismatch error exactly when all
the fields it requires are present (type and buffer size, for `FMDeemph` also the sample rate)
and the type of the descriptor differs from the input type the node expects; the error names
the type found and the type expected. In that case, and when a required field is absent, the
node after the call is the node before the call and no derived descriptor is emitted. -/
theorem config_mismatch_or_incomplete {κ α ι β P ρ : Type} (C : Codec κ α) (Ci : Codec κ ι)
    (Co : Codec κ β) (F : FMArith ι β) (A : DeemphArith α P) (sid osid : ScalarId)
    (alphaOf : ρ → Int) (junk : Nat → κ) (am : AMDemod κ) (usb : USBDemod κ)
    (fm : FMDemod κ β) (de : FMDeemph κ α) (cfg : Config ρ) :
    (((∃ err, (AMDemod.config C sid junk am cfg).2 = .raised err) ↔
        (cfg.hasType = true ∧ cfg.hasBufferSize = true ∧ cfg.type ≠ some (.cplx sid))) ∧
      (∀ ty, cfg.type = some ty → cfg.hasBufferSize = true → ty ≠ .cplx sid →
        (AMDemod.config C sid junk am cfg).2 =
          .raised { node := .AMDemod, actual := ty, expected := .cplx sid }) ∧
      ((cfg.hasType = false ∨ cfg.hasBufferSize = false ∨ cfg.type ≠ some (.cplx sid)) →
        (AMDemod.config C sid junk am cfg).1 = am ∧
        ∀ d, (AMDemod.config C sid junk am cfg).2 ≠ .configured d)) ∧
    (((∃ err, (USBDemod.config C sid junk usb cfg).2 = .raised err) ↔
        (cfg.hasType = true ∧ cfg.hasBufferSize = true ∧ cfg.type ≠ some (.cplx sid))) ∧
      (∀ ty, cfg.type = some ty → cfg.hasBufferSize = true → ty ≠ .cplx sid →
        (USBDemod.config C sid junk usb cfg).2 =
          .raised { node := .USBDemod, actual := ty, expected := .cplx sid }) ∧
      ((cfg.hasType = false ∨ cfg.hasBufferSize = false ∨ cfg.type ≠ some (.cplx sid)) →
        (USBDemod.config C sid junk usb cfg).1 = usb ∧
        ∀ d, (USBDemod.config C sid junk usb cfg).2 ≠ .configured d)) ∧
    (((∃ err, (FMDemod.config F Ci Co sid osid junk fm cfg).2 = .raised err) ↔
        (cfg.hasType = true ∧ cfg.hasBufferSize = true ∧ cfg.type ≠ some (.cplx sid))) ∧
      (∀ ty, cfg.type = some ty → cfg.hasBufferSize = true → ty ≠ .cplx sid →
        (FMDemod.config F Ci Co sid osid junk fm cfg).2 =
          .raised { node := .FMDemod, actual := ty, expected := .cplx sid }) ∧
      ((cfg.hasType = false ∨ cfg.hasBufferSize = false ∨ cfg.type ≠ some (.cplx sid)) →
        (FMDemod.config F Ci Co sid osid junk fm cfg).1 = fm ∧
        ∀ d, (FMDemod.config F Ci Co sid osid junk fm cfg).2 ≠ .configured d)) ∧
    (((∃ err, (FMDeemph.config A C sid alphaOf junk de cfg).2 = .raised err) ↔
        (cfg.hasType = true ∧ cfg.hasSampleRate = true ∧ cfg.hasBufferSize = true ∧
          cfg.type ≠ some (.real sid))) ∧
      (∀ ty, cfg.type = some ty → cfg.hasSampleRate = true → cfg.hasBufferSize = true →
        ty ≠ .real sid →
        (FMDeemph.config A C sid alphaOf junk de cfg).2 =
          .raised { node := .FMDeemph, actual := ty, expected := .real sid }) ∧
      ((cfg.hasType = false ∨ cfg.hasSampleRate = false ∨ cfg.hasBufferSize = false ∨
          cfg.type ≠ some (.real sid)) →
        (FMDeemph.config A C sid alphaOf junk de cfg).1 = de ∧
        ∀ d, (FMDeemph.config A C sid alphaOf junk de cfg).2 ≠ .configured d)) :=
  ⟨AMDemod_config_cases C sid junk am cfg, USBDemod_config_cases C sid junk usb cfg,
    FMDemod_config_cases F Ci Co sid osid junk fm cfg,
    FMDeemph_config_cases A C sid alphaOf junk de cfg⟩

/-- C5 at a concrete input: an `FMDeemph` for 16-bit samples is handed a complete descriptor
of complex samples; it raises the error and keeps its running average, alpha and buffer. -/
theorem config_mismatch_or_incomplete_witness :
    (FMDeemph.config (DeemphArith.int 16 32) (Codec.cell 0) .s16 (fun _ : Nat => 7)
        (fun _ => 0) { _enabled := true, _alpha := 3, _avg := 5, _buffer := [1, 2] }
        { type := some (.cplx .s16), sampleRate := some 48000, bufferSize := some 4,
          numBuffers := none }).2 =
      .raised { node := .FMDeemph, actual := .cplx .s16, expected := .real .s16 } ∧
    (FMDeemph.config (DeemphArith.int 16 32) (Codec.cell 0) .s16 (fun _ : Nat => 7)
        (fun _ => 0) { _enabled := true, _alpha := 3, _avg := 5, _buffer := [1, 2] }
        { type := some (.cplx .s16), sampleRate := some 48000, bufferSize := some 4,
          numBuffers := none }).1 =
      { _enabled := true, _alpha := 3, _avg := 5, _buffer := [1, 2] } :=
  have h := (config_mismatch_or_incomplete (Codec.cell (0 : Int)) (Codec.cell (0 : Int))
    (Codec.cell (0 : Int)) FMArith.quadrant (DeemphArith.int 16 32) .s16 .s16
    (fun _ : Nat => 7) (fun _ => 0) AMDemod.new USBDemod.new
    (FMDemod.new (Codec.cell (0 : Int)) (Codec.cell (0 : Int)) 0)
    { _enabled := true, _alpha := 3, _avg := 5, _buffer := [1, 2] }
    { type := some (.cplx .s16), sampleRate := some 48000, bufferSize := some 4,
      numBuffers := none }).2.2.2
  ⟨h.2.1 (.cplx .s16) rfl rfl rfl (by decide),
    (h.2.2 (Or.inr (Or.inr (Or.inr (by decide))))).1⟩

/-- C6: no node writes to an input buffer it may not overwrite. For `AMDemod`, `USBDemod`,
`FMDemod` and `FMDeemph`, with a buffer of at most as many samples as the node's own buffer
holds (and, for an enabled `FMDeemph`, a defined division by `_alpha`), `process` called with
`allow_overwrite = false` returns with the contents of the input storage as they were before
the call, and the view it sends lives in the node's own buffer; `FMDemod` does the same when
`allow_overwrite = true` but `_can_overwrite = false`. -/
theorem process_keeps_unwritable_input {κ α σ P Q ι β : Type} (Aam : AMArith α P)
    (Ausb : USBArith α σ) (F : FMArith ι β) (Ade : DeemphArith α Q) (C : Codec κ α)
    (Ci : Codec κ ι) (Co : Codec κ β) (hC : C.WF) (hCo : Co.WF) (send_default : Bool)
    (buffer : List κ) :
    (∀ self : AMDemod κ, Buffer.size C.complex buffer ≤ Buffer.size C self._buffer →
      ∃ st' sent, AMDemod.process Aam C self buffer false = some (st', buffer, sent) ∧
        ∀ s ∈ sent, s.storage = .scratch) ∧
    (∀ self : USBDemod κ, Buffer.size C.complex buffer ≤ Buffer.size C self._buffer →
      ∃ st' sent,
        USBDemod.process Ausb C send_default self buffer false = some (st', buffer, sent) ∧
        ∀ s ∈ sent, s.storage = .scratch) ∧
    (∀ (self : FMDemod κ β) (allow_overwrite : Bool),
      (allow_overwrite = false ∨ self._can_overwrite = false) →
      Buffer.size Ci.complex buffer ≤ Buffer.size Co self._buffer →
      ∃ st' sent,
        FMDemod.process F Ci Co send_default self buffer allow_overwrite =
          some (st', buffer, sent) ∧
        ∀ s ∈ sent, s.storage = .scratch) ∧
    (∀ self : FMDeemph κ α,
      (self._enabled = true → Buffer.size C buffer ≤ Buffer.size C self._buffer ∧
        ∀ x : Q, ∃ q, Ade.divInt x self._alpha = some q) →
      ∃ st' sent, FMDeemph.process Ade C self buffer false = some (st', buffer, sent) ∧
        (self._enabled = true → ∀ s ∈ sent, s.storage = .scratch)) := by
  refine ⟨?_, ?_, ?_, ?_⟩
  · intro self hcap
    obtain ⟨st', mem', h, hp, _, hfalse, _⟩ :=
      AMDemod_process_spec Aam C hC self buffer false hcap
    rw [(hfalse rfl).1] at hp
    exact ⟨st', _, hp, by simp⟩
  · intro self hcap
    have hout : Buffer.size C.complex buffer * C.size ≤
        (({ input := buffer, scratch := self._buffer } : Mem κ).sel .scratch).length := by
      have h1 := Buffer.size_mul_le C self._buffer
      have h2 : Buffer.size C.complex buffer * C.size ≤ Buffer.size C self._buffer * C.size :=
        Nat.mul_le_mul_right _ hcap
      show _ ≤ self._buffer.length
      omega
    obtain ⟨m, h, hp, _, hI, _⟩ := USBDemod_inner_spec Ausb C hC send_default .scratch
      { input := buffer, scratch := self._buffer } hout
    have hinp : m.input = buffer := hI rfl
    refine ⟨{ self with _buffer := m.scratch },
      [{ buffer := h, allow_overwrite := send_default, storage := .scratch }], ?_, ?_⟩
    · unfold USBDemod.process
      simp only [Bool.false_eq_true, if_false, hp, Option.some_bind, hinp]
    · simp
  · intro self allow_overwrite hsel hcap
    have hsel' : (allow_overwrite && self._can_overwrite) = false := by
      rcases hsel with h | h <;> simp [h]
    by_cases hn : 0 = Buffer.size Ci.complex buffer
    · refine ⟨self, [], ?_, by simp⟩
      unfold FMDemod.process
      rw [if_pos hn]
    · obtain ⟨st', mem', h, hp, _, _, _, _, _, hfalse, _⟩ :=
        FMDemod_process_spec F Ci Co hCo send_default self buffer allow_overwrite (by omega)
          (fun _ => hcap) (fun h => by rw [hsel'] at h; exact absurd h (by decide))
      rw [hfalse hsel'] at hp
      exact ⟨st', _, hp, by simp [hsel']⟩
  · intro self hyp
    cases hen : self._enabled with
    | false =>
      refine ⟨self, [{ buffer := buffer, allow_overwrite := false, storage := .input }], ?_,
        fun h => nomatch h⟩
      unfold FMDeemph.process
      simp [hen]
    | true =>
      obtain ⟨hcap, hdiv⟩ := hyp hen
      obtain ⟨a, ha0, hstep⟩ := FMDeemph.exists_averages Ade self._alpha hdiv self._avg
        (Buffer.peek C buffer)
      obtain ⟨st', mem', h, hp, _, _, _, _, _, hfalse, _⟩ :=
        FMDeemph_process_spec Ade C hC self buffer false a ha0 (fun j _ => hstep j) hen
          (fun _ => hcap)
      rw [hfalse rfl] at hp
      exact ⟨st', _, hp, fun _ => by simp⟩

/-- C6 at a concrete input: an `FMDemod` that may not work in place is handed a buffer it is
allowed to overwrite. -/
theorem process_keeps_unwritable_input_witness :
    ∃ st' sent,
      FMDemod.process FMArith.quadrant (Codec.cell 0) (Codec.cell 0) false
          { _shift := 0, _last_value := 0, _can_overwrite := false, _buffer := [7, 7] }
          [1, 1, -1, 1] true = some (st', [1, 1, -1, 1], sent) ∧
        ∀ s ∈ sent, s.storage = .scratch :=
  (process_keeps_unwritable_input AMArith.exact (USBArith.int 16 32 32) FMArith.quadrant
    (DeemphArith.int 16 32) (Codec.cell 0) (Codec.cell 0) (Codec.cell 0) (Codec.cell_wf 0)
    (Codec.cell_wf 0) false [1, 1, -1, 1]).2.2.1
    { _shift := 0, _last_value := 0, _can_overwrite := false, _buffer := [7, 7] } true
    (Or.inr rfl) (by decide)

/-- C7: a disabled `FMDeemph` passes its input through. For every buffer and flag, `process`
sends exactly one buffer, the input buffer itself with the flag it received, and leaves the
node (running average, alpha, own buffer) and the input storage as they were. -/
theorem FMDeemph_process_disabled {κ α P : Type} (A : DeemphArith α P) (C : Codec κ α)
    (self : FMDeemph κ α) (buffer : List κ) (allow_overwrite : Bool)
    (hdis : self._enabled = false) :
    FMDeemph.process A C self buffer allow_overwrite =
      some (self, buffer,
        [{ buffer := buffer, allow_overwrite := allow_overwrite, storage := .input }]) := by
  unfold FMDeemph.process
  simp [hdis]

/-- C7 at a concrete input. -/
theorem FMDeemph_process_disabled_witness :
    FMDeemph.process (DeemphArith.int 16 32) (Codec.cell 0)
        { _enabled := false, _alpha := 2, _avg := 3, _buffer := [7, 7] } [10, 20, 30] true =
      some ({ _enabled := false, _alpha := 2, _avg := 3, _buffer := [7, 7] }, [10, 20, 30],
        [{ buffer := [10, 20, 30], allow_overwrite := true, storage := .input }]) :=
  FMDeemph_process_disabled (DeemphArith.int 16 32) (Codec.cell 0)
    { _enabled := false, _alpha := 2, _avg := 3, _buffer := [7, 7] } [10, 20, 30] true rfl

/-- C8, the code at the failing input: for a 16-bit `Scalar`, `_alpha = 2`, running average
`-1` and the constant input `32767`, the difference `32768` wraps to `-32768` when it is stored
into `Scalar diff`, so the update moves the average from `-1` down to `-16385`, away from the
input; fed the constant again the average keeps falling. A node configured for 16-bit samples
reaches the running average `-1` from `0` with the sample `-2`. -/
theorem FMDeemph_update_diff_overflow :
    InRange 16 32767 ∧ InRange 16 (-1) ∧
    (DeemphArith.int 16 32).sub 32767 (-1) = -32768 ∧
    FMDeemph.update (DeemphArith.int 16 32) 2 (-1) 32767 = some (-16385) ∧
    |(32767 : Int) - (-1)| < |(32767 : Int) - (-16385)| ∧
    FMDeemph.update (DeemphArith.int 16 32) 2 (-16385) 32767 = some (-24577) ∧
    (FMDeemph.process (DeemphArith.int 16 32) (Codec.cell 0)
        { _enabled := true, _alpha := 2, _avg := 0, _buffer := [0, 0, 0] }
        [-2, 32767, 32767] false).map (fun r => (r.1._avg, r.2.2.map (fun s => s.buffer))) =
      some (-24577, [[-1, -16385, -24577]]) := by
  refine ⟨by decide, by decide, by decide, by decide, by decide, by decide, by decide⟩

/-- C9: `FMDeemph::_process` with `_alpha = 2` and running average `0`, fed the buffer
`[10, 10, 10]`, writes three outputs that are strictly increasing and at most `10`: they are
`[5, 8, 9]` for an integer `Scalar` (of at least 5 bits) and `[11/2, 33/4, 77/8]` in exact
arithmetic, for an output view on the node's own buffer or on the input buffer itself. -/
theorem FMDeemph_process_ten {κ : Type} (out : Storage) (m : Mem κ) :
    (∀ (w p : Nat) (C : Codec κ Int), 5 ≤ w → 5 ≤ p → C.WF →
      Buffer.elems C m.input = [10, 10, 10] → 3 * C.size ≤ (m.sel out).length →
      ∃ m', FMDeemph._process (DeemphArith.int w p) C 2 out 0 m = some (9, m') ∧
        (List.range 3).map (Buffer.peek C (m'.sel out)) = [5, 8, 9] ∧
        List.Pairwise (fun a b => a < b) ((List.range 3).map (Buffer.peek C (m'.sel out))) ∧
        ∀ y ∈ (List.range 3).map (Buffer.peek C (m'.sel out)), y ≤ 10) ∧
    (∀ C : Codec κ ℚ, C.WF →
      Buffer.elems C m.input = [10, 10, 10] → 3 * C.size ≤ (m.sel out).length →
      ∃ m', FMDeemph._process DeemphArith.exact C 2 out 0 m = some (77 / 8, m') ∧
        (List.range 3).map (Buffer.peek C (m'.sel out)) = [11 / 2, 33 / 4, 77 / 8] ∧
        List.Pairwise (fun a b => a < b) ((List.range 3).map (Buffer.peek C (m'.sel out))) ∧
        ∀ y ∈ (List.range 3).map (Buffer.peek C (m'.sel out)), y ≤ 10) := by
  constructor
  · intro w p C hw hp hC hin hout
    obtain ⟨hsz, hpeek⟩ := Buffer.peek_of_elems C m.input _ hin
    have hsz3 : Buffer.size C m.input = 3 := hsz
    obtain ⟨u0, u1, u2⟩ := FMDeemph.update_int_ten w p hw hp
    obtain ⟨m', hp', hW, _⟩ := FMDeemph_inner_spec (DeemphArith.int w p) C hC 2 out m
      (fun j => [0, 5, 8, 9].getD j 0)
      (by
        intro j hj
        rw [hsz3] at hj
        have h10 : Buffer.peek C m.input j = 10 := by
          apply hpeek
          interval_cases j <;> rfl
        rw [h10]
        interval_cases j
        · exact u0
        · exact u1
        · exact u2)
      (by rw [hsz3]; exact hout)
    rw [hsz3] at hp' hW
    have hout3 : (List.range 3).map (Buffer.peek C (m'.sel out)) = [5, 8, 9] := by
      have h0 := hW.peek_eq hC 0 (by omega) (by omega)
      have h1 := hW.peek_eq hC 1 (by omega) (by omega)
      have h2 := hW.peek_eq hC 2 (by omega) (by omega)
      simp [List.range_succ, h0, h1, h2]
    refine ⟨m', hp', hout3, ?_, ?_⟩
    · rw [hout3]; decide
    · rw [hout3]; decide
  · intro C hC hin hout
    obtain ⟨hsz, hpeek⟩ := Buffer.peek_of_elems C m.input _ hin
    have hsz3 : Buffer.size C m.input = 3 := hsz
    obtain ⟨u0, u1, u2⟩ := FMDeemph.update_exact_ten
    obtain ⟨m', hp', hW, _⟩ := FMDeemph_inner_spec DeemphArith.exact C hC 2 out m
      (fun j => [0, 11 / 2, 33 / 4, 77 / 8].getD j 0)
      (by
        intro j hj
        rw [hsz3] at hj
        have h10 : Buffer.peek C m.input j = 10 := by
          apply hpeek
          interval_cases j <;> rfl
        rw [h10]
        interval_cases j
        · exact u0
        · exact u1
        · exact u2)
      (by rw [hsz3]; exact hout)
    rw [hsz3] at hp' hW
    have hout3 : (List.range 3).map (Buffer.peek C (m'.sel out)) =
        [11 / 2, 33 / 4, 77 / 8] := by
      have h0 := hW.peek_eq hC 0 (by omega) (by omega)
      have h1 := hW.peek_eq hC 1 (by omega) (by omega)
      have h2 := hW.peek_eq hC 2 (by omega) (by omega)
      simp [List.range_succ, h0, h1, h2]
    refine ⟨m', hp', hout3, ?_, ?_⟩
    · rw [hout3]; simp; norm_num
    · rw [hout3]; simp; norm_num

/-- C9 at a concrete input: 16-bit samples, filtered in place. -/
theorem FMDeemph_process_ten_witness :
    ∃ m', FMDeemph._process (DeemphArith.int 16 32) (Codec.cell 0) 2 .input 0
        { input := [10, 10, 10], scratch := [] } = some (9, m') ∧
      (List.range 3).map (Buffer.peek (Codec.cell 0) (m'.sel .input)) = [5, 8, 9] ∧
      List.Pairwise (fun a b => a < b)
        ((List.range 3).map (Buffer.peek (Codec.cell 0) (m'.sel .input))) ∧
      ∀ y ∈ (List.range 3).map (Buffer.peek (Codec.cell 0) (m'.sel .input)), y ≤ 10 :=
  (FMDeemph_process_ten .input ({ input := [10, 10, 10], scratch := [] } : Mem Int)).1 16 32
    (Codec.cell 0) (by decide) (by decide) (Codec.cell_wf 0) (by decide) (by decide)

/-- C10: reconfiguration erases the numeric history. For any two `FMDemod` nodes and any
descriptor with which `config` succeeds, the running phase is zero in both after `config`, and
for every sequence of buffers (of at most the configured size) processed through the node's own
buffer both nodes send buffers of equal lengths with equal values at every position `≥ 1`. For
any two enabled `FMDeemph` nodes the running average is zero in both after `config`, and (the
division by the configured alpha being defined) for every such sequence of buffers both nodes
send equal values at every position. -/
theorem config_erases_history {κ ι β α P ρ : Type} (F : FMArith ι β) (Ci : Codec κ ι)
    (Co : Codec κ β) (hCo : Co.WF) (A : DeemphArith α P) (C : Codec κ α) (hC : C.WF)
    (isid osid sid : ScalarId) (alphaOf : ρ → Int) (send_default : Bool) (cfg d : Config ρ)
    (junk1 junk2 : Nat → κ) :
    (∀ st1 st2 : FMDemod κ β,
      (FMDemod.config F Ci Co isid osid junk1 st1 cfg).2 = .configured d →
      (FMDemod.config F Ci Co isid osid junk2 st2 cfg).2 = .configured d ∧
      (FMDemod.config F Ci Co isid osid junk1 st1 cfg).1._last_value = F.zero ∧
      (FMDemod.config F Ci Co isid osid junk2 st2 cfg).1._last_value = F.zero ∧
      ∀ bufs : List (List κ × Bool),
        (∀ b ∈ bufs,
          (b.2 && (FMDemod.config F Ci Co isid osid junk1 st1 cfg).1._can_overwrite) = false ∧
          ∀ B, cfg.bufferSize = some B → Buffer.size Ci.complex b.1 ≤ B) →
        ∃ r1 r2,
          runAll (FMDemod.process F Ci Co send_default)
            (FMDemod.config F Ci Co isid osid junk1 st1 cfg).1 bufs = some r1 ∧
          runAll (FMDemod.process F Ci Co send_default)
            (FMDemod.config F Ci Co isid osid junk2 st2 cfg).1 bufs = some r2 ∧
          r1.2.map (fun s => ((Buffer.elems Co s.buffer).length,
              (Buffer.elems Co s.buffer).tail)) =
            r2.2.map (fun s => ((Buffer.elems Co s.buffer).length,
              (Buffer.elems Co s.buffer).tail))) ∧
    (∀ st1 st2 : FMDeemph κ α, st1._enabled = true → st2._enabled = true →
      (FMDeemph.config A C sid alphaOf junk1 st1 cfg).2 = .configured d →
      (FMDeemph.config A C sid alphaOf junk2 st2 cfg).2 = .configured d ∧
      (FMDeemph.config A C sid alphaOf junk1 st1 cfg).1._avg = A.zero ∧
      (FMDeemph.config A C sid alphaOf junk2 st2 cfg).1._avg = A.zero ∧
      ∀ bufs : List (List κ × Bool),
        (∀ b ∈ bufs, b.2 = false ∧ ∀ B, cfg.bufferSize = some B → Buffer.size C b.1 ≤ B) →
        (∀ (x : P),
          ∃ q, A.divInt x (FMDeemph.config A C sid alphaOf junk1 st1 cfg).1._alpha = some q) →
        ∃ r1 r2,
          runAll (FMDeemph.process A C)
            (FMDeemph.config A C sid alphaOf junk1 st1 cfg).1 bufs = some r1 ∧
          runAll (FMDeemph.process A C)
            (FMDeemph.config A C sid alphaOf junk2 st2 cfg).1 bufs = some r2 ∧
          r1.2.map (fun s => Buffer.elems C s.buffer) =
            r2.2.map (fun s => Buffer.elems C s.buffer)) := by
  constructor
  · intro st1 st2 hcfg
    obtain ⟨B, hB, _, hall⟩ := FMDemod_config_ok F Ci Co isid osid junk1 st1 cfg d hcfg
    rw [hall junk1 st1, hall junk2 st2]
    refine ⟨rfl, rfl, rfl, ?_⟩
    intro bufs hbufs
    have key := runAll_rel (FMDemod.process F Ci Co send_default)
      (fun s t : FMDemod κ β => s._last_value = t._last_value ∧
        s._can_overwrite = t._can_overwrite ∧ s._buffer.length = t._buffer.length ∧
        s._can_overwrite = decide (Ci.complex.size ≥ Co.size) ∧
        s._buffer.length = B * Co.size)
      (fun b => (b.2 && decide (Ci.complex.size ≥ Co.size)) = false ∧
        Buffer.size Ci.complex b.1 ≤ B)
      (fun s => ((Buffer.elems Co s.buffer).length, (Buffer.elems Co s.buffer).tail))
      (by
        intro s1 s2 b ⟨hl, hc, hlen, hc0, hlen0⟩ ⟨hsel, hcap⟩
        have hcap' : Buffer.size Ci.complex b.1 ≤ Buffer.size Co s1._buffer := by
          unfold Buffer.size at hcap ⊢
          rw [hlen0, Nat.mul_div_cancel _ hCo.size_pos]; exact hcap
        obtain ⟨t1, m1, o1, t2, m2, o2, hp1, hp2, ⟨h1, h2, h3, h4, h5⟩, ht, hlens⟩ :=
          FMDemod_process_rel F Ci Co hCo send_default s1 s2 b.1 b.2 hl hc hlen
            (by rw [hc0]; exact hsel) hcap'
        refine ⟨t1, m1, o1, t2, m2, o2, hp1, hp2,
          ⟨h1, h2, h3, by rw [h4, hc0], by rw [h5, hlen0]⟩, ?_⟩
        rw [← List.zip_map', ← List.zip_map', ht, hlens])
      bufs
      { st1 with _buffer := Buffer.alloc Co junk1 B, _last_value := F.zero,
                 _can_overwrite := decide (Ci.complex.size ≥ Co.size) }
      { st2 with _buffer := Buffer.alloc Co junk2 B, _last_value := F.zero,
                 _can_overwrite := decide (Ci.complex.size ≥ Co.size) }
      (by
        refine ⟨rfl, rfl, ?_, rfl, ?_⟩
        · simp [Buffer.alloc]
        · simp [Buffer.alloc])
      (fun b hb => ⟨(hbufs b hb).1, (hbufs b hb).2 B hB⟩)
    obtain ⟨r1, r2, e1, e2, _, hr⟩ := key
    exact ⟨r1, r2, e1, e2, hr⟩
  · intro st1 st2 hen1 hen2 hcfg
    obtain ⟨B, r, hB, _, _, hall⟩ := FMDeemph_config_ok A C sid alphaOf junk1 st1 cfg d hcfg
    rw [hall junk1 st1, hall junk2 st2]
    refine ⟨rfl, rfl, rfl, ?_⟩
    intro bufs hbufs hdiv
    have key := runAll_rel (FMDeemph.process A C)
      (fun s t : FMDeemph κ α => s._enabled = true ∧ t._enabled = true ∧
        s._alpha = t._alpha ∧ s._avg = t._avg ∧ s._buffer.length = t._buffer.length ∧
        s._alpha = alphaOf r ∧ s._buffer.length = B * C.size)
      (fun b => b.2 = false ∧ Buffer.size C b.1 ≤ B)
      (fun s => Buffer.elems C s.buffer)
      (by
        intro s1 s2 b ⟨he1, he2, hal, hav, hlen, hal0, hlen0⟩ ⟨hfalse, hcap⟩
        have hcap' : Buffer.size C b.1 ≤ Buffer.size C s1._buffer := by
          unfold Buffer.size at hcap ⊢
          rw [hlen0, Nat.mul_div_cancel _ hC.size_pos]; exact hcap
        obtain ⟨t1, m1, o1, t2, m2, o2, hp1, hp2, ⟨h1, h2, h3, h4, h5, h6, h7⟩, ho, hl1, hl2⟩ :=
          FMDeemph_process_rel A C hC s1 s2 b.1 he1 he2 hal hav hlen
            (by rw [hal0]; exact hdiv) hcap'
        rw [hfalse]
        refine ⟨t1, m1, o1, t2, m2, o2, hp1, hp2,
          ⟨h1, h2, h3, h4, h5, by rw [h6, hal0], by rw [h7, hlen0]⟩, ho⟩)
      bufs
      { st1 with _alpha := alphaOf r, _avg := A.zero, _buffer := Buffer.alloc C junk1 B }
      { st2 with _alpha := alphaOf r, _avg := A.zero, _buffer := Buffer.alloc C junk2 B }
      (by
        refine ⟨hen1, hen2, rfl, rfl, ?_, rfl, ?_⟩
        · simp [Buffer.alloc]
        · simp [Buffer.alloc])
      (fun b hb => ⟨(hbufs b hb).1, (hbufs b hb).2 B hB⟩)
    obtain ⟨r1, r2, e1, e2, _, hr⟩ := key
    exact ⟨r1, r2, e1, e2, hr⟩

/-- C10 at a concrete input: two `FMDemod` nodes with different running phases and buffers are
configured for 16-bit samples and buffer size 3 and then handed the same 3-sample buffer. -/
theorem config_erases_history_witness :
    ∃ r1 r2,
      runAll (FMDemod.process FMArith.quadrant (Codec.cell 0) (Codec.cell 0) false)
        (FMDemod.config FMArith.quadrant (Codec.cell 0) (Codec.cell 0) .s16 .s16 (fun _ => 7)
          { _shift := 0, _last_value := 100, _can_overwrite := false, _buffer := [1] }
          ({ type := some (.cplx .s16), sampleRate := some 48000, bufferSize := some 3,
             numBuffers := none } : Config Nat)).1
        [([1, 1, -1, 1, -1, -1], false)] = some r1 ∧
      runAll (FMDemod.process FMArith.quadrant (Codec.cell 0) (Codec.cell 0) false)
        (FMDemod.config FMArith.quadrant (Codec.cell 0) (Codec.cell 0) .s16 .s16 (fun _ => 9)
          { _shift := 0, _last_value := -5, _can_overwrite := true, _buffer := [] }
          ({ type := some (.cplx .s16), sampleRate := some 48000, bufferSize := some 3,
             numBuffers := none } : Config Nat)).1
        [([1, 1, -1, 1, -1, -1], false)] = some r2 ∧
      r1.2.map (fun s => ((Buffer.elems (Codec.cell 0) s.buffer).length,
          (Buffer.elems (Codec.cell 0) s.buffer).tail)) =
        r2.2.map (fun s => ((Buffer.elems (Codec.cell (0 : Int)) s.buffer).length,
          (Buffer.elems (Codec.cell 0) s.buffer).tail)) :=
  ((config_erases_history FMArith.quadrant (Codec.cell 0) (Codec.cell 0) (Codec.cell_wf 0)
    (DeemphArith.int 16 32) (Codec.cell 0) (Codec.cell_wf 0) .s16 .s16 .s16 (fun _ : Nat => 2)
    false
    { type := some (.cplx .s16), sampleRate := some 48000, bufferSize := some 3,
      numBuffers := none }
    { type := some (.real .s16), sampleRate := some 48000, bufferSize := some 3,
      numBuffers := some 1 }
    (fun _ => 7) (fun _ => 9)).1
    { _shift := 0, _last_value := 100, _can_overwrite := false, _buffer := [1] }
    { _shift := 0, _last_value := -5, _can_overwrite := true, _buffer := [] } rfl).2.2.2
    [([1, 1, -1, 1, -1, -1], false)]
    (fun b hb => by
      rw [List.mem_singleton] at hb
      subst hb
      exact ⟨rfl, fun B hB => by cases hB; decide⟩)

/-- C11, as stated, fails on the code. `USBDemod::_process` calls `send` without a flag on both
paths, so the flag sent is the default of `send` on both: if the default is `false`, the
in-place call (`allow_overwrite = true`) sends a buffer without overwrite permission; if it is
`true`, the call through the node's own buffer (`allow_overwrite = false`) sends one with
overwrite permission. -/
theorem USBDemod_process_flag_counterexample :
    (USBDemod.process (USBArith.int 16 32 32) (Codec.cell 0) false { _buffer := [0, 0] }
        [1, 2, 3, 4] true).map (fun r => r.2.2.map (fun s => s.allow_overwrite)) =
      some [false] ∧
    (USBDemod.process (USBArith.int 16 32 32) (Codec.cell 0) true { _buffer := [0, 0] }
        [1, 2, 3, 4] false).map (fun r => r.2.2.map (fun s => s.allow_overwrite)) =
      some [true] := by
  constructor <;> decide

/-- C11, amended: `USBDemod::process` sends exactly one buffer with as many elements as the
input (which has at most as many samples as the node's own buffer when that is the output),
and on both paths its overwrite flag is the default value of the second parameter of `send`,
so the in-place path and the path through the node's own buffer send the same flag. -/
theorem USBDemod_process_flag {κ α σ : Type} (A : USBArith α σ) (C : Codec κ α) (hC : C.WF)
    (send_default : Bool) (self : USBDemod κ) (buffer : List κ) (allow_overwrite : Bool)
    (hcap : allow_overwrite = false →
      Buffer.size C.complex buffer ≤ Buffer.size C self._buffer) :
    ∃ st' mem' sent,
      USBDemod.process A C send_default self buffer allow_overwrite =
        some (st', mem', [sent]) ∧
      sent.allow_overwrite = send_default ∧
      sent.storage = (if allow_overwrite then .input else .scratch) ∧
      (Buffer.elems C sent.buffer).length = Buffer.size C.complex buffer := by
  obtain ⟨st', mem', h, hp, he, _⟩ :=
    USBDemod_process_spec A C hC send_default self buffer allow_overwrite hcap
  refine ⟨st', mem', _, hp, rfl, rfl, ?_⟩
  show (Buffer.elems C h).length = _
  rw [he, List.length_map]
  simp [Buffer.elems]

/-- C11, amended, at a concrete input: the in-place path with the default `false`. -/
theorem USBDemod_process_flag_witness :
    ∃ st' mem' sent,
      USBDemod.process (USBArith.int 16 32 32) (Codec.cell 0) false { _buffer := [] }
        [1, 2, 3, 4] true = some (st', mem', [sent]) ∧
      sent.allow_overwrite = false ∧
      sent.storage = .input ∧
      (Buffer.elems (Codec.cell 0) sent.buffer).length =
        Buffer.size (Codec.cell (0 : Int)).complex [1, 2, 3, 4] :=
  USBDemod_process_flag (USBArith.int 16 32 32) (Codec.cell 0) (Codec.cell_wf 0) false
    { _buffer := [] } [1, 2, 3, 4] true (fun h => nomatch h)

/-- C12: an enabled `FMDeemph` (the division by `_alpha` being defined) sends, for every input
buffer of `n` samples, exactly one buffer holding the `n` filtered values, with the overwrite
flag it received. With `allow_overwrite = true` the values are written into the input buffer,
which is the buffer sent; with `allow_overwrite = false` (and `n` at most the capacity of the
node's own buffer) they are written into the node's own buffer, whose first `n` elements are
sent, and the input is unchanged. -/
theorem FMDeemph_process_enabled {κ α P : Type} (A : DeemphArith α P) (C : Codec κ α)
    (hC : C.WF) (self : FMDeemph κ α) (buffer : List κ) (allow_overwrite : Bool)
    (hen : self._enabled = true)
    (hdiv : ∀ x : P, ∃ q, A.divInt x self._alpha = some q)
    (hcap : allow_overwrite = false → Buffer.size C buffer ≤ Buffer.size C self._buffer) :
    ∃ avg' ys st' mem' sent,
      FMDeemph.filter A self._alpha self._avg (Buffer.elems C buffer) = some (avg', ys) ∧
      FMDeemph.process A C self buffer allow_overwrite = some (st', mem', [sent]) ∧
      sent.allow_overwrite = allow_overwrite ∧
      Buffer.elems C sent.buffer = ys ∧ ys.length = Buffer.size C buffer ∧
      st'._avg = avg' ∧
      (allow_overwrite = true →
        sent.storage = .input ∧ sent.buffer = mem' ∧ st'._buffer = self._buffer) ∧
      (allow_overwrite = false →
        sent.storage = .scratch ∧ mem' = buffer ∧
        Buffer.head C st'._buffer (Buffer.size C buffer) = some sent.buffer) := by
  obtain ⟨r, ys, hf⟩ := FMDeemph.filter_total A self._alpha hdiv (Buffer.elems C buffer)
    self._avg
  obtain ⟨st', mem', h, hp, h1, _, _, _, h5, h6, h7, h8⟩ :=
    FMDeemph_process_filter A C hC self buffer allow_overwrite r ys hf hen hcap
  refine ⟨r, ys, st', mem', _, hf, hp, rfl, h5, h6, h1, ?_, ?_⟩
  · intro ht
    subst ht
    exact ⟨rfl, (h8 rfl).2, (h8 rfl).1⟩
  · intro hfalse
    subst hfalse
    exact ⟨rfl, (h7 rfl).1, (h7 rfl).2⟩

/-- C12 at a concrete input: three 16-bit samples filtered into the node's own buffer. -/
theorem FMDeemph_process_enabled_witness :
    ∃ avg' ys st' mem' sent,
      FMDeemph.filter (DeemphArith.int 16 32) 2 0
        (Buffer.elems (Codec.cell 0) [10, 10, 10]) = some (avg', ys) ∧
      FMDeemph.process (DeemphArith.int 16 32) (Codec.cell 0)
        { _enabled := true, _alpha := 2, _avg := 0, _buffer := [7, 7, 7, 7] } [10, 10, 10]
        false = some (st', mem', [sent]) ∧
      sent.allow_overwrite = false ∧
      Buffer.elems (Codec.cell 0) sent.buffer = ys ∧ ys.length = 3 ∧
      st'._avg = avg' ∧ sent.storage = .scratch ∧ mem' = [10, 10, 10] ∧
      Buffer.head (Codec.cell (0 : Int)) st'._buffer 3 = some sent.buffer := by
  obtain ⟨avg', ys, st', mem', sent, h1, h2, h3, h4, h5, h6, _, h8⟩ :=
    FMDeemph_process_enabled (DeemphArith.int 16 32) (Codec.cell 0) (Codec.cell_wf 0)
      { _enabled := true, _alpha := 2, _avg := 0, _buffer := [7, 7, 7, 7] } [10, 10, 10]
      false rfl (fun x => ⟨_, rfl⟩) (fun _ => by decide)
  exact ⟨avg', ys, st', mem', sent, h1, h2, h3, h4, h5, h6, h8 rfl⟩

/-- C13: a `config` call that succeeds (the required fields are present and the type is the
expected input type) emits one derived descriptor; its sample rate and buffer size are those of
the incoming descriptor, its element type is the output type of the node (`Scalar` for
`AMDemod` and `USBDemod`, `oScalar` for `FMDemod`, the incoming type for `FMDeemph`), and its
buffer count is the incoming one for `AMDemod` and `1` for the other three nodes. -/
theorem config_derived_descriptor {κ α ι β P ρ : Type} (C : Codec κ α) (Ci : Codec κ ι)
    (Co : Codec κ β) (F : FMArith ι β) (A : DeemphArith α P) (sid osid : ScalarId)
    (alphaOf : ρ → Int) (junk : Nat → κ) (am : AMDemod κ) (usb : USBDemod κ)
    (fm : FMDemod κ β) (de : FMDeemph κ α) (cfg : Config ρ) :
    ((cfg.hasType = true → cfg.hasBufferSize = true → cfg.type = some (.cplx sid) →
        (AMDemod.config C sid junk am cfg).2 =
          .configured { type := some (.real sid), sampleRate := cfg.sampleRate,
                        bufferSize := cfg.bufferSize, numBuffers := cfg.numBuffers }) ∧
      (∀ d, (AMDemod.config C sid junk am cfg).2 = .configured d →
        d.type = some (.real sid) ∧ d.sampleRate = cfg.sampleRate ∧
        d.bufferSize = cfg.bufferSize ∧ d.numBuffers = cfg.numBuffers)) ∧
    ((cfg.hasType = true → cfg.hasBufferSize = true → cfg.type = some (.cplx sid) →
        (USBDemod.config C sid junk usb cfg).2 =
          .configured { type := some (.real sid), sampleRate := cfg.sampleRate,
                        bufferSize := cfg.bufferSize, numBuffers := some 1 }) ∧
      (∀ d, (USBDemod.config C sid junk usb cfg).2 = .configured d →
        d.type = some (.real sid) ∧ d.sampleRate = cfg.sampleRate ∧
        d.bufferSize = cfg.bufferSize ∧ d.numBuffers = some 1)) ∧
    ((cfg.hasType = true → cfg.hasBufferSize = true → cfg.type = some (.cplx sid) →
        (FMDemod.config F Ci Co sid osid junk fm cfg).2 =
          .configured { type := some (.real osid), sampleRate := cfg.sampleRate,
                        bufferSize := cfg.bufferSize, numBuffers := some 1 }) ∧
      (∀ d, (FMDemod.config F Ci Co sid osid junk fm cfg).2 = .configured d →
        d.type = some (.real osid) ∧ d.sampleRate = cfg.sampleRate ∧
        d.bufferSize = cfg.bufferSize ∧ d.numBuffers = some 1)) ∧
    ((cfg.hasType = true → cfg.hasSampleRate = true → cfg.hasBufferSize = true →
        cfg.type = some (.real sid) →
        (FMDeemph.config A C sid alphaOf junk de cfg).2 =
          .configured { type := cfg.type, sampleRate := cfg.sampleRate,
                        bufferSize := cfg.bufferSize, numBuffers := some 1 }) ∧
      (∀ d, (FMDeemph.config A C sid alphaOf junk de cfg).2 = .configured d →
        d.type = cfg.type ∧ d.sampleRate = cfg.sampleRate ∧
        d.bufferSize = cfg.bufferSize ∧ d.numBuffers = some 1)) := by
  obtain ⟨ty, sr, bs, nb⟩ := cfg
  refine ⟨?_, ?_, ?_, ?_⟩
  · cases ty with
    | none => simp [AMDemod.config, Config.hasType, Config.hasBufferSize]
    | some ty =>
      cases bs with
      | none => simp [AMDemod.config, Config.hasType, Config.hasBufferSize]
      | some bs =>
        by_cases h : TypeId.cplx sid = ty
        · subst h
          simp [AMDemod.config, Config.hasType, Config.hasBufferSize]
        · have h' : ty ≠ TypeId.cplx sid := fun e => h e.symm
          simp [AMDemod.config, Config.hasType, Config.hasBufferSize, h, h']
  · cases ty with
    | none => simp [USBDemod.config, Config.hasType, Config.hasBufferSize]
    | some ty =>
      cases bs with
      | none => simp [USBDemod.config, Config.hasType, Config.hasBufferSize]
      | some bs =>
        by_cases h : TypeId.cplx sid = ty
        · subst h
          simp [USBDemod.config, Config.hasType, Config.hasBufferSize]
        · have h' : ty ≠ TypeId.cplx sid := fun e => h e.symm
          simp [USBDemod.config, Config.hasType, Config.hasBufferSize, h, h']
  · cases ty with
    | none => simp [FMDemod.config, Config.hasType, Config.hasBufferSize]
    | some ty =>
      cases bs with
      | none => simp [FMDemod.config, Config.hasType, Config.hasBufferSize]
      | some bs =>
        by_cases h : TypeId.cplx sid = ty
        · subst h
          simp [FMDemod.config, Config.hasType, Config.hasBufferSize]
        · have h' : ty ≠ TypeId.cplx sid := fun e => h e.symm
          simp [FMDemod.config, Config.hasType, Config.hasBufferSize, h, h']
  · cases ty with
    | none => simp [FMDeemph.config, Config.hasType, Config.hasBufferSize]
    | some ty =>
      cases sr with
      | none => simp [FMDeemph.config, Config.hasType, Config.hasSampleRate]
      | some sr =>
        cases bs with
        | none =>
          simp [FMDeemph.config, Config.hasType, Config.hasSampleRate, Config.hasBufferSize]
        | some bs =>
          by_cases h : TypeId.real sid = ty
          · subst h
            simp [FMDeemph.config, Config.hasType, Config.hasSampleRate, Config.hasBufferSize]
          · have h' : ty ≠ TypeId.real sid := fun e => h e.symm
            simp [FMDeemph.config, Config.hasType, Config.hasSampleRate,
              Config.hasBufferSize, h, h']

/-- C13 at a concrete input: an `AMDemod` for 16-bit samples handed a complete descriptor with
five buffers. -/
theorem config_derived_descriptor_witness :
    (AMDemod.config (Codec.cell (0 : Int)) .s16 (fun _ => 7) AMDemod.new
        ({ type := some (.cplx .s16), sampleRate := some 48000, bufferSize := some 4,
           numBuffers := some 5 } : Config Nat)).2 =
      .configured { type := some (.real .s16), sampleRate := some 48000,
                    bufferSize := some 4, numBuffers := some 5 } :=
  (config_derived_descriptor (Codec.cell (0 : Int)) (Codec.cell (0 : Int))
    (Codec.cell (0 : Int)) FMArith.quadrant (DeemphArith.int 16 32) .s16 .s16
    (fun _ : Nat => 2) (fun _ => 7) AMDemod.new USBDemod.new
    (FMDemod.new (Codec.cell (0 : Int)) (Codec.cell (0 : Int)) 0)
    (FMDeemph.new (DeemphArith.int 16 32) true)
    { type := some (.cplx .s16), sampleRate := some 48000, bufferSize := some 4,
      numBuffers := some 5 }).1.1 rfl rfl rfl

/-- C14: the capacity of the node's own buffer. For each of the four nodes: a new node has an
empty buffer (capacity `0`); after every sequence of `config` calls (successful, incomplete or
with a wrong type) and `process` calls that the node returns from, the capacity of its buffer is
the buffer size of the most recent successful `config`, or `0` if none succeeded; and a
`process` call never changes the capacity. -/
theorem scratch_capacity_invariant {κ α σ P Q ι β ρ : Type} (Aam : AMArith α P)
    (Ausb : USBArith α σ) (F : FMArith ι β) (Ade : DeemphArith α Q) (C : Codec κ α)
    (Ci : Codec κ ι) (Co : Codec κ β) (hC : C.WF) (hCo : Co.WF) (sid osid : ScalarId)
    (alphaOf : ρ → Int) (send_default : Bool) :
    (Buffer.size C (AMDemod.new : AMDemod κ)._buffer = 0 ∧
      (∀ (calls : List (Call κ ρ)) (st : AMDemod κ) (g : Nat),
        drive (AMDemod.config C sid) (AMDemod.process Aam C) (AMDemod.new, 0) calls =
          some (st, g) → Buffer.size C st._buffer = g) ∧
      (∀ self buffer allow_overwrite r,
        AMDemod.process Aam C self buffer allow_overwrite = some r →
        Buffer.size C r.1._buffer = Buffer.size C self._buffer)) ∧
    (Buffer.size C (USBDemod.new : USBDemod κ)._buffer = 0 ∧
      (∀ (calls : List (Call κ ρ)) (st : USBDemod κ) (g : Nat),
        drive (USBDemod.config C sid) (USBDemod.process Ausb C send_default)
          (USBDemod.new, 0) calls = some (st, g) → Buffer.size C st._buffer = g) ∧
      (∀ self buffer allow_overwrite r,
        USBDemod.process Ausb C send_default self buffer allow_overwrite = some r →
        Buffer.size C r.1._buffer = Buffer.size C self._buffer)) ∧
    (∀ junk0 : β, Buffer.size Co (FMDemod.new Ci Co junk0 : FMDemod κ β)._buffer = 0 ∧
      (∀ (calls : List (Call κ ρ)) (st : FMDemod κ β) (g : Nat),
        drive (FMDemod.config F Ci Co sid osid) (FMDemod.process F Ci Co send_default)
          (FMDemod.new Ci Co junk0, 0) calls = some (st, g) →
        Buffer.size Co st._buffer = g) ∧
      (∀ self buffer allow_overwrite r,
        FMDemod.process F Ci Co send_default self buffer allow_overwrite = some r →
        Buffer.size Co r.1._buffer = Buffer.size Co self._buffer)) ∧
    (∀ enabled : Bool, Buffer.size C (FMDeemph.new Ade enabled : FMDeemph κ α)._buffer = 0 ∧
      (∀ (calls : List (Call κ ρ)) (st : FMDeemph κ α) (g : Nat),
        drive (FMDeemph.config Ade C sid alphaOf) (FMDeemph.process Ade C)
          (FMDeemph.new Ade enabled, 0) calls = some (st, g) →
        Buffer.size C st._buffer = g) ∧
      (∀ self buffer allow_overwrite r,
        FMDeemph.process Ade C self buffer allow_overwrite = some r →
        Buffer.size C r.1._buffer = Buffer.size C self._buffer)) := by
  have hempty : ∀ {τ : Type} (D : Codec κ τ), Buffer.size D ([] : List κ) = 0 := by
    intro τ D; simp [Buffer.size]
  have ham : ∀ (self : AMDemod κ) buffer allow_overwrite r,
      AMDemod.process Aam C self buffer allow_overwrite = some r →
      Buffer.size C r.1._buffer = Buffer.size C self._buffer := by
    intro self buffer ao r h
    unfold Buffer.size
    rw [AMDemod_process_length Aam C hC self buffer ao r h]
  have husb : ∀ (self : USBDemod κ) buffer allow_overwrite r,
      USBDemod.process Ausb C send_default self buffer allow_overwrite = some r →
      Buffer.size C r.1._buffer = Buffer.size C self._buffer := by
    intro self buffer ao r h
    unfold Buffer.size
    rw [USBDemod_process_length Ausb C hC send_default self buffer ao r h]
  have hfm : ∀ (self : FMDemod κ β) buffer allow_overwrite r,
      FMDemod.process F Ci Co send_default self buffer allow_overwrite = some r →
      Buffer.size Co r.1._buffer = Buffer.size Co self._buffer := by
    intro self buffer ao r h
    unfold Buffer.size
    rw [FMDemod_process_length F Ci Co hCo send_default self buffer ao r h]
  have hde : ∀ (self : FMDeemph κ α) buffer allow_overwrite r,
      FMDeemph.process Ade C self buffer allow_overwrite = some r →
      Buffer.size C r.1._buffer = Buffer.size C self._buffer := by
    intro self buffer ao r h
    unfold Buffer.size
    rw [FMDeemph_process_length Ade C hC self buffer ao r h]
  refine ⟨⟨hempty C, ?_, ham⟩, ⟨hempty C, ?_, husb⟩, fun junk0 => ⟨hempty Co, ?_, hfm⟩,
    fun enabled => ⟨hempty C, ?_, hde⟩⟩
  · intro calls st g h
    exact drive_capacity (AMDemod.config C sid) (AMDemod.process Aam C)
      (fun s => Buffer.size C s._buffer)
      (by
        intro junk s cfg d hd
        obtain ⟨B, hB, _, hall⟩ := AMDemod_config_ok C sid junk s cfg d hd
        rw [hall junk s, hB]
        exact Buffer.size_alloc C hC junk B)
      (by
        intro junk s cfg hno
        rw [(config_unchanged C Ci Co F Ade sid osid alphaOf junk cfg).1 s hno])
      ham calls (AMDemod.new, 0) (st, g) (hempty C) h
  · intro calls st g h
    exact drive_capacity (USBDemod.config C sid) (USBDemod.process Ausb C send_default)
      (fun s => Buffer.size C s._buffer)
      (by
        intro junk s cfg d hd
        obtain ⟨B, hB, _, hall⟩ := USBDemod_config_ok C sid junk s cfg d hd
        rw [hall junk s, hB]
        exact Buffer.size_alloc C hC junk B)
      (by
        intro junk s cfg hno
        rw [(config_unchanged C Ci Co F Ade sid osid alphaOf junk cfg).2.1 s hno])
      husb calls (USBDemod.new, 0) (st, g) (hempty C) h
  · intro calls st g h
    exact drive_capacity (FMDemod.config F Ci Co sid osid)
      (FMDemod.process F Ci Co send_default) (fun s => Buffer.size Co s._buffer)
      (by
        intro junk s cfg d hd
        obtain ⟨B, hB, _, hall⟩ := FMDemod_config_ok F Ci Co sid osid junk s cfg d hd
        rw [hall junk s, hB]
        exact Buffer.size_alloc Co hCo junk B)
      (by
        intro junk s cfg hno
        rw [(config_unchanged C Ci Co F Ade sid osid alphaOf junk cfg).2.2.1 s hno])
      hfm calls (FMDemod.new Ci Co junk0, 0) (st, g) (hempty Co) h
  · intro calls st g h
    exact drive_capacity (FMDeemph.config Ade C sid alphaOf) (FMDeemph.process Ade C)
      (fun s => Buffer.size C s._buffer)
      (by
        intro junk s cfg d hd
        obtain ⟨B, r, hB, _, _, hall⟩ := FMDeemph_config_ok Ade C sid alphaOf junk s cfg d hd
        rw [hall junk s, hB]
        exact Buffer.size_alloc C hC junk B)
      (by
        intro junk s cfg hno
        rw [(config_unchanged C Ci Co F Ade sid osid alphaOf junk cfg).2.2.2 s hno])
      hde calls (FMDeemph.new Ade enabled, 0) (st, g) (hempty C) h

/-- C14 at a concrete input: a `USBDemod` for 16-bit samples is configured for buffer size 4,
processes two samples, and is then handed a descriptor of the wrong type, an incomplete
descriptor and another buffer; the capacity of its buffer is 4. -/
theorem scratch_capacity_invariant_witness :
    Buffer.size (Codec.cell (0 : Int)) ({ _buffer := [7, 2, 7, 7] } : USBDemod Int)._buffer =
      4 :=
  (scratch_capacity_invariant AMArith.exact (USBArith.int 16 32 32) FMArith.quadrant
    (DeemphArith.int 16 32) (Codec.cell 0) (Codec.cell 0) (Codec.cell 0) (Codec.cell_wf 0)
    (Codec.cell_wf 0) .s16 .s16 (fun _ : Nat => 2) false).2.1.2.1
    [.config { type := some (.cplx .s16), sampleRate := some 48000, bufferSize := some 4,
               numBuffers := none } (fun _ => 7),
     .process [3, 4, 0, 5] false,
     .config { type := some (.real .s16), sampleRate := some 48000, bufferSize := some 9,
               numBuffers := none } (fun _ => 1),
     .config { type := some (.cplx .s16), sampleRate := none, bufferSize := none,
               numBuffers := none } (fun _ => 1),
     .process [8, 6] false]
    { _buffer := [7, 2, 7, 7] } 4 rfl

/-- C15: index safety of `process`. Let a node be successfully configured with buffer size `B`
and let the input buffer hold `n ≤ B` samples. Then `process` returns, that is, no bounds
checked read of the input (which holds `n` samples) and no bounds checked write of the output
storage fails, on either path. The output storage (the input storage on the in-place path, the
node's own buffer otherwise) has room for `n` output elements, keeps its length, and keeps
every cell from output element `n` on, so every write is at an index below `n`. The elements
of the buffer sent are the first `n` elements of that storage. (`FMDemod` sends nothing for
`n = 0`; an enabled `FMDeemph` needs a defined division by `_alpha`, a disabled one forwards
the input.) -/
theorem process_index_safety {κ α σ P Q ι β ρ : Type} (Aam : AMArith α P)
    (Ausb : USBArith α σ) (F : FMArith ι β) (Ade : DeemphArith α Q) (C : Codec κ α)
    (Ci : Codec κ ι) (Co : Codec κ β) (hC : C.WF) (hCo : Co.WF) (sid osid : ScalarId)
    (alphaOf : ρ → Int) (send_default : Bool) (cfg d : Config ρ) (B : Nat) (junk : Nat → κ)
    (hB : cfg.bufferSize = some B) (buffer : List κ) (allow_overwrite : Bool) :
    (∀ st0 self : AMDemod κ, AMDemod.config C sid junk st0 cfg = (self, .configured d) →
      Buffer.size C.complex buffer ≤ B →
      ∃ st' mem' s, AMDemod.process Aam C self buffer allow_overwrite =
          some (st', mem', [s]) ∧
        Buffer.size C.complex buffer * C.size ≤
          (if allow_overwrite then buffer else self._buffer).length ∧
        (if allow_overwrite then mem' else st'._buffer).length =
          (if allow_overwrite then buffer else self._buffer).length ∧
        (∀ c, Buffer.size C.complex buffer * C.size ≤ c →
          (if allow_overwrite then mem' else st'._buffer)[c]? =
            (if allow_overwrite then buffer else self._buffer)[c]?) ∧
        Buffer.elems C s.buffer = (List.range (Buffer.size C.complex buffer)).map
          (Buffer.peek C (if allow_overwrite then mem' else st'._buffer))) ∧
    (∀ st0 self : USBDemod κ, USBDemod.config C sid junk st0 cfg = (self, .configured d) →
      Buffer.size C.complex buffer ≤ B →
      ∃ st' mem' s, USBDemod.process Ausb C send_default self buffer allow_overwrite =
          some (st', mem', [s]) ∧
        Buffer.size C.complex buffer * C.size ≤
          (if allow_overwrite then buffer else self._buffer).length ∧
        (if allow_overwrite then mem' else st'._buffer).length =
          (if allow_overwrite then buffer else self._buffer).length ∧
        (∀ c, Buffer.size C.complex buffer * C.size ≤ c →
          (if allow_overwrite then mem' else st'._buffer)[c]? =
            (if allow_overwrite then buffer else self._buffer)[c]?) ∧
        Buffer.elems C s.buffer = (List.range (Buffer.size C.complex buffer)).map
          (Buffer.peek C (if allow_overwrite then mem' else st'._buffer))) ∧
    (∀ st0 self : FMDemod κ β,
      FMDemod.config F Ci Co sid osid junk st0 cfg = (self, .configured d) →
      Buffer.size Ci.complex buffer ≤ B →
      ∃ st' mem' sents, FMDemod.process F Ci Co send_default self buffer allow_overwrite =
          some (st', mem', sents) ∧
        (1 ≤ Buffer.size Ci.complex buffer → sents.length = 1) ∧
        Buffer.size Ci.complex buffer * Co.size ≤
          (if allow_overwrite && self._can_overwrite then buffer else self._buffer).length ∧
        (if allow_overwrite && self._can_overwrite then mem' else st'._buffer).length =
          (if allow_overwrite && self._can_overwrite then buffer else self._buffer).length ∧
        (∀ c, Buffer.size Ci.complex buffer * Co.size ≤ c →
          (if allow_overwrite && self._can_overwrite then mem' else st'._buffer)[c]? =
            (if allow_overwrite && self._can_overwrite then buffer else self._buffer)[c]?) ∧
        ∀ s ∈ sents,
          Buffer.elems Co s.buffer = (List.range (Buffer.size Ci.complex buffer)).map
            (Buffer.peek Co
              (if allow_overwrite && self._can_overwrite then mem' else st'._buffer))) ∧
    (∀ st0 self : FMDeemph κ α,
      FMDeemph.config Ade C sid alphaOf junk st0 cfg = (self, .configured d) →
      Buffer.size C buffer ≤ B →
      (self._enabled = true → ∀ x : Q, ∃ q, Ade.divInt x self._alpha = some q) →
      ∃ st' mem' s, FMDeemph.process Ade C self buffer allow_overwrite =
          some (st', mem', [s]) ∧
        Buffer.size C buffer * C.size ≤
          (if allow_overwrite || !self._enabled then buffer else self._buffer).length ∧
        (if allow_overwrite || !self._enabled then mem' else st'._buffer).length =
          (if allow_overwrite || !self._enabled then buffer else self._buffer).length ∧
        (∀ c, Buffer.size C buffer * C.size ≤ c →
          (if allow_overwrite || !self._enabled then mem' else st'._buffer)[c]? =
            (if allow_overwrite || !self._enabled then buffer else self._buffer)[c]?) ∧
        Buffer.elems C s.buffer = (List.range (Buffer.size C buffer)).map
          (Buffer.peek C
            (if allow_overwrite || !self._enabled then mem' else st'._buffer))) := by
  refine ⟨?_, ?_, ?_, ?_⟩
  · intro st0 self hcfg hn
    obtain ⟨B', hB', _, hall⟩ := AMDemod_config_ok C sid junk st0 cfg d (by rw [hcfg])
    have hBB : B' = B := Option.some.inj (hB'.symm.trans hB)
    subst hBB
    have hself : self = { st0 with _buffer := Buffer.alloc C junk B' } := by
      have := hall junk st0
      rw [hcfg] at this
      exact congrArg Prod.fst this
    have hcap : Buffer.size C self._buffer = B' := by
      rw [hself]; exact Buffer.size_alloc C hC junk B'
    obtain ⟨st', mem', h, hp, h1, h2, h3, h4⟩ :=
      AMDemod_process_frame Aam C hC self buffer allow_overwrite (fun _ => by rw [hcap]; exact hn)
    exact ⟨st', mem', _, hp, h1, h2, h3, (Buffer.elems_of_head C hC _ h _ h4).2⟩
  · intro st0 self hcfg hn
    obtain ⟨B', hB', _, hall⟩ := USBDemod_config_ok C sid junk st0 cfg d (by rw [hcfg])
    have hBB : B' = B := Option.some.inj (hB'.symm.trans hB)
    subst hBB
    have hself : self = { st0 with _buffer := Buffer.alloc C junk B' } := by
      have := hall junk st0
      rw [hcfg] at this
      exact congrArg Prod.fst this
    have hcap : Buffer.size C self._buffer = B' := by
      rw [hself]; exact Buffer.size_alloc C hC junk B'
    obtain ⟨st', mem', h, hp, h1, h2, h3, h4⟩ :=
      USBDemod_process_frame Ausb C hC send_default self buffer allow_overwrite
        (fun _ => by rw [hcap]; exact hn)
    exact ⟨st', mem', _, hp, h1, h2, h3, (Buffer.elems_of_head C hC _ h _ h4).2⟩
  · intro st0 self hcfg hn
    obtain ⟨B', hB', _, hall⟩ := FMDemod_config_ok F Ci Co sid osid junk st0 cfg d
      (by rw [hcfg])
    have hBB : B' = B := Option.some.inj (hB'.symm.trans hB)
    subst hBB
    have hself : self = { st0 with _buffer := Buffer.alloc Co junk B',
                                   _last_value := F.zero,
                                   _can_overwrite := decide (Ci.complex.size ≥ Co.size) } := by
      have := hall junk st0
      rw [hcfg] at this
      exact congrArg Prod.fst this
    have hcap : Buffer.size Co self._buffer = B' := by
      rw [hself]; exact Buffer.size_alloc Co hCo junk B'
    have hco : self._can_overwrite = decide (Ci.complex.size ≥ Co.size) := by rw [hself]
    by_cases hz : 0 = Buffer.size Ci.complex buffer
    · refine ⟨self, buffer, [], ?_, fun h => by omega, ?_, ?_, fun _ _ => ?_,
        fun s hs => by simp at hs⟩
      · unfold FMDemod.process; rw [if_pos hz]
      · rw [← hz]; simp
      · split <;> rfl
      · split <;> rfl
    · obtain ⟨st', mem', h, hp, h1, h2, h3, h4⟩ :=
        FMDemod_process_frame F Ci Co hCo send_default self buffer allow_overwrite
          (by omega) (fun _ => by rw [hcap]; exact hn)
          (fun hsel => by
            have : self._can_overwrite = true := by
              cases allow_overwrite <;> simp_all
            rw [hco] at this
            exact of_decide_eq_true this)
      refine ⟨st', mem', _, hp, fun _ => rfl, h1, h2, h3, ?_⟩
      intro s hs
      rw [List.mem_singleton] at hs
      subst hs
      exact (Buffer.elems_of_head Co hCo _ h _ h4).2
  · intro st0 self hcfg hn hdiv
    obtain ⟨B', r, hB', _, _, hall⟩ := FMDeemph_config_ok Ade C sid alphaOf junk st0 cfg d
      (by rw [hcfg])
    have hBB : B' = B := Option.some.inj (hB'.symm.trans hB)
    subst hBB
    have hself : self = { st0 with _alpha := alphaOf r, _avg := Ade.zero,
                                   _buffer := Buffer.alloc C junk B' } := by
      have := hall junk st0
      rw [hcfg] at this
      exact congrArg Prod.fst this
    have hcap : Buffer.size C self._buffer = B' := by
      rw [hself]; exact Buffer.size_alloc C hC junk B'
    cases hen : self._enabled with
    | false =>
      refine ⟨self, buffer,
        { buffer := buffer, allow_overwrite := allow_overwrite, storage := .input }, ?_, ?_,
        ?_, fun _ _ => ?_, ?_⟩
      · unfold FMDeemph.process; simp [hen]
      · simp only [Bool.not_false, Bool.or_true, if_true]
        exact Buffer.size_mul_le C buffer
      · simp
      · simp
      · simp only [Bool.not_false, Bool.or_true, if_true]
        rfl
    | true =>
      obtain ⟨st', mem', h, hp, h1, h2, h3, h4⟩ :=
        FMDeemph_process_frame Ade C hC self buffer allow_overwrite hen (hdiv hen)
          (fun _ => by rw [hcap]; exact hn)
      refine ⟨st', mem', _, hp, ?_, ?_, ?_, ?_⟩
      · simpa using h1
      · simpa using h2
      · simpa using h3
      · simpa using h4

/-- C15 at a concrete input: an `AMDemod` configured for buffer size 4 processes two samples
through its own buffer. -/
theorem process_index_safety_witness :
    ∃ st' mem' s,
      AMDemod.process AMArith.exact (Codec.cell 0) { _buffer := [7, 7, 7, 7] } [3, 4, 0, 5]
        false = some (st', mem', [s]) ∧
      Buffer.size (Codec.cell (0 : Int)).complex [3, 4, 0, 5] * (Codec.cell (0 : Int)).size ≤
        (if false then [3, 4, 0, 5] else [7, 7, 7, 7]).length ∧
      (if false then mem' else st'._buffer).length =
        (if false then [3, 4, 0, 5] else [7, 7, 7, 7]).length ∧
      (∀ c, Buffer.size (Codec.cell (0 : Int)).complex [3, 4, 0, 5] *
          (Codec.cell (0 : Int)).size ≤ c →
        (if false then mem' else st'._buffer)[c]? =
          (if false then [3, 4, 0, 5] else [7, 7, 7, 7])[c]?) ∧
      Buffer.elems (Codec.cell 0) s.buffer =
        (List.range (Buffer.size (Codec.cell (0 : Int)).complex [3, 4, 0, 5])).map
          (Buffer.peek (Codec.cell 0) (if false then mem' else st'._buffer)) :=
  (process_index_safety AMArith.exact (USBArith.int 16 32 32) FMArith.quadrant
    (DeemphArith.int 16 32) (Codec.cell 0) (Codec.cell 0) (Codec.cell 0) (Codec.cell_wf 0)
    (Codec.cell_wf 0) .s16 .s16 (fun _ : Nat => 2) false
    { type := some (.cplx .s16), sampleRate := some 48000, bufferSize := some 4,
      numBuffers := none }
    { type := some (.real .s16), sampleRate := some 48000, bufferSize := some 4,
      numBuffers := none }
    4 (fun _ => 7) rfl [3, 4, 0, 5] false).1 AMDemod.new { _buffer := [7, 7, 7, 7] } rfl
    (by decide)

/-- C16: `FMDemod::process` on an input buffer without samples is a no-op for either value of
`allow_overwrite`: nothing is sent, and the node (running phase, own buffer) and the input
storage are as before the call. -/
theorem FMDemod_process_empty {κ ι β : Type} (F : FMArith ι β) (Ci : Codec κ ι)
    (Co : Codec κ β) (send_default : Bool) (self : FMDemod κ β) (buffer : List κ)
    (allow_overwrite : Bool) (hempty : Buffer.size Ci.complex buffer = 0) :
    FMDemod.process F Ci Co send_default self buffer allow_overwrite =
      some (self, buffer, []) := by
  unfold FMDemod.process
  rw [if_pos hempty.symm]

/-- C16 at a concrete input: the empty buffer, handed over with overwrite permission. -/
theorem FMDemod_process_empty_witness :
    FMDemod.process FMArith.quadrant (Codec.cell 0) (Codec.cell 0) false
        { _shift := 0, _last_value := 100, _can_overwrite := true, _buffer := [7, 7] }
        [] true =
      some ({ _shift := 0, _last_value := 100, _can_overwrite := true, _buffer := [7, 7] },
        [], []) :=
  FMDemod_process_empty FMArith.quadrant (Codec.cell 0) (Codec.cell 0) false
    { _shift := 0, _last_value := 100, _can_overwrite := true, _buffer := [7, 7] } [] true
    (by decide)

/-- C17: in-place processing sends the values that processing through the node's own buffer
sends. The storage is a list of cells; an output element occupies `size` cells and a complex
input sample `k * size` of them in the claim's layout, and more generally any number of cells
that is at least `size` (for `AMDemod` and `USBDemod` a complex sample is two scalars). For
every input buffer (of at most as many samples as the node's own buffer holds) `AMDemod` and
`USBDemod` send equal values at every position with `allow_overwrite = true` and with
`allow_overwrite = false`; an `FMDemod` with `_can_overwrite` sends buffers of equal length
with equal values at every position `≥ 1`. No store of output element `i` changes an input
sample `j > i`, the samples still to be read when element `i` is stored. -/
theorem inplace_equals_scratch {κ α σ P ι β : Type} (Aam : AMArith α P) (Ausb : USBArith α σ)
    (F : FMArith ι β) (C : Codec κ α) (Ci : Codec κ ι) (Co : Codec κ β) (hC : C.WF)
    (hCo : Co.WF) (send_default : Bool) (buffer : List κ) :
    (∀ self : AMDemod κ, Buffer.size C.complex buffer ≤ Buffer.size C self._buffer →
      ∃ st1 m1 s1 st2 m2 s2,
        AMDemod.process Aam C self buffer true = some (st1, m1, [s1]) ∧
        AMDemod.process Aam C self buffer false = some (st2, m2, [s2]) ∧
        Buffer.elems C s1.buffer = Buffer.elems C s2.buffer) ∧
    (∀ self : USBDemod κ, Buffer.size C.complex buffer ≤ Buffer.size C self._buffer →
      ∃ st1 m1 s1 st2 m2 s2,
        USBDemod.process Ausb C send_default self buffer true = some (st1, m1, [s1]) ∧
        USBDemod.process Ausb C send_default self buffer false = some (st2, m2, [s2]) ∧
        Buffer.elems C s1.buffer = Buffer.elems C s2.buffer) ∧
    (∀ self : FMDemod κ β, self._can_overwrite = true → Co.size ≤ Ci.complex.size →
      Buffer.size Ci.complex buffer ≤ Buffer.size Co self._buffer →
      ∃ st1 m1 o1 st2 m2 o2,
        FMDemod.process F Ci Co send_default self buffer true = some (st1, m1, o1) ∧
        FMDemod.process F Ci Co send_default self buffer false = some (st2, m2, o2) ∧
        st1._last_value = st2._last_value ∧
        o1.map (fun s => ((Buffer.elems Co s.buffer).length,
            (Buffer.elems Co s.buffer).tail)) =
          o2.map (fun s => ((Buffer.elems Co s.buffer).length,
            (Buffer.elems Co s.buffer).tail))) ∧
    (∀ (mem mem' : List κ) (i j : Nat) (v : α), Buffer.set C mem i v = some mem' → i < j →
      Buffer.get C.complex mem' j = Buffer.get C.complex mem j) ∧
    (∀ (mem mem' : List κ) (i j : Nat) (v : β), Co.size ≤ Ci.complex.size →
      Buffer.set Co mem i v = some mem' → i < j →
      Buffer.get Ci.complex mem' j = Buffer.get Ci.complex mem j) := by
  refine ⟨?_, ?_, ?_, ?_, ?_⟩
  · intro self hcap
    obtain ⟨st1, m1, h1, hp1, he1, _⟩ := AMDemod_process_spec Aam C hC self buffer true hcap
    obtain ⟨st2, m2, h2, hp2, he2, _⟩ := AMDemod_process_spec Aam C hC self buffer false hcap
    exact ⟨st1, m1, _, st2, m2, _, hp1, hp2, he1.trans he2.symm⟩
  · intro self hcap
    obtain ⟨st1, m1, h1, hp1, he1, _⟩ :=
      USBDemod_process_spec Ausb C hC send_default self buffer true (fun _ => hcap)
    obtain ⟨st2, m2, h2, hp2, he2, _⟩ :=
      USBDemod_process_spec Ausb C hC send_default self buffer false (fun _ => hcap)
    exact ⟨st1, m1, _, st2, m2, _, hp1, hp2, he1.trans he2.symm⟩
  · intro self hco hsz hcap
    by_cases hn : 0 = Buffer.size Ci.complex buffer
    · refine ⟨self, buffer, [], self, buffer, [], ?_, ?_, rfl, rfl⟩
      · unfold FMDemod.process; rw [if_pos hn]
      · unfold FMDemod.process; rw [if_pos hn]
    · obtain ⟨st1, m1, h1, hp1, hl1, _, _, _, he1, _⟩ :=
        FMDemod_process_spec F Ci Co hCo send_default self buffer true (by omega)
          (fun _ => hcap) (fun _ => hsz)
      obtain ⟨st2, m2, h2, hp2, hl2, _, _, _, he2, _⟩ :=
        FMDemod_process_spec F Ci Co hCo send_default self buffer false (by omega)
          (fun _ => hcap) (fun _ => hsz)
      refine ⟨st1, m1, _, st2, m2, _, hp1, hp2, by rw [hl1, hl2], ?_⟩
      simp only [List.map_cons, List.map_nil, he1, he2, List.length_map]
      congr 2
      obtain ⟨k, hk⟩ : ∃ k, Buffer.size Ci.complex buffer = k + 1 :=
        ⟨Buffer.size Ci.complex buffer - 1, by omega⟩
      rw [hk, List.range_succ_eq_map]
      simp
  · intro mem mem' i j v hset hij
    exact Buffer.get_set_gt C hC C.complex (by show C.size ≤ 2 * C.size; omega) mem mem' i v
      hset j hij
  · intro mem mem' i j v hsz hset hij
    exact Buffer.get_set_gt Co hCo Ci.complex hsz mem mem' i v hset j hij

/-- C17 at a concrete input: `USBDemod` on two 16-bit samples, one cell per scalar. -/
theorem inplace_equals_scratch_witness :
    ∃ st1 m1 s1 st2 m2 s2,
      USBDemod.process (USBArith.int 16 32 32) (Codec.cell 0) false { _buffer := [7, 7] }
        [1, 2, 3, 4] true = some (st1, m1, [s1]) ∧
      USBDemod.process (USBArith.int 16 32 32) (Codec.cell 0) false { _buffer := [7, 7] }
        [1, 2, 3, 4] false = some (st2, m2, [s2]) ∧
      Buffer.elems (Codec.cell (0 : Int)) s1.buffer = Buffer.elems (Codec.cell 0) s2.buffer :=
  (inplace_equals_scratch AMArith.exact (USBArith.int 16 32 32) FMArith.quadrant
    (Codec.cell 0) (Codec.cell 0) (Codec.cell 0) (Codec.cell_wf 0) (Codec.cell_wf 0) false
    [1, 2, 3, 4]).2.1 { _buffer := [7, 7] } (by decide)

/-- C18: over exact real arithmetic the filter constant
`alpha = round(1 / (1 - exp(-1 / (r * 75e-6))))` of every sample rate `r > 0` is an integer
`≥ 1`. So after a successful `FMDeemph::config` with the sample rate `r` the node has
`_alpha ≥ 1`, and for integer samples both divisions by `_alpha` in `_process` are defined and
every update of the running average returns. -/
theorem FMDeemph_alpha_valid (r : ℝ) (hr : 0 < r) :
    1 ≤ FMDeemph.alphaReal r ∧
    (∀ {κ α P : Type} (A : DeemphArith α P) (C : Codec κ α) (sid : ScalarId)
      (junk : Nat → κ) (self : FMDeemph κ α) (cfg d : Config ℝ),
      cfg.sampleRate = some r →
      (FMDeemph.config A C sid FMDeemph.alphaReal junk self cfg).2 = .configured d →
      1 ≤ (FMDeemph.config A C sid FMDeemph.alphaReal junk self cfg).1._alpha) ∧
    (∀ (w p : Nat) (x : Int),
      ∃ q, (DeemphArith.int w p).divInt x (FMDeemph.alphaReal r) = some q) ∧
    (∀ (w p : Nat) (avg x : Int),
      ∃ a, FMDeemph.update (DeemphArith.int w p) (FMDeemph.alphaReal r) avg x = some a) := by
  have h1 := FMDeemph.alphaReal_pos r hr
  have hne : FMDeemph.alphaReal r ≠ 0 := by omega
  have hdiv : ∀ (w p : Nat) (x : Int),
      ∃ q, (DeemphArith.int w p).divInt x (FMDeemph.alphaReal r) = some q := by
    intro w p x
    exact ⟨wrapS p (Int.tdiv x (FMDeemph.alphaReal r)), by simp [DeemphArith.int, hne]⟩
  refine ⟨h1, ?_, hdiv, ?_⟩
  · intro κ α P A C sid junk self cfg d hsr hcfg
    obtain ⟨B, r', _, hr', _, hall⟩ :=
      FMDeemph_config_ok A C sid FMDeemph.alphaReal junk self cfg d hcfg
    rw [hsr] at hr'
    have : r = r' := Option.some.inj hr'
    subst this
    rw [hall junk self]
    exact h1
  · intro w p avg x
    obtain ⟨a, ha0, hstep⟩ := FMDeemph.exists_averages (DeemphArith.int w p)
      (FMDeemph.alphaReal r) (hdiv w p) avg (fun _ => x)
    have h0 := hstep 0
    rw [ha0] at h0
    exact ⟨a 1, h0⟩

/-- C18 at a concrete input: the sample rate 48000. -/
theorem FMDeemph_alpha_valid_witness : 1 ≤ FMDeemph.alphaReal 48000 :=
  (FMDeemph_alpha_valid 48000 (by norm_num)).1

/-- C19: the integer de-emphasis filter in exact integer arithmetic (truncating division, no
wrap-around) with `alpha ≥ 1` on a constant input `c`. Every update returns and moves the
running average to a value between its old value and `c`, inclusive; it leaves the average
unchanged exactly when `|c - avg| < ceil(alpha/2)` (written `(alpha + 1) / 2`). From a starting
average `a` the average after `k` samples is, for every `k ≥ |c - a|`, one and the same value
`v`, which the update leaves unchanged and which has `|c - v| ≤ ceil(alpha/2) - 1`. For
`alpha ≤ 2` that value is `c`; for `alpha ≥ 3` it need not be: from `0` with input `1` the
average stays `0`. -/
theorem FMDeemph_filter_settling (alpha : Int) (hα : 1 ≤ alpha) :
    (∀ c avg : Int, ∃ a, FMDeemph.update DeemphArith.exactInt alpha avg c = some a ∧
      ((avg ≤ a ∧ a ≤ c) ∨ (c ≤ a ∧ a ≤ avg)) ∧
      (a = avg ↔ |c - avg| < (alpha + 1) / 2)) ∧
    (∀ c a : Int, ∃ v, |c - v| ≤ (alpha + 1) / 2 - 1 ∧
      FMDeemph.update DeemphArith.exactInt alpha v c = some v ∧
      ∀ k : Nat, (c - a).natAbs ≤ k → ∃ ys,
        FMDeemph.filter DeemphArith.exactInt alpha a (List.replicate k c) = some (v, ys)) ∧
    (alpha ≤ 2 → ∀ (c a : Int) (k : Nat), (c - a).natAbs ≤ k → ∃ ys,
      FMDeemph.filter DeemphArith.exactInt alpha a (List.replicate k c) = some (c, ys)) ∧
    (3 ≤ alpha → ∀ k : Nat, ∃ ys,
      FMDeemph.filter DeemphArith.exactInt alpha 0 (List.replicate k 1) = some (0, ys)) := by
  have settle : ∀ c a : Int, ∃ v, |c - v| ≤ (alpha + 1) / 2 - 1 ∧
      FMDeemph.update DeemphArith.exactInt alpha v c = some v ∧
      ∀ k : Nat, (c - a).natAbs ≤ k → ∃ ys,
        FMDeemph.filter DeemphArith.exactInt alpha a (List.replicate k c) = some (v, ys) := by
    intro c a
    obtain ⟨v, hv, hk⟩ := FMDeemph.filter_settles alpha c hα (c - a).natAbs a
      (by rw [Int.natCast_natAbs])
    obtain ⟨v', hu, _, hiff, _⟩ := FMDeemph.update_exactInt_step alpha v c hα
    have hvv : v' = v := by rw [hu] at hv; exact Option.some.inj hv
    have := hiff.mp hvv
    exact ⟨v, by omega, hv, hk⟩
  refine ⟨?_, settle, ?_, ?_⟩
  · intro c avg
    obtain ⟨a, hu, hb, hiff, _⟩ := FMDeemph.update_exactInt_step alpha avg c hα
    exact ⟨a, hu, hb, hiff⟩
  · intro h2 c a k hk
    obtain ⟨v, hd, _, hall⟩ := settle c a
    have hvc : v = c := by
      have h0 : |c - v| ≤ 0 := by omega
      have := abs_nonpos_iff.mp h0
      omega
    rw [hvc] at hall
    exact hall k hk
  · intro h3 k
    obtain ⟨a, hu, _, hiff, _⟩ := FMDeemph.update_exactInt_step alpha 0 1 hα
    have ha : a = 0 := hiff.mpr (by
      have : |(1 : Int) - 0| = 1 := by norm_num
      rw [this]; omega)
    rw [ha] at hu
    exact FMDeemph.filter_stable _ alpha 0 1 hu k

/-- C19 at a concrete input: `alpha = 3`, input `10`, starting average `0`; after ten samples
the average is settled within distance `1` of the input. -/
theorem FMDeemph_filter_settling_witness :
    ∃ v, |(10 : Int) - v| ≤ (3 + 1) / 2 - 1 ∧
      FMDeemph.update DeemphArith.exactInt 3 v 10 = some v ∧
      ∀ k : Nat, ((10 : Int) - 0).natAbs ≤ k → ∃ ys,
        FMDeemph.filter DeemphArith.exactInt 3 0 (List.replicate k 10) = some (v, ys) :=
  (FMDeemph_filter_settling 3 (by decide)).2.1 10 0

/-- C20: the filtering of an enabled `FMDeemph` (the division by `_alpha` being defined, the
buffers fitting the node's own buffer where that is the output) does not depend on how the
stream is cut into buffers. For buffers `bA`, `bB` and a buffer `bAB` whose samples are those
of `bA` followed by those of `bB` (such as `bA ++ bB` when `bA` consists of whole samples),
processing `bA` and then `bB` in two consecutive calls sends filtered values whose
concatenation is what processing `bAB` in one call sends, and both ways end with the same
running average; this holds for every choice of the three `allow_overwrite` flags. -/
theorem FMDeemph_process_concat {κ α P : Type} (A : DeemphArith α P) (C : Codec κ α)
    (hC : C.WF) (self : FMDeemph κ α) (bA bB bAB : List κ) (aoA aoB aoAB : Bool)
    (hen : self._enabled = true)
    (hdiv : ∀ x : P, ∃ q, A.divInt x self._alpha = some q)
    (hcat : Buffer.elems C bAB = Buffer.elems C bA ++ Buffer.elems C bB)
    (hcapA : aoA = false → Buffer.size C bA ≤ Buffer.size C self._buffer)
    (hcapB : aoB = false → Buffer.size C bB ≤ Buffer.size C self._buffer)
    (hcapAB : aoAB = false → Buffer.size C bAB ≤ Buffer.size C self._buffer) :
    (bA.length % C.size = 0 →
      Buffer.elems C (bA ++ bB) = Buffer.elems C bA ++ Buffer.elems C bB) ∧
    ∃ st1 m1 s1 st2 m2 s2 st m s,
      FMDeemph.process A C self bA aoA = some (st1, m1, [s1]) ∧
      FMDeemph.process A C st1 bB aoB = some (st2, m2, [s2]) ∧
      FMDeemph.process A C self bAB aoAB = some (st, m, [s]) ∧
      Buffer.elems C s1.buffer ++ Buffer.elems C s2.buffer = Buffer.elems C s.buffer ∧
      st2._avg = st._avg := by
  refine ⟨Buffer.elems_append C hC bA bB, ?_⟩
  obtain ⟨r, ys, hf⟩ := FMDeemph.filter_total A self._alpha hdiv (Buffer.elems C bAB)
    self._avg
  have hf' := hf
  rw [hcat, FMDeemph.filter_append] at hf'
  cases hfA : FMDeemph.filter A self._alpha self._avg (Buffer.elems C bA) with
  | none => rw [hfA] at hf'; exact absurd hf' (by simp)
  | some rA =>
    rw [hfA, Option.some_bind] at hf'
    cases hfB : FMDeemph.filter A self._alpha rA.1 (Buffer.elems C bB) with
    | none => rw [hfB] at hf'; exact absurd hf' (by simp)
    | some rB =>
      rw [hfB, Option.some_bind] at hf'
      simp only [Option.some.injEq, Prod.mk.injEq] at hf'
      obtain ⟨st1, m1, h1, hp1, hv1, ha1, he1, hb1, hel1, _⟩ :=
        FMDeemph_process_filter A C hC self bA aoA rA.1 rA.2 hfA hen hcapA
      have hcapB' : aoB = false → Buffer.size C bB ≤ Buffer.size C st1._buffer := by
        intro h
        have := hcapB h
        unfold Buffer.size at this ⊢
        rw [hb1]; exact this
      obtain ⟨st2, m2, h2, hp2, hv2, _, _, _, hel2, _⟩ :=
        FMDeemph_process_filter A C hC st1 bB aoB rB.1 rB.2
          (by rw [ha1, hv1]; exact hfB) (by rw [he1]; exact hen) hcapB'
      obtain ⟨st, m, h, hp, hv, _, _, _, hel, _⟩ :=
        FMDeemph_process_filter A C hC self bAB aoAB r ys hf hen hcapAB
      refine ⟨st1, m1, _, st2, m2, _, st, m, _, hp1, hp2, hp, ?_, ?_⟩
      · show Buffer.elems C h1 ++ Buffer.elems C h2 = Buffer.elems C h
        rw [hel1, hel2, hel, hf'.2]
      · rw [hv2, hv, hf'.1]

/-- C20 at a concrete input: `[10, 10]` and `[10]` filtered in place against `[10, 10, 10]`
filtered into the node's own buffer. -/
theorem FMDeemph_process_concat_witness :
    ∃ st1 m1 s1 st2 m2 s2 st m s,
      FMDeemph.process (DeemphArith.int 16 32) (Codec.cell 0)
        { _enabled := true, _alpha := 2, _avg := 0, _buffer := [7, 7, 7] } [10, 10] true =
        some (st1, m1, [s1]) ∧
      FMDeemph.process (DeemphArith.int 16 32) (Codec.cell 0) st1 [10] true =
        some (st2, m2, [s2]) ∧
      FMDeemph.process (DeemphArith.int 16 32) (Codec.cell 0)
        { _enabled := true, _alpha := 2, _avg := 0, _buffer := [7, 7, 7] } [10, 10, 10] false =
        some (st, m, [s]) ∧
      Buffer.elems (Codec.cell 0) s1.buffer ++ Buffer.elems (Codec.cell 0) s2.buffer =
        Buffer.elems (Codec.cell (0 : Int)) s.buffer ∧
      st2._avg = st._avg :=
  (FMDeemph_process_concat (DeemphArith.int 16 32) (Codec.cell 0) (Codec.cell_wf 0)
    { _enabled := true, _alpha := 2, _avg := 0, _buffer := [7, 7, 7] } [10, 10] [10]
    [10, 10, 10] true true false rfl (fun x => ⟨_, rfl⟩) (by decide)
    (fun h => nomatch h) (fun h => nomatch h) (fun _ => by decide)).2

end sdr
